import Mathlib

/-!
# plypp: a shallow embedding of `plypp.h`

The header-only PLY decoder of `src/plypp.h` is translated function by function.

Conventions of the embedding.

* A file, a line and a token are lists of bytes (`List Nat`, every entry below 256); the
  text constants of the source are written `str "..."`.
* A scalar stored in a column is kept as the unsigned number that has the same bits as the
  C++ object (`int32_t` -1 is `4294967295`, `float` 1.0 is `0x3F800000`); `ScalarKind.toInt`
  and `ieeeToRat` read such a number as a signed integer or as a binary floating-point number.
* `std::endian::native` is the explicit argument `native`.
* A local variable that the source declares without an initialiser (`T value;`,
  `size_t size;`) holds an indeterminate value until a stream extraction stores into it.  An
  extraction that fails before it has stored the whole object leaves the value indeterminate;
  the source then appends it to the column all the same, and the column of the embedding
  holds `none` at that row.  A scalar that was stored is `some bits`.
* Indexing a vector out of its bounds, `back()` of an empty vector and a loop bound that is
  indeterminate have no behaviour to translate; they end the run with `Fault.outOfBounds`
  or `Fault.indeterminate`.  The exceptions of `unordered_map::at` and `std::get` are
  `Fault.outOfRange` and `Fault.badVariantAccess`; the `std::length_error` of a
  `reserve(n)` with `n` above `max_size()` is `Fault.lengthError`.  A fault that is an
  exception leaves `load`, which catches nothing.
* `size_t` is 64 bits wide.  Memory exhaustion (`std::bad_alloc`) is outside the embedding,
  and so are the two file-system checks that precede the first `getline` of `load`.
* The formatted extractions `in >> value` follow the C++11 rules of `std::num_get` in the
  classic locale (libstdc++ reading), decimal base.
-/

namespace plypp

/-! ## Bytes and text -/

/-- Bytes of a text constant of the source. -/
def str (s : String) : List Nat := s.toList.map Char.toNat

/-- Translation of `std::isspace` in the classic locale: space and the controls 9 to 13. -/
def isspace (c : Nat) : Bool := c == 32 || (9 ≤ c && c ≤ 13)

/-- Translation of `std::isdigit`. -/
def isdigit (c : Nat) : Bool := 48 ≤ c && c ≤ 57

/-- Translation of `std::string::starts_with`. -/
def starts_with : List Nat → List Nat → Bool
  | _, [] => true
  | [], _ :: _ => false
  | c :: cs, p :: ps => c == p && starts_with cs ps

/-- Translation of `std::getline(in, line)` on the unread bytes of a stream: `none` when
nothing is left, else the bytes before the first line feed (which is consumed and dropped)
and the bytes left unread. -/
def getline : List Nat → Option (List Nat × List Nat)
  | [] => none
  | c :: cs =>
    if c = 10 then some ([], cs)
    else
      match getline cs with
      | none => some ([c], [])
      | some (line, rest) => some (c :: line, rest)

/-- Loop of the lambda `split` of `load` (`while(in >> token) tokens.push_back(token)`):
`cur` is the token being read. -/
def splitGo (cur : List Nat) : List Nat → List (List Nat)
  | [] => if cur = [] then [] else [cur]
  | c :: cs =>
    if isspace c then
      (if cur = [] then splitGo [] cs else cur :: splitGo [] cs)
    else splitGo (cur ++ [c]) cs

/-- Translation of the lambda `split` of `load`: the whitespace-delimited tokens of a line. -/
def split (line : List Nat) : List (List Nat) := splitGo [] line

/-! ## Machine numbers -/

/-- Width of `size_t` in bits. -/
def sizeBits : Nat := 64

/-- Number of values of `size_t`. -/
def sizeMod : Nat := 2 ^ sizeBits

/-- Value of `std::endian::native`. -/
inductive Endian where
  | little
  | big
  deriving DecidableEq, Repr

/-- Translation of `enum class PLYValueFormat`. -/
inductive PLYValueFormat where
  | ASCII
  | BinaryLittleEndian
  | BinaryBigEndian
  deriving DecidableEq, Repr

/-- The eight types admitted by the concept `PLYValueType`. -/
inductive ScalarKind where
  | int8
  | uint8
  | int16
  | uint16
  | int32
  | uint32
  | float32
  | float64
  deriving DecidableEq, Repr

/-- Value of `sizeof(T)`. -/
def ScalarKind.sizeof : ScalarKind → Nat
  | .int8 => 1
  | .uint8 => 1
  | .int16 => 2
  | .uint16 => 2
  | .int32 => 4
  | .uint32 => 4
  | .float32 => 4
  | .float64 => 8

/-- Number whose little-endian digits in base 256 are the given bytes. -/
def leDecode : List Nat → Nat
  | [] => 0
  | b :: bs => b % 256 + 256 * leDecode bs

/-- The `w` little-endian bytes of a number. -/
def leEncode : Nat → Nat → List Nat
  | 0, _ => []
  | w + 1, v => v % 256 :: leEncode w (v / 256)

/-- The `w` big-endian bytes of a number: the little-endian bytes reversed. -/
def beEncode (w v : Nat) : List Nat := (leEncode w v).reverse

/-- Value that the host reads from the bytes of an object. -/
def objectValue (native : Endian) (mem : List Nat) : Nat :=
  match native with
  | .little => leDecode mem
  | .big => leDecode mem.reverse

/-- Signed reading of the stored bits of a scalar of an integer kind (two's complement). -/
def ScalarKind.toInt (k : ScalarKind) (bits : Nat) : Int :=
  match k with
  | .int8 => if bits < 2 ^ 7 then bits else (bits : Int) - 2 ^ 8
  | .int16 => if bits < 2 ^ 15 then bits else (bits : Int) - 2 ^ 16
  | .int32 => if bits < 2 ^ 31 then bits else (bits : Int) - 2 ^ 32
  | _ => bits

/-- Rational denoted by the bits of a binary floating-point number with `eb` exponent bits
and `mb` fraction bits; `none` for infinities and NaN. -/
def ieeeToRat (eb mb bits : Nat) : Option ℚ :=
  let frac := bits % 2 ^ mb
  let ex := (bits / 2 ^ mb) % 2 ^ eb
  let neg := (bits / 2 ^ (mb + eb)) % 2 = 1
  let bias : Int := 2 ^ (eb - 1) - 1
  if ex = 2 ^ eb - 1 then none
  else
    let mag : ℚ :=
      if ex = 0 then (frac : ℚ) * (2 : ℚ) ^ ((1 : Int) - bias - mb)
      else ((2 ^ mb + frac : Nat) : ℚ) * (2 : ℚ) ^ ((ex : Int) - bias - mb)
    some (if neg then -mag else mag)

/-- Rational denoted by the stored bits of a `float`. -/
def float32ToRat (bits : Nat) : Option ℚ := ieeeToRat 8 23 bits

/-- Rational denoted by the stored bits of a `double`. -/
def float64ToRat (bits : Nat) : Option ℚ := ieeeToRat 11 52 bits

/-! ## Streams -/

/-- State of a `std::istream`: the unread bytes, and whether `failbit` is set.  (`eofbit`
is only ever set when no byte is left, where every extraction fails anyway.) -/
structure IStream where
  buf : List Nat
  failed : Bool
  deriving DecidableEq, Repr

/-- Translation of `in.read(p, n)` into an object of `n` bytes: the bytes stored when all `n`
were read, `none` when the object was not stored whole (a failed stream stores nothing, a
short read stores only the bytes that were left and sets `failbit`). -/
def IStream.read (s : IStream) (n : Nat) : Option (List Nat) × IStream :=
  if s.failed then (none, s)
  else if n ≤ s.buf.length then (some (s.buf.take n), { buf := s.buf.drop n, failed := false })
  else (none, { buf := [], failed := true })

/-- Skipping of leading whitespace done by the sentry of a formatted extraction. -/
def skipws : List Nat → List Nat
  | [] => []
  | c :: cs => if isspace c then skipws cs else c :: cs

/-- Value of a run of decimal digits, most significant first, continuing from `acc`. -/
def digitsValue (acc : Nat) : List Nat → Nat
  | [] => acc
  | c :: cs => digitsValue (10 * acc + (c - 48)) cs

/-- Longest leading run of decimal digits, and what follows it. -/
def spanDigits : List Nat → List Nat × List Nat
  | [] => ([], [])
  | c :: cs =>
    if isdigit c then ((spanDigits cs).1.cons c, (spanDigits cs).2) else ([], c :: cs)

/-- Optional sign of a number: whether it is `-`, and what follows it. -/
def takeSign : List Nat → Bool × List Nat
  | [] => (false, [])
  | c :: cs => if c = 45 then (true, cs) else if c = 43 then (false, cs) else (false, c :: cs)

/-- Sentry of a formatted extraction: `none` when the stream has failed already or holds
only whitespace (the extraction then stores nothing and the stream is failed), else the
unread bytes from the first non-blank one on. -/
def sentry (s : IStream) : Option (List Nat) :=
  if s.failed then none
  else if skipws s.buf = [] then none
  else some (skipws s.buf)

/-- Translation of `in >> value` for `signed char` and `unsigned char` (the kinds int8 and
uint8): the character extractor, which stores the next non-blank byte itself. -/
def extractChar (s : IStream) : Option Nat × IStream :=
  match sentry s with
  | none => (none, { buf := if s.failed then s.buf else [], failed := true })
  | some [] => (none, { buf := [], failed := true })
  | some (c :: cs) => (some (c % 256), { buf := cs, failed := false })

/-- Translation of `in >> value` for an unsigned integer of `w` bits (`uint16_t`,
`uint32_t`, `size_t`): optional sign and decimal digits; no digit stores 0 and fails, a
magnitude above the maximum stores the maximum and fails, a minus sign negates modulo
`2 ^ w`. -/
def extractUnsigned (w : Nat) (s : IStream) : Option Nat × IStream :=
  match sentry s with
  | none => (none, { buf := if s.failed then s.buf else [], failed := true })
  | some b =>
    let sg := takeSign b
    let ds := spanDigits sg.2
    if ds.1 = [] then (some 0, { buf := ds.2, failed := true })
    else
      let mag := digitsValue 0 ds.1
      if mag > 2 ^ w - 1 then (some (2 ^ w - 1), { buf := ds.2, failed := true })
      else (some (if sg.1 then (2 ^ w - mag) % 2 ^ w else mag), { buf := ds.2, failed := false })

/-- Translation of `in >> value` for a signed integer of `w` bits (`int16_t`, `int32_t`):
optional sign and decimal digits; no digit stores 0 and fails, a value out of range stores
the nearest bound and fails.  The result is given as stored bits. -/
def extractSigned (w : Nat) (s : IStream) : Option Nat × IStream :=
  match sentry s with
  | none => (none, { buf := if s.failed then s.buf else [], failed := true })
  | some b =>
    let sg := takeSign b
    let ds := spanDigits sg.2
    if ds.1 = [] then (some 0, { buf := ds.2, failed := true })
    else
      let mag := digitsValue 0 ds.1
      if sg.1 then
        if mag > 2 ^ (w - 1) then (some (2 ^ (w - 1)), { buf := ds.2, failed := true })
        else (some ((2 ^ w - mag) % 2 ^ w), { buf := ds.2, failed := false })
      else
        if mag > 2 ^ (w - 1) - 1 then (some (2 ^ (w - 1) - 1), { buf := ds.2, failed := true })
        else (some mag, { buf := ds.2, failed := false })

/-- Integer part of the binary logarithm of the positive ratio `num / den`. -/
def floorLog2Ratio (num den : Nat) : Int :=
  let e0 : Int := (Nat.log2 num : Int) - (Nat.log2 den : Int)
  if 0 ≤ e0 then (if den * 2 ^ e0.toNat ≤ num then e0 else e0 - 1)
  else (if den ≤ num * 2 ^ (-e0).toNat then e0 else e0 - 1)

/-- Bits (sign bit excluded) of the binary floating-point number with `eb` exponent bits and
`mb` fraction bits nearest to `num / den`, ties to even; the flag tells that the ratio is
beyond the largest finite number, which is then the number returned. -/
def roundToFloat (eb mb num den : Nat) : Nat × Bool :=
  if num = 0 then (0, false)
  else
    let emin : Int := 2 - 2 ^ (eb - 1)
    let e := floorLog2Ratio num den
    let eff : Int := if e < emin then emin else e
    let qe : Int := eff - mb
    let n := if 0 ≤ qe then num else num * 2 ^ (-qe).toNat
    let d := if 0 ≤ qe then den * 2 ^ qe.toNat else den
    let q := n / d
    let r := n % d
    let m := if 2 * r > d ∨ (2 * r = d ∧ q % 2 = 1) then q + 1 else q
    let bits := (eff - emin).toNat * 2 ^ mb + m
    if bits ≥ (2 ^ eb - 1) * 2 ^ mb then ((2 ^ eb - 1) * 2 ^ mb - 1, true) else (bits, false)

/-- Translation of `in >> value` for `float` (`eb = 8`, `mb = 23`) and `double` (`eb = 11`,
`mb = 52`): optional sign, digits with an optional decimal point, optional exponent; the
decimal number is rounded to the nearest representable one.  A field without a mantissa
digit, or with an exponent mark and no exponent digit, stores 0 and fails; a magnitude
beyond the largest finite number stores that number and fails. -/
def extractFloat (eb mb : Nat) (s : IStream) : Option Nat × IStream :=
  match sentry s with
  | none => (none, { buf := if s.failed then s.buf else [], failed := true })
  | some b =>
    let sg := takeSign b
    let ip := spanDigits sg.2
    let hasDot := starts_with ip.2 [46]
    let fp := if hasDot then spanDigits (ip.2.drop 1) else ([], ip.2)
    let hasExp := (ip.1 ++ fp.1 ≠ []) && (starts_with fp.2 [101] || starts_with fp.2 [69])
    let esg := if hasExp then takeSign (fp.2.drop 1) else (false, fp.2)
    let ep := if hasExp then spanDigits esg.2 else ([], fp.2)
    if ip.1 ++ fp.1 = [] ∨ (hasExp = true ∧ ep.1 = []) then
      (some 0, { buf := ep.2, failed := true })
    else
      let mant := digitsValue 0 (ip.1 ++ fp.1)
      let ex := digitsValue 0 ep.1
      let up := if esg.1 then 0 else ex
      let down := fp.1.length + (if esg.1 then ex else 0)
      let r := roundToFloat eb mb (mant * 10 ^ up) (10 ^ down)
      let signBit := if sg.1 then 2 ^ (eb + mb) else 0
      (some (signBit + r.1), { buf := ep.2, failed := r.2 })

/-- Translation of `in >> value` for `T value` of kind `T`. -/
def extractScalar (T : ScalarKind) (s : IStream) : Option Nat × IStream :=
  match T with
  | .int8 => extractChar s
  | .uint8 => extractChar s
  | .int16 => extractSigned 16 s
  | .uint16 => extractUnsigned 16 s
  | .int32 => extractSigned 32 s
  | .uint32 => extractUnsigned 32 s
  | .float32 => extractFloat 8 23 s
  | .float64 => extractFloat 11 52 s

/-- Effect of `T value; in >> value;`: the bits of `value` afterwards (`none`: nothing was
stored) and the stream. -/
def formatted (T : ScalarKind) (s : IStream) : Option Nat × IStream := extractScalar T s

/-- Effect of `T value; in.read(&value, sizeof(T));` followed by the `std::reverse` that the
source guards with `std::endian::native != fileOrder`. -/
def unformatted (T : ScalarKind) (native fileOrder : Endian) (s : IStream) :
    Option Nat × IStream :=
  ((s.read T.sizeof).1.map
      (fun mem => objectValue native (if native ≠ fileOrder then mem.reverse else mem)),
    (s.read T.sizeof).2)

/-! ## Property columns -/

/-- What ends a run of the source without a return value. -/
inductive Fault where
  | outOfBounds
  | outOfRange
  | badVariantAccess
  | indeterminate
  | lengthError
  deriving DecidableEq, Repr

deriving instance DecidableEq for Except

/-- Translation of `class PLYValueProperty<T>`: the member `mValues`. -/
structure PLYValueProperty where
  mValues : List (Option Nat)
  deriving DecidableEq, Repr

/-- Translation of `class PLYListProperty<T>`, with the in-class initialisers of the
three size members. -/
structure PLYListProperty where
  mValues : List (List (Option Nat))
  mListSizeByteSize : Nat
  mTotalSize : Nat := 0
  mMinSize : Nat := 0
  mMaxSize : Nat := 0
  deriving DecidableEq, Repr

/-- Value of `std::vector<V>::max_size()` for a value type of `elemSize` bytes.  The value is
implementation-defined; this is `PTRDIFF_MAX / sizeof(V)`, the value of libstdc++ on the
64-bit platform that `sizeBits` fixes. -/
def vectorMaxSize (elemSize : Nat) : Nat := (2 ^ (sizeBits - 1) - 1) / elemSize

/-- Value of `sizeof(std::vector<T>)` on that platform: three pointers. -/
def vectorSizeof : Nat := 3 * (sizeBits / 8)

/-- Translation of `std::vector<V>::reserve(n)` for a value type of `elemSize` bytes, as far
as the caller sees it: `std::length_error` is thrown when `n > max_size()`, else only the
capacity changes.  A request within `max_size()` is taken to be served: `std::bad_alloc`
depends on the memory of the host and is not part of the model. -/
def reserve (elemSize n : Nat) : Except Fault Unit :=
  if n > vectorMaxSize elemSize then .error .lengthError else .ok ()

/-- Translation of `PLYValueProperty<T>(size_t size)`: `mValues.reserve(size)` on a
`std::vector<T>`. -/
def PLYValueProperty.new (T : ScalarKind) (size : Nat) : Except Fault PLYValueProperty :=
  match reserve T.sizeof size with
  | .error f => .error f
  | .ok _ => .ok { mValues := [] }

/-- Translation of `PLYListProperty<T>(size_t size, size_t listSizeByteSize)`:
`mValues.reserve(size)` on a `std::vector<std::vector<T>>`. -/
def PLYListProperty.new (_T : ScalarKind) (size listSizeByteSize : Nat) :
    Except Fault PLYListProperty :=
  match reserve vectorSizeof size with
  | .error f => .error f
  | .ok _ => .ok { mValues := [], mListSizeByteSize := listSizeByteSize }

/-- Translation of `PLYListProperty::totalSize`. -/
def PLYListProperty.totalSize (p : PLYListProperty) : Nat := p.mTotalSize

/-- Translation of `PLYListProperty::minSize`. -/
def PLYListProperty.minSize (p : PLYListProperty) : Nat := p.mMinSize

/-- Translation of `PLYListProperty::maxSize`. -/
def PLYListProperty.maxSize (p : PLYListProperty) : Nat := p.mMaxSize

/-- Translation of `PLYValueProperty<T>::load`. -/
def PLYValueProperty.load (T : ScalarKind) (native : Endian) (p : PLYValueProperty)
    (s : IStream) (valueFormat : PLYValueFormat) : PLYValueProperty × IStream :=
  match valueFormat with
  | .ASCII => ({ mValues := p.mValues ++ [(formatted T s).1] }, (formatted T s).2)
  | .BinaryLittleEndian =>
    ({ mValues := p.mValues ++ [(unformatted T native .little s).1] },
      (unformatted T native .little s).2)
  | .BinaryBigEndian =>
    ({ mValues := p.mValues ++ [(unformatted T native .big s).1] },
      (unformatted T native .big s).2)

/-- The loop `for(i = 0; i < size; ++i) { T value; in >> value; values.emplace_back(value); }`
of the ASCII branch of `PLYListProperty<T>::load`, with `n` iterations left. -/
def asciiItems (T : ScalarKind) : Nat → IStream → List (Option Nat) × IStream
  | 0, s => ([], s)
  | n + 1, s =>
    ((formatted T s).1 :: (asciiItems T n (formatted T s).2).1,
      (asciiItems T n (formatted T s).2).2)

/-- The first element loop of the binary branch of `PLYListProperty<T>::load` (the one that is
reached), with `n` iterations left: each element is read and reversed when
`std::endian::native != std::endian::little`, whatever the format. -/
def binaryItems (T : ScalarKind) (native : Endian) : Nat → IStream → List (Option Nat) × IStream
  | 0, s => ([], s)
  | n + 1, s =>
    ((unformatted T native .little s).1 ::
        (binaryItems T native n (unformatted T native .little s).2).1,
      (binaryItems T native n (unformatted T native .little s).2).2)

/-- The local `needSwap` of `PLYListProperty<T>::load`. -/
def needSwap (native : Endian) (valueFormat : PLYValueFormat) : Bool :=
  match valueFormat with
  | .BinaryLittleEndian => native ≠ .little
  | .BinaryBigEndian => native ≠ .big
  | .ASCII => false

/-- The `switch(mListSizeByteSize)` of the binary branch of `PLYListProperty<T>::load`: the
value of `size` after it and the stream.  The one-byte count is never reversed, the two- and
four-byte counts are reversed when `needSwap`; for any other width nothing is read and
`size` stays indeterminate. -/
def binaryListSize (native : Endian) (swap : Bool) (listSizeByteSize : Nat) (s : IStream) :
    Option Nat × IStream :=
  match listSizeByteSize with
  | 1 => ((s.read 1).1.map (fun mem => objectValue native mem), (s.read 1).2)
  | 2 =>
    ((s.read 2).1.map (fun mem => objectValue native (if swap then mem.reverse else mem)),
      (s.read 2).2)
  | 4 =>
    ((s.read 4).1.map (fun mem => objectValue native (if swap then mem.reverse else mem)),
      (s.read 4).2)
  | _ => (none, s)

/-- Translation of `PLYListProperty<T>::load`.  The statements that follow the first `break`
of the binary branch are never executed and are left out.  When `size` is indeterminate the
loop bound is, and the run ends with a fault; `values.reserve(size)` throws for a `size`
above `max_size()`. -/
def PLYListProperty.load (T : ScalarKind) (native : Endian) (p : PLYListProperty)
    (s : IStream) (valueFormat : PLYValueFormat) : Except Fault (PLYListProperty × IStream) :=
  let sz : Option Nat × IStream :=
    match valueFormat with
    | .ASCII => extractUnsigned sizeBits s
    | _ => binaryListSize native (needSwap native valueFormat) p.mListSizeByteSize s
  match sz.1 with
  | none => .error .indeterminate
  | some size =>
    match reserve T.sizeof size with
    | .error f => .error f
    | .ok _ =>
      let vs : List (Option Nat) × IStream :=
        match valueFormat with
        | .ASCII => asciiItems T size sz.2
        | _ => binaryItems T native size sz.2
      .ok ({ mValues := p.mValues ++ [vs.1]
             mListSizeByteSize := p.mListSizeByteSize
             mTotalSize := (p.mTotalSize + size) % sizeMod
             mMinSize := if p.mMinSize = 0 ∨ size < p.mMinSize then size else p.mMinSize
             mMaxSize := if size > p.mMaxSize then size else p.mMaxSize }, vs.2)

/-- Translation of `using PLYProperty = std::variant<...>`: one alternative per shape and
scalar type. -/
inductive PLYProperty where
  | value (T : ScalarKind) (p : PLYValueProperty)
  | list (T : ScalarKind) (p : PLYListProperty)
  deriving DecidableEq, Repr

/-- The call `std::visit([&](auto& property) { property.load(in, valueFormat); }, p)` of the
body loops of `load`. -/
def PLYProperty.load (native : Endian) (p : PLYProperty) (s : IStream)
    (valueFormat : PLYValueFormat) : Except Fault (PLYProperty × IStream) :=
  match p with
  | .value T q => .ok (.value T (q.load T native s valueFormat).1, (q.load T native s valueFormat).2)
  | .list T q =>
    match q.load T native s valueFormat with
    | .error f => .error f
    | .ok r => .ok (.list T r.1, r.2)

/-! ## Elements and documents -/

/-- A name: the bytes of a `std::string`. -/
abbrev Name := List Nat

/-- A `std::unordered_map<std::string, V>`, kept as the list of its entries (keys distinct);
the source only ever looks keys up, it never iterates over a map. -/
abbrev Map (V : Type) := List (Name × V)

/-- Translation of `find`: the value stored under a key. -/
def Map.lookup {V : Type} : Map V → Name → Option V
  | [], _ => none
  | (k, v) :: m, n => if n = k then some v else Map.lookup m n

/-- Translation of `contains`. -/
def Map.contains {V : Type} (m : Map V) (n : Name) : Bool := (Map.lookup m n).isSome

/-- Translation of `m[n] = v`: the value under `n` is replaced, or the entry is added. -/
def Map.assign {V : Type} : Map V → Name → V → Map V
  | [], n, v => [(n, v)]
  | (k, w) :: m, n, v => if n = k then (k, v) :: m else (k, w) :: Map.assign m n v

/-- Translation of `emplace(n, v)`: nothing happens when the key is present. -/
def Map.emplace {V : Type} (m : Map V) (n : Name) (v : V) : Map V :=
  if Map.contains m n then m else Map.assign m n v

/-- Translation of `class PLYElement`. -/
structure PLYElement where
  mSize : Nat := 0
  mProperties : List PLYProperty := []
  mPropertyIndices : Map Nat := []
  deriving DecidableEq, Repr

/-- Translation of `PLYElement::size`. -/
def PLYElement.size (e : PLYElement) : Nat := e.mSize

/-- Translation of `PLYElement::addValueProperty`.  When no comparison of the chain holds
nothing is appended; the index stored under the name is `mProperties.size() - 1` in every
case, which in `size_t` arithmetic is `2 ^ 64 - 1` for an empty vector.  When the
constructor of the column throws nothing is appended and nothing is stored. -/
def PLYElement.addValueProperty (e : PLYElement) (name typeName : Name) :
    Except Fault PLYElement :=
  let props : Except Fault (List PLYProperty) :=
    if typeName = str "int8" ∨ typeName = str "char" then
      (PLYValueProperty.new .int8 e.mSize).map (fun c => e.mProperties ++ [.value .int8 c])
    else if typeName = str "uint8" ∨ typeName = str "uchar" then
      (PLYValueProperty.new .uint8 e.mSize).map (fun c => e.mProperties ++ [.value .uint8 c])
    else if typeName = str "int16" ∨ typeName = str "short" then
      (PLYValueProperty.new .int16 e.mSize).map (fun c => e.mProperties ++ [.value .int16 c])
    else if typeName = str "uint16" ∨ typeName = str "ushort" then
      (PLYValueProperty.new .uint16 e.mSize).map (fun c => e.mProperties ++ [.value .uint16 c])
    else if typeName = str "int32" ∨ typeName = str "int" then
      (PLYValueProperty.new .int32 e.mSize).map (fun c => e.mProperties ++ [.value .int32 c])
    else if typeName = str "uint32" ∨ typeName = str "uint" then
      (PLYValueProperty.new .uint32 e.mSize).map (fun c => e.mProperties ++ [.value .uint32 c])
    else if typeName = str "float32" ∨ typeName = str "float" then
      (PLYValueProperty.new .float32 e.mSize).map (fun c => e.mProperties ++ [.value .float32 c])
    else if typeName = str "float64" ∨ typeName = str "double" then
      (PLYValueProperty.new .float64 e.mSize).map (fun c => e.mProperties ++ [.value .float64 c])
    else .ok e.mProperties
  props.map (fun props =>
    { mSize := e.mSize
      mProperties := props
      mPropertyIndices :=
        Map.assign e.mPropertyIndices name
          (if props.length = 0 then sizeMod - 1 else props.length - 1) })

/-- Translation of `PLYElement::addListProperty`; see `addValueProperty`. -/
def PLYElement.addListProperty (e : PLYElement) (name typeName : Name)
    (listSizeByteSize : Nat) : Except Fault PLYElement :=
  let props : Except Fault (List PLYProperty) :=
    if typeName = str "int8" ∨ typeName = str "char" then
      (PLYListProperty.new .int8 e.mSize listSizeByteSize).map
        (fun c => e.mProperties ++ [.list .int8 c])
    else if typeName = str "uint8" ∨ typeName = str "uchar" then
      (PLYListProperty.new .uint8 e.mSize listSizeByteSize).map
        (fun c => e.mProperties ++ [.list .uint8 c])
    else if typeName = str "int16" ∨ typeName = str "short" then
      (PLYListProperty.new .int16 e.mSize listSizeByteSize).map
        (fun c => e.mProperties ++ [.list .int16 c])
    else if typeName = str "uint16" ∨ typeName = str "ushort" then
      (PLYListProperty.new .uint16 e.mSize listSizeByteSize).map
        (fun c => e.mProperties ++ [.list .uint16 c])
    else if typeName = str "int32" ∨ typeName = str "int" then
      (PLYListProperty.new .int32 e.mSize listSizeByteSize).map
        (fun c => e.mProperties ++ [.list .int32 c])
    else if typeName = str "uint32" ∨ typeName = str "uint" then
      (PLYListProperty.new .uint32 e.mSize listSizeByteSize).map
        (fun c => e.mProperties ++ [.list .uint32 c])
    else if typeName = str "float32" ∨ typeName = str "float" then
      (PLYListProperty.new .float32 e.mSize listSizeByteSize).map
        (fun c => e.mProperties ++ [.list .float32 c])
    else if typeName = str "float64" ∨ typeName = str "double" then
      (PLYListProperty.new .float64 e.mSize listSizeByteSize).map
        (fun c => e.mProperties ++ [.list .float64 c])
    else .ok e.mProperties
  props.map (fun props =>
    { mSize := e.mSize
      mProperties := props
      mPropertyIndices :=
        Map.assign e.mPropertyIndices name
          (if props.length = 0 then sizeMod - 1 else props.length - 1) })

/-- Translation of `PLYElement::getProperty` (both overloads):
`mProperties[mPropertyIndices.at(name)]`.  `at` throws for an absent name; the index is not
checked by the source. -/
def PLYElement.getProperty (e : PLYElement) (name : Name) : Except Fault PLYProperty :=
  match Map.lookup e.mPropertyIndices name with
  | none => .error .outOfRange
  | some i =>
    match e.mProperties[i]? with
    | none => .error .outOfBounds
    | some p => .ok p

/-- Assignment through the reference that the non-const `getProperty(name)` returned. -/
def PLYElement.putProperty (e : PLYElement) (name : Name) (p : PLYProperty) : PLYElement :=
  match Map.lookup e.mPropertyIndices name with
  | none => e
  | some i =>
    { mSize := e.mSize
      mProperties := e.mProperties.set i p
      mPropertyIndices := e.mPropertyIndices }

/-- Translation of `PLYElement::getValueProperty<T>`: `std::get` throws when the variant
holds another alternative. -/
def PLYElement.getValueProperty (e : PLYElement) (T : ScalarKind) (name : Name) :
    Except Fault PLYValueProperty :=
  match e.getProperty name with
  | .error f => .error f
  | .ok (.value K q) => if K = T then .ok q else .error .badVariantAccess
  | .ok (.list _ _) => .error .badVariantAccess

/-- Translation of `PLYElement::getListProperty<T>`. -/
def PLYElement.getListProperty (e : PLYElement) (T : ScalarKind) (name : Name) :
    Except Fault PLYListProperty :=
  match e.getProperty name with
  | .error f => .error f
  | .ok (.list K q) => if K = T then .ok q else .error .badVariantAccess
  | .ok (.value _ _) => .error .badVariantAccess

/-- Translation of `PLYElement::containsValueProperty<T>`:
`mPropertyIndices.contains(name) && std::holds_alternative<...>(getProperty(name))`. -/
def PLYElement.containsValueProperty (e : PLYElement) (T : ScalarKind) (name : Name) :
    Except Fault Bool :=
  if Map.contains e.mPropertyIndices name then
    match e.getProperty name with
    | .error f => .error f
    | .ok (.value K _) => .ok (decide (K = T))
    | .ok (.list _ _) => .ok false
  else .ok false

/-- Translation of `PLYElement::containsListProperty<T>`. -/
def PLYElement.containsListProperty (e : PLYElement) (T : ScalarKind) (name : Name) :
    Except Fault Bool :=
  if Map.contains e.mPropertyIndices name then
    match e.getProperty name with
    | .error f => .error f
    | .ok (.list K _) => .ok (decide (K = T))
    | .ok (.value _ _) => .ok false
  else .ok false

/-- Translation of `class PLYPolygon`. -/
structure PLYPolygon where
  mElements : Map PLYElement := []
  deriving DecidableEq, Repr

/-- Translation of the non-const `PLYPolygon::getElement`, `mElements[name]`: an absent name
is first entered with a default-constructed element.  The result is the element referred to
and the document after the call. -/
def PLYPolygon.getElement (p : PLYPolygon) (name : Name) : PLYElement × PLYPolygon :=
  match Map.lookup p.mElements name with
  | some e => (e, p)
  | none => ({}, { mElements := Map.assign p.mElements name {} })

/-- Assignment through the reference that the non-const `getElement(name)` returned. -/
def PLYPolygon.putElement (p : PLYPolygon) (name : Name) (e : PLYElement) : PLYPolygon :=
  { mElements := Map.assign p.mElements name e }

/-- Translation of the const `PLYPolygon::getElement`, `mElements.at(name)`. -/
def PLYPolygon.getElement_const (p : PLYPolygon) (name : Name) : Except Fault PLYElement :=
  match Map.lookup p.mElements name with
  | some e => .ok e
  | none => .error .outOfRange

/-- Translation of `PLYPolygon::containsElement`. -/
def PLYPolygon.containsElement (p : PLYPolygon) (name : Name) : Bool :=
  Map.contains p.mElements name

/-- Translation of `PLYPolygon::addElement`: `mElements.emplace(name, size)`. -/
def PLYPolygon.addElement (p : PLYPolygon) (name : Name) (size : Nat) : PLYPolygon :=
  { mElements := Map.emplace p.mElements name { mSize := size } }

/-! ## The function `load` -/

/-- The locals of `load` that the header loop builds. -/
structure HeaderState where
  elementNames : List Name := []
  propertyNamesPerElement : Map (List Name) := []
  polygon : PLYPolygon := {}
  valueFormat : PLYValueFormat := .ASCII
  deriving DecidableEq, Repr

/-- Unchecked `v[i]` of a `std::vector`. -/
def index {α : Type} (v : List α) (i : Nat) : Except Fault α :=
  match v[i]? with
  | some x => .ok x
  | none => .error .outOfBounds

/-- Unchecked `back()` of a `std::vector`. -/
def back {α : Type} (v : List α) : Except Fault α :=
  match v.getLast? with
  | some x => .ok x
  | none => .error .outOfBounds

/-- The `if(tokens[2] == ...)` chain of the `property list` branch of `load`: the value given
to `listSizeByteSize`, or `none` where the source returns `std::nullopt`. -/
def listSizeByteSize (countType : Name) : Option Nat :=
  if countType = str "uint8" ∨ countType = str "uchar" then some 1
  else if countType = str "uint16" ∨ countType = str "ushort" then some 2
  else if countType = str "uint32" ∨ countType = str "uint" then some 4
  else none

/-- The statements `size_t size; std::istringstream(tokens[2]) >> size;` of the `element`
branch of `load`. -/
def elementSize (token : Name) : Except Fault Nat :=
  match (extractUnsigned sizeBits { buf := token, failed := false }).1 with
  | some size => .ok size
  | none => .error .indeterminate

/-- One pass through the body of the header loop of `load`, from `tokens[0] == "property"`
on, for the tokens of a line that is neither a comment nor `end_header`.  The result is `none`
where the source returns `std::nullopt`, else the locals after the pass. -/
def headerLine (st : HeaderState) (tokens : List Name) : Except Fault (Option HeaderState) := do
  let t0 ← index tokens 0
  if t0 = str "property" then
    let elementName ← back st.elementNames
    let ep := st.polygon.getElement elementName
    let propertyNames := (Map.lookup st.propertyNamesPerElement elementName).getD []
    let t1 ← index tokens 1
    if t1 = str "list" then
      let t2 ← index tokens 2
      match listSizeByteSize t2 with
      | none => return none
      | some w =>
        let t4 ← index tokens 4
        let t3 ← index tokens 3
        let element ← ep.1.addListProperty t4 t3 w
        return some
          { elementNames := st.elementNames
            propertyNamesPerElement :=
              Map.assign st.propertyNamesPerElement elementName (propertyNames ++ [t4])
            polygon := ep.2.putElement elementName element
            valueFormat := st.valueFormat }
    else
      let t2 ← index tokens 2
      let element ← ep.1.addValueProperty t2 t1
      return some
        { elementNames := st.elementNames
          propertyNamesPerElement :=
            Map.assign st.propertyNamesPerElement elementName (propertyNames ++ [t2])
          polygon := ep.2.putElement elementName element
          valueFormat := st.valueFormat }
  else if t0 = str "element" then
    let t1 ← index tokens 1
    let t2 ← index tokens 2
    let size ← elementSize t2
    return some
      { elementNames := st.elementNames ++ [t1]
        propertyNamesPerElement := st.propertyNamesPerElement
        polygon := st.polygon.addElement t1 size
        valueFormat := st.valueFormat }
  else if t0 = str "format" then
    let t1 ← index tokens 1
    if t1 = str "ascii" then
      return some { st with valueFormat := .ASCII }
    else if t1 = str "binary_little_endian" then
      return some { st with valueFormat := .BinaryLittleEndian }
    else if t1 = str "binary_big_endian" then
      return some { st with valueFormat := .BinaryBigEndian }
    else return some st
  else return some st

/-- The header loop `while(std::getline(fin, line))` of `load`.  The result is `none` where
the source returns `std::nullopt`, else the locals and the unread bytes of `fin` when the
loop is left (by `break` at `end_header`, or because no line is left).  Every pass consumes
a byte, so `fuel` passes suffice for `fuel` unread bytes; with no fuel left nothing is unread
and the loop condition is false. -/
def headerLoop : Nat → HeaderState → List Nat → Except Fault (Option (HeaderState × List Nat))
  | 0, st, fin => .ok (some (st, fin))
  | fuel + 1, st, fin =>
    match getline fin with
    | none => .ok (some (st, fin))
    | some (line, rest) =>
      if starts_with line (str "comment") then headerLoop fuel st rest
      else if line = str "end_header" then .ok (some (st, rest))
      else
        match headerLine st (split line) with
        | .error f => .error f
        | .ok none => .ok none
        | .ok (some st1) => headerLoop fuel st1 rest

/-- The loop `for(const std::string& propertyName : propertyNames)` of the body of `load`:
every named property of the element loads one row from the stream. -/
def loadRow (native : Endian) (valueFormat : PLYValueFormat) :
    List Name → PLYElement → IStream → Except Fault (PLYElement × IStream)
  | [], e, s => .ok (e, s)
  | propertyName :: names, e, s =>
    match e.getProperty propertyName with
    | .error f => .error f
    | .ok p =>
      match p.load native s valueFormat with
      | .error f => .error f
      | .ok r => loadRow native valueFormat names (e.putProperty propertyName r.1) r.2

/-- The row loop of the `case PLYValueFormat::ASCII` of the body of `load`, with `n` rows
left: a line is taken from `fin` for each row (`none`, the `std::nullopt` of the source, when
no line is left) and the properties read from a stream over that line. -/
def asciiRows (native : Endian) (propertyNames : List Name) :
    Nat → PLYElement → List Nat → Except Fault (Option (PLYElement × List Nat))
  | 0, e, fin => .ok (some (e, fin))
  | n + 1, e, fin =>
    match getline fin with
    | none => .ok none
    | some (line, rest) =>
      match loadRow native .ASCII propertyNames e { buf := line, failed := false } with
      | .error f => .error f
      | .ok r => asciiRows native propertyNames n r.1 rest

/-- The row loop of the `default` case of the body of `load`, with `n` rows left: the
properties read from `fin` itself. -/
def binaryRows (native : Endian) (valueFormat : PLYValueFormat) (propertyNames : List Name) :
    Nat → PLYElement → IStream → Except Fault (PLYElement × IStream)
  | 0, e, fin => .ok (e, fin)
  | n + 1, e, fin =>
    match loadRow native valueFormat propertyNames e fin with
    | .error f => .error f
    | .ok r => binaryRows native valueFormat propertyNames n r.1 r.2

/-- The loop `for(const std::string& elementName : elementNames)` of `load`.  The result is
`none` where the source returns `std::nullopt`. -/
def bodyLoop (native : Endian) (valueFormat : PLYValueFormat)
    (propertyNamesPerElement : Map (List Name)) :
    List Name → PLYPolygon → IStream → Except Fault (Option (PLYPolygon × IStream))
  | [], polygon, fin => .ok (some (polygon, fin))
  | elementName :: names, polygon, fin =>
    let ep := polygon.getElement elementName
    let propertyNames := (Map.lookup propertyNamesPerElement elementName).getD []
    match valueFormat with
    | .ASCII =>
      match asciiRows native propertyNames ep.1.size ep.1 fin.buf with
      | .error f => .error f
      | .ok none => .ok none
      | .ok (some r) =>
        bodyLoop native valueFormat propertyNamesPerElement names
          (ep.2.putElement elementName r.1) { buf := r.2, failed := fin.failed }
    | _ =>
      match binaryRows native valueFormat propertyNames ep.1.size ep.1 fin with
      | .error f => .error f
      | .ok r =>
        bodyLoop native valueFormat propertyNamesPerElement names
          (ep.2.putElement elementName r.1) r.2

/-- Translation of `plypp::load`, applied to the bytes of a file that exists and opens:
`.ok none` is the `std::nullopt` of the source, `.ok (some polygon)` a returned document.
`native` is `std::endian::native`. -/
def load (native : Endian) (file : List Nat) : Except Fault (Option PLYPolygon) :=
  match getline file with
  | none => .ok none
  | some (line, rest) =>
    if line ≠ str "ply" then .ok none
    else
      match headerLoop rest.length {} rest with
      | .error f => .error f
      | .ok none => .ok none
      | .ok (some (st, fin)) =>
        match bodyLoop native st.valueFormat st.propertyNamesPerElement st.elementNames
            st.polygon { buf := fin, failed := false } with
        | .error f => .error f
        | .ok none => .ok none
        | .ok (some r) => .ok (some r.1)

/-! ## The alias table of the specification -/

/-- Alias table of the specification (section 4.1, ScalarTypeResolver): the sixteen type
tokens and the scalar kind each denotes. -/
def aliasTable : List (Name × ScalarKind) :=
  [(str "int8", .int8), (str "char", .int8), (str "uint8", .uint8), (str "uchar", .uint8),
   (str "int16", .int16), (str "short", .int16), (str "uint16", .uint16),
   (str "ushort", .uint16), (str "int32", .int32), (str "int", .int32),
   (str "uint32", .uint32), (str "uint", .uint32), (str "float32", .float32),
   (str "float", .float32), (str "float64", .float64), (str "double", .float64)]

/-- The resolver of the specification: the kind of a type token, `none` for a token that is
not in the alias table. -/
def scalarKindOf (token : Name) : Option ScalarKind := Map.lookup aliasTable token

/-- List count-type tokens of the specification (section 6) with the width each denotes. -/
def countTypeTable : List (Name × Nat) :=
  [(str "uint8", 1), (str "uchar", 1), (str "uint16", 2), (str "ushort", 2),
   (str "uint32", 4), (str "uint", 4)]

/-! ## The files of the example scenarios -/

/-- Header of the example scenario, from the `element vertex 3` line to `end_header`. -/
def exampleSchema : List Nat :=
  str "element vertex 3\nproperty float x\nproperty float y\nproperty float z\nelement face 1\nproperty list uint8 int32 vertex_indices\nend_header\n"

/-- The ASCII file of the example scenario. -/
def asciiExample : List Nat :=
  str "ply\nformat ascii\n" ++ exampleSchema ++ str "0 0 0\n1 0 0\n0 1 0\n3 0 1 2\n"

/-- The bits of the `float` 1.0. -/
def floatOne : Nat := 0x3F800000

/-- Body of the binary example: nine little-endian floats, the count byte 3, three
little-endian `int32`. -/
def binaryBody : List Nat :=
  ([0, 0, 0, floatOne, 0, 0, 0, floatOne, 0].map (leEncode 4)).flatten ++ [3] ++
    ([0, 1, 2].map (leEncode 4)).flatten

/-- The `binary_little_endian` file of the example scenario. -/
def binaryExample : List Nat :=
  str "ply\nformat binary_little_endian\n" ++ exampleSchema ++ binaryBody

/-- The document that both example files decode to. -/
def exampleDocument : PLYPolygon :=
  { mElements :=
      [(str "vertex",
        { mSize := 3
          mProperties :=
            [.value .float32 { mValues := [some 0, some floatOne, some 0] },
             .value .float32 { mValues := [some 0, some 0, some floatOne] },
             .value .float32 { mValues := [some 0, some 0, some 0] }]
          mPropertyIndices := [(str "x", 0), (str "y", 1), (str "z", 2)] }),
       (str "face",
        { mSize := 1
          mProperties :=
            [.list .int32
              { mValues := [[some 0, some 1, some 2]]
                mListSizeByteSize := 1
                mTotalSize := 3
                mMinSize := 3
                mMaxSize := 3 }]
          mPropertyIndices := [(str "vertex_indices", 0)] })] }

/-! ## Inputs and expected results used by the theorems -/

/-- A `binary_big_endian` file with one face whose list holds the single `int32` 1: a
two-byte big-endian count and a four-byte big-endian element. -/
def bigEndianListFile : List Nat :=
  str "ply\nformat binary_big_endian\nelement face 1\nproperty list ushort int vertex_indices\nend_header\n"
    ++ beEncode 2 1 ++ beEncode 4 1

/-- The same face in a `binary_little_endian` file. -/
def littleEndianListFile : List Nat :=
  str "ply\nformat binary_little_endian\nelement face 1\nproperty list ushort int vertex_indices\nend_header\n"
    ++ leEncode 2 1 ++ leEncode 4 1

/-- Document with the single element face of one row, whose list column holds `row`. -/
def oneFaceDocument (row : List (Option Nat)) : PLYPolygon :=
  { mElements :=
      [(str "face",
        { mSize := 1
          mProperties :=
            [.list .int32
              { mValues := [row]
                mListSizeByteSize := 2
                mTotalSize := 1
                mMinSize := 1
                mMaxSize := 1 }]
          mPropertyIndices := [(str "vertex_indices", 0)] })] }

/-- The example document with the last element of the list row indeterminate. -/
def truncatedDocument : PLYPolygon :=
  { mElements :=
      [(str "vertex",
        { mSize := 3
          mProperties :=
            [.value .float32 { mValues := [some 0, some floatOne, some 0] },
             .value .float32 { mValues := [some 0, some 0, some floatOne] },
             .value .float32 { mValues := [some 0, some 0, some 0] }]
          mPropertyIndices := [(str "x", 0), (str "y", 1), (str "z", 2)] }),
       (str "face",
        { mSize := 1
          mProperties :=
            [.list .int32
              { mValues := [[some 0, some 1, none]]
                mListSizeByteSize := 1
                mTotalSize := 3
                mMinSize := 3
                mMaxSize := 3 }]
          mPropertyIndices := [(str "vertex_indices", 0)] })] }

/-- An ASCII file whose second property has the type token `foo`. -/
def unknownTypeFile : List Nat :=
  str "ply\nformat ascii\nelement vertex 1\nproperty float x\nproperty foo y\nend_header\n1 2\n"

/-- An ASCII file whose only property has the type token `foo`. -/
def unknownFirstTypeFile : List Nat :=
  str "ply\nformat ascii\nelement vertex 1\nproperty foo x\nend_header\n1\n"

/-- An ASCII file whose second property is a list with the element type token `foo`. -/
def unknownListTypeFile : List Nat :=
  str "ply\nformat ascii\nelement vertex 1\nproperty float x\nproperty list uchar foo y\nend_header\n1 2\n"

/-- The bits of the `float` 2.0. -/
def floatTwo : Nat := 0x40000000

/-- The element that `load` builds from `unknownTypeFile` and from `unknownListTypeFile`:
one column, two names, two values for one row. -/
def unknownTypeElement : PLYElement :=
  { mSize := 1
    mProperties := [.value .float32 { mValues := [some floatOne, some floatTwo] }]
    mPropertyIndices := [(str "x", 0), (str "y", 0)] }

/-- An ASCII file with two faces, the first with an empty list and the second with a list of
three. -/
def emptyFirstRowFile : List Nat :=
  str "ply\nformat ascii\nelement face 2\nproperty list uchar int vertex_indices\nend_header\n0\n3 0 1 2\n"

/-- The list column after rows of lengths 0 and 3, as the source leaves it. -/
def emptyFirstRowColumn : PLYListProperty :=
  { mValues := [[], [some 0, some 1, some 2]]
    mListSizeByteSize := 1
    mTotalSize := 3
    mMinSize := 3
    mMaxSize := 3 }

/-! ## Descriptions used by the lemmas -/

/-- The columns after `addValueProperty`, in terms of the resolver of the specification. -/
def valueColumns (e : PLYElement) (ty : Name) : List PLYProperty :=
  match scalarKindOf ty with
  | some K => e.mProperties ++ [.value K { mValues := [] }]
  | none => e.mProperties

/-- The columns after `addListProperty`, in terms of the resolver of the specification. -/
def listColumns (e : PLYElement) (ty : Name) (w : Nat) : List PLYProperty :=
  match scalarKindOf ty with
  | some K => e.mProperties ++ [.list K { mValues := [], mListSizeByteSize := w }]
  | none => e.mProperties

/-- The element after a returning `addValueProperty`, in terms of the resolver of the
specification. -/
def withValueProperty (e : PLYElement) (name ty : Name) : PLYElement :=
  { mSize := e.mSize
    mProperties := valueColumns e ty
    mPropertyIndices :=
      Map.assign e.mPropertyIndices name
        (if (valueColumns e ty).length = 0 then sizeMod - 1
          else (valueColumns e ty).length - 1) }

/-- The element after a returning `addListProperty`, in terms of the resolver of the
specification. -/
def withListProperty (e : PLYElement) (name ty : Name) (w : Nat) : PLYElement :=
  { mSize := e.mSize
    mProperties := listColumns e ty w
    mPropertyIndices :=
      Map.assign e.mPropertyIndices name
        (if (listColumns e ty w).length = 0 then sizeMod - 1
          else (listColumns e ty w).length - 1) }

/-- The case in which `addValueProperty` throws: the type token resolves to a kind and the
size of the element is above `max_size()` of a vector of that kind. -/
def valueReserveThrows (e : PLYElement) (ty : Name) : Bool :=
  match scalarKindOf ty with
  | some K => decide (e.mSize > vectorMaxSize K.sizeof)
  | none => false

/-- The case in which `addListProperty` throws: the type token resolves to a kind and the
size of the element is above `max_size()` of a vector of vectors. -/
def listReserveThrows (e : PLYElement) (ty : Name) : Bool :=
  match scalarKindOf ty with
  | some _ => decide (e.mSize > vectorMaxSize vectorSizeof)
  | none => false

/-- State of the header loop after the line `element face 1`. -/
def afterElementFace : HeaderState :=
  { elementNames := [str "face"]
    polygon := { mElements := [(str "face", { mSize := 1 })] } }

/-! ## Headers as the specification describes them -/

/-- An element of a schema (specification, section 3): its name, its row count and its value
properties, kind and name, in declared order. -/
structure ElementDecl where
  name : Name
  count : Nat
  properties : List (ScalarKind × Name)
  deriving DecidableEq, Repr

/-- Names of the properties of an element, in declared order. -/
def ElementDecl.propertyNames (d : ElementDecl) : List Name := d.properties.map Prod.snd

/-- Sum of the byte widths of a list of value properties. -/
def rowBytes (props : List (ScalarKind × Name)) : Nat := (props.map (fun p => p.1.sizeof)).sum

/-- Number of body bytes of an element made of value properties: rows times row width. -/
def ElementDecl.bytes (d : ElementDecl) : Nat := d.count * rowBytes d.properties

/-- Offset of the `j`-th property inside a row: the widths of the earlier properties. -/
def colOffset (props : List (ScalarKind × Name)) (j : Nat) : Nat := rowBytes (props.take j)

/-- Offset of the `k`-th element inside the body: the bytes of the earlier elements. -/
def elemOffset (sch : List ElementDecl) (k : Nat) : Nat :=
  ((sch.take k).map ElementDecl.bytes).sum

/-- What a header line declares (specification, section 4.4), for headers with value
properties and the format `binary_little_endian`. -/
inductive HeaderDecl where
  | comment
  | format
  | element (name : Name) (count : Nat)
  | property (T : ScalarKind) (name : Name)
  deriving DecidableEq, Repr

/-- The text `line` is a header line that declares `d`: it holds no line feed, and it starts
with `comment`, or its tokens are `format binary_little_endian ...`, `element <name> <count>
...` with the count read as `load` reads it, or `property <type> <name> ...` with a type
token of the alias table. -/
def Denotes (line : List Nat) (d : HeaderDecl) : Prop :=
  10 ∉ line ∧
  match d with
  | .comment => starts_with line (str "comment") = true
  | .format => ∃ ts, split line = str "format" :: str "binary_little_endian" :: ts
  | .element name count =>
    ∃ tok ts, split line = str "element" :: name :: tok :: ts ∧ elementSize tok = .ok count
  | .property T name =>
    ∃ ty ts, split line = str "property" :: ty :: name :: ts ∧ scalarKindOf ty = some T

/-- The schema declared so far, most recent element first, after one more declaration: an
element opens a new entry, a property is attached to the most recent element. -/
def declareRev : List ElementDecl → HeaderDecl → List ElementDecl
  | rsch, .element name count => { name := name, count := count, properties := [] } :: rsch
  | d :: rsch, .property T name =>
    { name := d.name, count := d.count, properties := d.properties ++ [(T, name)] } :: rsch
  | rsch, _ => rsch

/-- The schema that a list of declarations describes, elements in declared order. -/
def schemaOf (decls : List HeaderDecl) : List ElementDecl :=
  (decls.foldl declareRev []).reverse

/-- No `property` declaration comes before the first `element` declaration. -/
def noPropertyBeforeElement : List HeaderDecl → Bool
  | [] => true
  | .element _ _ :: _ => true
  | .property _ _ :: _ => false
  | _ :: ds => noPropertyBeforeElement ds

/-- The bytes of a file up to the body: the line `ply`, the header lines, the line
`end_header`, each ended by a line feed. -/
def headerText (lines : List (List Nat)) : List Nat :=
  str "ply" ++ 10 :: ((lines.map (fun l => l ++ [10])).flatten ++ (str "end_header" ++ [10]))

/-- The index map of an element whose properties have the given distinct names, the first
with index `i`. -/
def indexMap : List Name → Nat → Map Nat
  | [], _ => []
  | n :: ns, i => (n, i) :: indexMap ns (i + 1)

/-- Value columns of the given kinds holding the given values. -/
def columnsOf (props : List (ScalarKind × Name)) (valss : List (List (Option Nat))) :
    List PLYProperty :=
  List.zipWith (fun p vs => PLYProperty.value p.1 { mValues := vs }) props valss

/-- The element that `load` holds for a declared element whose columns hold `valss`. -/
def elementOf (d : ElementDecl) (valss : List (List (Option Nat))) : PLYElement :=
  { mSize := d.count
    mProperties := columnsOf d.properties valss
    mPropertyIndices := indexMap d.propertyNames 0 }

/-- Empty columns, one per property. -/
def emptyValss (d : ElementDecl) : List (List (Option Nat)) := d.properties.map (fun _ => [])

/-- The scalars of one row: each property decodes little-endian the next bytes of its
width. -/
def rowValues : List (ScalarKind × Name) → List Nat → List (Option Nat)
  | [], _ => []
  | p :: ps, buf => some (leDecode (buf.take p.1.sizeof)) :: rowValues ps (buf.drop p.1.sizeof)

/-- Every column gets the scalar of its property appended. -/
def appendRow (valss : List (List (Option Nat))) (row : List (Option Nat)) :
    List (List (Option Nat)) :=
  List.zipWith (fun vs v => vs ++ [v]) valss row

/-- The columns after `n` more rows are decoded from `buf`. -/
def fillRows (props : List (ScalarKind × Name)) :
    Nat → List Nat → List (List (Option Nat)) → List (List (Option Nat))
  | 0, _, valss => valss
  | n + 1, buf, valss =>
    fillRows props n (buf.drop (rowBytes props)) (appendRow valss (rowValues props buf))

/-- The locals of the header loop agree with the schema declared so far (most recent element
first): the element names in order, an element with empty columns under every declared name,
the property names of every element, and nothing under any other name. -/
def HeaderInv (st : HeaderState) (rsch : List ElementDecl) : Prop :=
  st.elementNames = (rsch.map (fun d => d.name)).reverse ∧
  (∀ d ∈ rsch, Map.lookup st.polygon.mElements d.name = some (elementOf d (emptyValss d))) ∧
  (∀ d ∈ rsch, (Map.lookup st.propertyNamesPerElement d.name).getD [] = d.propertyNames) ∧
  (∀ n, n ∉ rsch.map (fun d => d.name) →
    Map.lookup st.polygon.mElements n = none ∧ Map.lookup st.propertyNamesPerElement n = none)

/-- Element names pairwise distinct, property names pairwise distinct in each element, and
every count within `max_size()` of the vectors of the columns of its element. -/
def SchemaOK (sch : List ElementDecl) : Prop :=
  (sch.map (fun d => d.name)).Nodup ∧ (∀ d ∈ sch, d.propertyNames.Nodup) ∧
  ∀ d ∈ sch, ∀ p ∈ d.properties, d.count ≤ vectorMaxSize p.1.sizeof

/-- Header lines of a small binary file: a vertex element with an `uchar` and a `short`
property, a face element with an `int` property. -/
def smallLines : List (List Nat) :=
  [str "format binary_little_endian 1.0", str "comment made by hand",
   str "element vertex 2", str "property uchar r", str "property short s",
   str "element face 1", str "property int i"]

/-- What the lines of `smallLines` declare. -/
def smallDecls : List HeaderDecl :=
  [.format, .comment, .element (str "vertex") 2, .property .uint8 (str "r"),
   .property .int16 (str "s"), .element (str "face") 1, .property .int32 (str "i")]

/-- Body of the small binary file: two vertex rows of three bytes, one face row of four. -/
def smallBody : List Nat := [1, 2, 3, 4, 5, 6, 7, 8, 9, 10]

/-! ## Observations on list columns -/

/-- An ASCII file with one vertex of three `uchar` value properties and the row `255 0 128`. -/
def ucharRowFile : List Nat :=
  str "ply\nformat ascii\nelement vertex 1\nproperty uchar red\nproperty uchar green\nproperty uchar blue\nend_header\n255 0 128\n"

/-- The same file with `short` in place of `uchar`. -/
def shortRowFile : List Nat :=
  str "ply\nformat ascii\nelement vertex 1\nproperty short red\nproperty short green\nproperty short blue\nend_header\n255 0 128\n"

/-- An ASCII file with one face whose list of `uchar` has the row `2 10 20`. -/
def ucharListFile : List Nat :=
  str "ply\nformat ascii\nelement face 1\nproperty list uchar uchar v\nend_header\n2 10 20\n"

/-- Document with the single element vertex of one row and the value columns red, green and
blue of kind `T` holding `r`, `g` and `b`. -/
def colourDocument (T : ScalarKind) (r g b : Option Nat) : PLYPolygon :=
  { mElements :=
      [(str "vertex",
        { mSize := 1
          mProperties :=
            [.value T { mValues := [r] }, .value T { mValues := [g] },
             .value T { mValues := [b] }]
          mPropertyIndices := [(str "red", 0), (str "green", 1), (str "blue", 2)] })] }

/-- Document with the single element face of one row whose list column `v` of kind `T`
holds `row`. -/
def oneListDocument (T : ScalarKind) (row : List (Option Nat)) : PLYPolygon :=
  { mElements :=
      [(str "face",
        { mSize := 1
          mProperties :=
            [.list T
              { mValues := [row]
                mListSizeByteSize := 1
                mTotalSize := row.length
                mMinSize := row.length
                mMaxSize := row.length }]
          mPropertyIndices := [(str "v", 0)] })] }

/-- An ASCII file with one vertex of two `int` properties whose row holds one token. -/
def missingTokenFile : List Nat :=
  str "ply\nformat ascii\nelement vertex 1\nproperty int x\nproperty int y\nend_header\n1\n"

/-- An ASCII file with one vertex of two `int` properties whose row starts with `abc`. -/
def unparsableTokenFile : List Nat :=
  str "ply\nformat ascii\nelement vertex 1\nproperty int x\nproperty int y\nend_header\nabc 2\n"

/-- An ASCII file with one face whose row line is empty: the list has no length token. -/
def missingLengthFile : List Nat :=
  str "ply\nformat ascii\nelement face 1\nproperty list uchar int v\nend_header\n\n"

/-- An ASCII file with one face whose row announces three elements and holds two. -/
def shortListFile : List Nat :=
  str "ply\nformat ascii\nelement face 1\nproperty list uchar int v\nend_header\n3 1 2\n"

/-- An ASCII file that declares two vertices and holds one row line. -/
def missingRowFile : List Nat :=
  str "ply\nformat ascii\nelement vertex 2\nproperty int x\nend_header\n1\n"

/-- Document with the single element vertex of one row and the `int` columns x and y. -/
def xyDocument (x y : Option Nat) : PLYPolygon :=
  { mElements :=
      [(str "vertex",
        { mSize := 1
          mProperties :=
            [.value .int32 { mValues := [x] }, .value .int32 { mValues := [y] }]
          mPropertyIndices := [(str "x", 0), (str "y", 1)] })] }

/-! ## Headers with a malformed line -/

/-- A header with a blank line. -/
def blankLineFile : List Nat :=
  str "ply\nformat ascii\n\nelement vertex 0\nend_header\n"

/-- A header whose `property` line comes before any `element` line. -/
def propertyBeforeElementFile : List Nat :=
  str "ply\nformat ascii\nproperty float x\nend_header\n"

/-- A header whose `element` line has two tokens. -/
def shortElementFile : List Nat :=
  str "ply\nformat ascii\nelement vertex\nend_header\n"

/-- A header whose `property` line has two tokens. -/
def shortPropertyFile : List Nat :=
  str "ply\nformat ascii\nelement vertex 0\nproperty float\nend_header\n"

/-- A header whose `property list` line has four tokens. -/
def shortListPropertyFile : List Nat :=
  str "ply\nformat ascii\nelement vertex 0\nproperty list uchar int\nend_header\n"

/-- A header whose `property list` line has four tokens and the count type `int`. -/
def shortListPropertyBadCountFile : List Nat :=
  str "ply\nformat ascii\nelement vertex 0\nproperty list int int\nend_header\n"

/-- A header whose `format` line has one token. -/
def shortFormatFile : List Nat :=
  str "ply\nformat\nend_header\n"

/-! ## The magic line -/

/-- The condition `!std::getline(fin, line) || line != "ply"` under which `load` reports
that the file is not a PLY file. -/
def notAPlyFile (file : List Nat) : Bool :=
  match getline file with
  | none => true
  | some (line, _) => decide (line ≠ str "ply")

/-- The statements of `load` after the magic line: the header loop and the body loop on
the bytes `rest` that follow the first line. -/
def loadAfterMagic (native : Endian) (rest : List Nat) : Except Fault (Option PLYPolygon) :=
  match headerLoop rest.length {} rest with
  | .error f => .error f
  | .ok none => .ok none
  | .ok (some (st, fin)) =>
    match bodyLoop native st.valueFormat st.propertyNamesPerElement st.elementNames
        st.polygon { buf := fin, failed := false } with
    | .error f => .error f
    | .ok none => .ok none
    | .ok (some r) => .ok (some r.1)

/-- The first line of an input as the specification reads it: none for the empty input,
else the bytes before the first line feed. -/
def firstLine (file : List Nat) : Option (List Nat) :=
  if file = [] then none else some (file.takeWhile (fun c => c != 10))

/-! ## The alias pairs of the specification -/

/-- The eight alias pairs of the specification with the kind each pair denotes. -/
def aliasPairs : List (Name × Name × ScalarKind) :=
  [(str "int8", str "char", .int8), (str "uint8", str "uchar", .uint8),
   (str "int16", str "short", .int16), (str "uint16", str "ushort", .uint16),
   (str "int32", str "int", .int32), (str "uint32", str "uint", .uint32),
   (str "float32", str "float", .float32), (str "float64", str "double", .float64)]

/-! ## Files given by their lines -/

/-- The bytes of the given lines, each ended by a line feed. -/
def linesText (lines : List (List Nat)) : List Nat := (lines.map (fun l => l ++ [10])).flatten

/-- A file that starts with the line `ply`, goes on with the lines `pre` and ends with the
bytes `rest`. -/
def plyFile (pre : List (List Nat)) (rest : List Nat) : List Nat :=
  str "ply" ++ 10 :: (linesText pre ++ rest)

/-- A header of two lines before the insertion point, for the example of a comment line
inserted before `property float x`. -/
def commentPre : List (List Nat) := [str "format ascii", str "element vertex 1"]

/-- The rest of the file of `commentPre`: the property line, `end_header` and one row. -/
def commentRest : List Nat := str "property float x\nend_header\n1\n"

/-! ## Rows of a column -/

/-- The number of rows a column holds: `mValues.size()` of the alternative held. -/
def PLYProperty.rows : PLYProperty → Nat
  | .value _ q => q.mValues.length
  | .list _ q => q.mValues.length

/-- The columns of an element are filled to `r` rows: there is one column for each of the
property names `ps`, the names are mapped to the indices of the columns in order, and every
column holds `r` rows. -/
def ColumnsFilled (e : PLYElement) (ps : List Name) (r : Nat) : Prop :=
  e.mProperties.length = ps.length ∧
  (∀ i n, ps[i]? = some n → Map.lookup e.mPropertyIndices n = some i) ∧
  ∀ c ∈ e.mProperties, c.rows = r

/-- The columns of an element under declaration, with the property names `ps` declared for
it so far: there are at most as many columns as names, every column is empty, and when
every name brought a column and the names are pairwise distinct, the names are mapped to the
indices of the columns in order. -/
def ColumnsDeclared (e : PLYElement) (ps : List Name) : Prop :=
  e.mProperties.length ≤ ps.length ∧
  (∀ c ∈ e.mProperties, c.rows = 0) ∧
  (e.mProperties.length = ps.length → ps.Nodup →
    ∀ i n, ps[i]? = some n → Map.lookup e.mPropertyIndices n = some i)

/-- What holds of the locals of `load` throughout the header loop: the columns of every
element are as declared by its property names, and the elements of the document are those
named in `elementNames`. -/
def DeclaredInv (st : HeaderState) : Prop :=
  (∀ n, ColumnsDeclared ((Map.lookup st.polygon.mElements n).getD {})
    ((Map.lookup st.propertyNamesPerElement n).getD [])) ∧
  (∀ n e, Map.lookup st.polygon.mElements n = some e → n ∈ st.elementNames) ∧
  (∀ n ∈ st.elementNames, Map.contains st.polygon.mElements n = true)

/-! ## The type tokens of the property lines -/

/-- The type token of a `property` line, as the header loop of `load` reads it: `tokens[3]`
after `property list`, else `tokens[1]`; none for a line that is not a `property` line. -/
def propertyType (tokens : List Name) : Option Name :=
  match tokens with
  | t0 :: t1 :: rest =>
    if t0 = str "property" then (if t1 = str "list" then rest[1]? else some t1) else none
  | _ => none

/-- Reading of the header as the specification describes it: every `property` line among
the header lines of the unread bytes (comment lines skipped, up to `end_header`) has a type
token of the alias table.  The lines are taken as the header loop takes them, with the same
fuel. -/
def propertyTypesKnown : Nat → List Nat → Bool
  | 0, _ => true
  | fuel + 1, fin =>
    match getline fin with
    | none => true
    | some (line, rest) =>
      if starts_with line (str "comment") then propertyTypesKnown fuel rest
      else if line = str "end_header" then true
      else
        (match propertyType (split line) with
          | none => true
          | some ty => (scalarKindOf ty).isSome) && propertyTypesKnown fuel rest

/-- Every property line brought a column: each element of the document has as many columns
as property names are declared for it. -/
def ColumnsCounted (st : HeaderState) : Prop :=
  ∀ n, ((Map.lookup st.polygon.mElements n).getD {}).mProperties.length =
    ((Map.lookup st.propertyNamesPerElement n).getD []).length

/-! ## Element counts above `max_size()` -/

/-- An ASCII header whose element count token is `-1`, which `size_t` extraction reads as
`2 ^ 64 - 1`, followed by a list property. -/
def hugeCountListFile : List Nat :=
  str "ply\nformat ascii\nelement a -1\nproperty list uchar int x\nend_header\n"

/-- An ASCII header whose element count token is `-1`, followed by a value property. -/
def hugeCountValueFile : List Nat :=
  str "ply\nformat ascii\nelement a -1\nproperty int x\nend_header\n"

/-! ## Headers that declare a name twice -/

/-- An ASCII file that declares the element `vertex` twice, each time with one row. -/
def duplicateElementFile : List Nat :=
  str "ply\nformat ascii\nelement vertex 1\nproperty int x\nelement vertex 1\nproperty int y\nend_header\n1 2\n3 4\n"

/-- An ASCII file that declares the property `x` of its element twice. -/
def duplicatePropertyFile : List Nat :=
  str "ply\nformat ascii\nelement vertex 1\nproperty int x\nproperty int x\nend_header\n1 2\n"

/-- The document that `load` returns for `duplicateElementFile`. -/
def duplicateElementDocument : PLYPolygon :=
  { mElements :=
      [(str "vertex",
        { mSize := 1
          mProperties :=
            [.value .int32 { mValues := [some 1, some 3] },
             .value .int32 { mValues := [some 2, some 4] }]
          mPropertyIndices := [(str "x", 0), (str "y", 1)] })] }

/-- The document that `load` returns for `duplicatePropertyFile`. -/
def duplicatePropertyDocument : PLYPolygon :=
  { mElements :=
      [(str "vertex",
        { mSize := 1
          mProperties :=
            [.value .int32 { mValues := [] },
             .value .int32 { mValues := [some 1, some 2] }]
          mPropertyIndices := [(str "x", 1)] })] }

/-- The locals of `load` after the header of the example files, for the ASCII file. -/
def exampleHeaderState : HeaderState :=
  { elementNames := [str "vertex", str "face"]
    propertyNamesPerElement :=
      [(str "vertex", [str "x", str "y", str "z"]), (str "face", [str "vertex_indices"])]
    polygon :=
      { mElements :=
          [(str "vertex",
            { mSize := 3
              mProperties :=
                [.value .float32 { mValues := [] }, .value .float32 { mValues := [] },
                 .value .float32 { mValues := [] }]
              mPropertyIndices := [(str "x", 0), (str "y", 1), (str "z", 2)] }),
           (str "face",
            { mSize := 1
              mProperties := [.list .int32 { mValues := [], mListSizeByteSize := 1 }]
              mPropertyIndices := [(str "vertex_indices", 0)] })] }
    valueFormat := .ASCII }

/-! ## Elements of size zero -/

/-- An ASCII file whose second `element` line declares the element `a` again, with count 0,
before the element `b`. -/
def zeroCountAgainFile : List Nat :=
  str "ply\nformat ascii\nelement a 1\nproperty int x\nelement a 0\nelement b 1\nproperty int y\nend_header\n1\n2\n3\n"

/-- The file `zeroCountAgainFile` without its line `element a 0`. -/
def withoutZeroCountFile : List Nat :=
  str "ply\nformat ascii\nelement a 1\nproperty int x\nelement b 1\nproperty int y\nend_header\n1\n2\n3\n"

/-- Document with the elements `a` and `b` of size 1, the first with the `int` column `x`
and the second with the `int` column `y`. -/
def abDocument (x y : List (Option Nat)) : PLYPolygon :=
  { mElements :=
      [(str "a",
        { mSize := 1
          mProperties := [.value .int32 { mValues := x }]
          mPropertyIndices := [(str "x", 0)] }),
       (str "b",
        { mSize := 1
          mProperties := [.value .int32 { mValues := y }]
          mPropertyIndices := [(str "y", 0)] })] }

/-- An ASCII file whose first element is declared with count 0. -/
def zeroCountFile : List Nat :=
  str "ply\nformat ascii\nelement a 0\nproperty int x\nelement b 1\nproperty int y\nend_header\n7\n"

/-- The locals of `load` after the header of `zeroCountFile`. -/
def zeroCountHeaderState : HeaderState :=
  { elementNames := [str "a", str "b"]
    propertyNamesPerElement := [(str "a", [str "x"]), (str "b", [str "y"])]
    polygon :=
      { mElements :=
          [(str "a",
            { mSize := 0
              mProperties := [.value .int32 { mValues := [] }]
              mPropertyIndices := [(str "x", 0)] }),
           (str "b",
            { mSize := 1
              mProperties := [.value .int32 { mValues := [] }]
              mPropertyIndices := [(str "y", 0)] })] }
    valueFormat := .ASCII }

/-! # Theorems -/

/-! ## Evaluation of the examples -/

theorem load_asciiExample (native : Endian) :
    load native asciiExample = .ok (some exampleDocument) := by
  cases native <;> decide!

theorem load_binaryExample (native : Endian) :
    load native binaryExample = .ok (some exampleDocument) := by
  cases native <;> decide!

theorem float32ToRat_zero : float32ToRat 0 = some 0 := by
  norm_num [float32ToRat, ieeeToRat]

theorem float32ToRat_floatOne : float32ToRat floatOne = some 1 := by
  norm_num [float32ToRat, ieeeToRat, floatOne]

/-- C1: the ASCII file of the example scenario loads; element vertex has size 3 and float
columns x = [0, 1, 0], y = [0, 0, 1], z = [0, 0, 0]; element face has size 1 and an int32
list column vertex_indices whose row 0 is [0, 1, 2], with totalSize, minSize and maxSize 3. -/
theorem C1_load_ascii_example (native : Endian) :
    ∃ doc vertex face vi,
      load native asciiExample = .ok (some doc) ∧
      doc.containsElement (str "vertex") = true ∧
      doc.getElement_const (str "vertex") = .ok vertex ∧
      vertex.size = 3 ∧
      vertex.getValueProperty .float32 (str "x") =
        .ok { mValues := [some 0, some floatOne, some 0] } ∧
      vertex.getValueProperty .float32 (str "y") =
        .ok { mValues := [some 0, some 0, some floatOne] } ∧
      vertex.getValueProperty .float32 (str "z") = .ok { mValues := [some 0, some 0, some 0] } ∧
      float32ToRat 0 = some 0 ∧ float32ToRat floatOne = some 1 ∧
      doc.containsElement (str "face") = true ∧
      doc.getElement_const (str "face") = .ok face ∧
      face.size = 1 ∧
      face.getListProperty .int32 (str "vertex_indices") = .ok vi ∧
      vi.mValues = [[some 0, some 1, some 2]] ∧
      vi.totalSize = 3 ∧ vi.minSize = 3 ∧ vi.maxSize = 3 := by
  refine ⟨exampleDocument, _, _, _, load_asciiExample native, by decide!, rfl, by decide!,
    by decide!, by decide!, by decide!, float32ToRat_zero, float32ToRat_floatOne, by decide!,
    rfl, by decide!, rfl, ?_, ?_, ?_, ?_⟩ <;> decide!

/-- C5: the binary_little_endian file of the example scenario (36 bytes of floats, the byte 3,
three little-endian int32) loads to the same document as the ASCII file: same element sizes,
column values, list row and list sizes. -/
theorem C5_binary_example_equals_ascii (native : Endian) :
    binaryBody =
      [0, 0, 0, 0, 0, 0, 0, 0, 0, 0, 0, 0, 0, 0, 128, 63, 0, 0, 0, 0, 0, 0, 0, 0,
        0, 0, 0, 0, 0, 0, 128, 63, 0, 0, 0, 0, 3, 0, 0, 0, 0, 1, 0, 0, 0, 2, 0, 0, 0] ∧
    ∃ doc,
      load native binaryExample = .ok (some doc) ∧
      load native asciiExample = .ok (some doc) ∧
      doc = exampleDocument :=
  ⟨by decide!, exampleDocument, load_binaryExample native, load_asciiExample native, rfl⟩

/-! ## Byte order -/

theorem leEncode_length (w v : Nat) : (leEncode w v).length = w := by
  induction w generalizing v with
  | zero => rfl
  | succ w ih => simp [leEncode, ih]

theorem leDecode_leEncode (w v : Nat) (h : v < 256 ^ w) : leDecode (leEncode w v) = v := by
  induction w generalizing v with
  | zero => simp at h; simp [leEncode, leDecode, h]
  | succ w ih =>
    have h2 : v / 256 < 256 ^ w := by
      rw [Nat.div_lt_iff_lt_mul (by norm_num)]
      rw [pow_succ] at h
      exact h
    simp only [leEncode, leDecode, ih _ h2, Nat.mod_mod]
    omega

theorem read_append (bytes rest : List Nat) :
    IStream.read { buf := bytes ++ rest, failed := false } bytes.length =
      (some bytes, { buf := rest, failed := false }) := by
  simp [IStream.read]

theorem unformatted_leEncode (T : ScalarKind) (native : Endian) (v : Nat)
    (h : v < 256 ^ T.sizeof) (rest : List Nat) :
    unformatted T native .little { buf := leEncode T.sizeof v ++ rest, failed := false } =
      (some v, { buf := rest, failed := false }) := by
  have hr := read_append (leEncode T.sizeof v) rest
  rw [leEncode_length] at hr
  cases native <;> simp [unformatted, hr, objectValue, leDecode_leEncode _ _ h]

theorem unformatted_beEncode (T : ScalarKind) (native : Endian) (v : Nat)
    (h : v < 256 ^ T.sizeof) (rest : List Nat) :
    unformatted T native .big { buf := beEncode T.sizeof v ++ rest, failed := false } =
      (some v, { buf := rest, failed := false }) := by
  have hr := read_append (leEncode T.sizeof v).reverse rest
  rw [List.length_reverse, leEncode_length] at hr
  cases native <;> simp [unformatted, hr, objectValue, beEncode, leDecode_leEncode _ _ h]

/-- C3: for every scalar kind and every value of its width, on either host byte order,
`PLYValueProperty::load` with BinaryLittleEndian on the little-endian bytes of the value and
with BinaryBigEndian on its big-endian bytes (the reversed sequence) append the same scalar,
the value itself, and consume exactly those bytes. -/
theorem C3_value_load_endianness (T : ScalarKind) (native : Endian) (v : Nat)
    (h : v < 256 ^ T.sizeof) (p : PLYValueProperty) (rest : List Nat) :
    beEncode T.sizeof v = (leEncode T.sizeof v).reverse ∧
    p.load T native { buf := leEncode T.sizeof v ++ rest, failed := false }
        .BinaryLittleEndian =
      ({ mValues := p.mValues ++ [some v] }, { buf := rest, failed := false }) ∧
    p.load T native { buf := beEncode T.sizeof v ++ rest, failed := false }
        .BinaryBigEndian =
      ({ mValues := p.mValues ++ [some v] }, { buf := rest, failed := false }) := by
  refine ⟨rfl, ?_, ?_⟩
  · simp [PLYValueProperty.load, unformatted_leEncode T native v h rest]
  · simp [PLYValueProperty.load, unformatted_beEncode T native v h rest]

/-- Witness of C3: the `int32` value 258 on a big-endian host, bytes 2 1 0 0 and 0 0 1 2. -/
theorem C3_value_load_endianness_witness :
    258 < 256 ^ ScalarKind.int32.sizeof ∧
    leEncode 4 258 = [2, 1, 0, 0] ∧ beEncode 4 258 = [0, 0, 1, 2] ∧
    PLYValueProperty.new .int32 1 = .ok { mValues := [] } ∧
    PLYValueProperty.load .int32 .big { mValues := [] }
        { buf := leEncode ScalarKind.int32.sizeof 258 ++ [7], failed := false }
        .BinaryLittleEndian =
      ({ mValues := [] ++ [some 258] }, { buf := [7], failed := false }) ∧
    PLYValueProperty.load .int32 .big { mValues := [] }
        { buf := beEncode ScalarKind.int32.sizeof 258 ++ [7], failed := false }
        .BinaryBigEndian =
      ({ mValues := [] ++ [some 258] }, { buf := [7], failed := false }) :=
  ⟨by decide, by decide, by decide, by decide,
    (C3_value_load_endianness .int32 .big 258 (by decide) { mValues := [] } [7]).2⟩

/-! ## Inputs on which the source departs from the specification -/

/-- C4 (evaluation at the failing input): on either host, `PLYListProperty::load` with
BinaryBigEndian reads the big-endian row (count 1, element 1) as a row of length 1 whose
element is 16777216: the count is corrected, the element is decoded little-endian.  The
little-endian encoding of the same row loads as [1]. -/
theorem C4_big_endian_list_element_not_corrected (native : Endian) :
    (PLYListProperty.new .int32 1 2 >>= fun p => p.load .int32 native
        { buf := beEncode 2 1 ++ beEncode 4 1, failed := false } .BinaryBigEndian) =
      .ok ({ mValues := [[some 16777216]], mListSizeByteSize := 2, mTotalSize := 1,
             mMinSize := 1, mMaxSize := 1 }, { buf := [], failed := false }) ∧
    (PLYListProperty.new .int32 1 2 >>= fun p => p.load .int32 native
        { buf := leEncode 2 1 ++ leEncode 4 1, failed := false } .BinaryLittleEndian) =
      .ok ({ mValues := [[some 1]], mListSizeByteSize := 2, mTotalSize := 1,
             mMinSize := 1, mMaxSize := 1 }, { buf := [], failed := false }) ∧
    load native bigEndianListFile = .ok (some (oneFaceDocument [some 16777216])) ∧
    load native littleEndianListFile = .ok (some (oneFaceDocument [some 1])) := by
  cases native <;> decide!

/-- The body loop of a binary format has no `return std::nullopt`. -/
theorem bodyLoop_binary_ne_none (native : Endian) (valueFormat : PLYValueFormat)
    (hf : valueFormat ≠ .ASCII) (pn : Map (List Name)) (names : List Name) :
    ∀ (polygon : PLYPolygon) (fin : IStream),
      bodyLoop native valueFormat pn names polygon fin ≠ .ok none := by
  induction names with
  | nil => intro polygon fin; simp [bodyLoop]
  | cons n names ih =>
    intro polygon fin
    cases valueFormat with
    | ASCII => exact absurd rfl hf
    | BinaryLittleEndian =>
      simp only [bodyLoop]
      split
      · simp
      · exact ih _ _
    | BinaryBigEndian =>
      simp only [bodyLoop]
      split
      · simp
      · exact ih _ _

/-- C6 (evaluation at the failing input): the binary example file loads, and with its last
body byte removed `load` still returns a document, on either host; the last element of the
list row of that document was never stored whole.  For no header and no stream does the body
loop of a binary format return `std::nullopt`. -/
theorem C6_truncated_binary_body_returns_document (native : Endian) :
    load native binaryExample = .ok (some exampleDocument) ∧
    binaryExample.dropLast = str "ply\nformat binary_little_endian\n" ++ exampleSchema ++
      binaryBody.dropLast ∧
    load native binaryExample.dropLast = .ok (some truncatedDocument) ∧
    (truncatedDocument.getElement_const (str "face") >>= fun face =>
      face.getListProperty .int32 (str "vertex_indices")).map (fun vi => vi.mValues) =
      .ok [[some 0, some 1, none]] ∧
    (∀ valueFormat pn names polygon fin, valueFormat ≠ .ASCII →
      bodyLoop native valueFormat pn names polygon fin ≠ .ok none) := by
  refine ⟨load_binaryExample native, by decide!, ?_, by decide!,
    fun valueFormat pn names polygon fin hf =>
      bodyLoop_binary_ne_none native valueFormat hf pn names polygon fin⟩
  cases native <;> decide!

/-- C7 (evaluation at the failing inputs): with `property foo y` after `property float x`,
and likewise with `property list uchar foo y`, `load` returns a document; no column is added
for `y`, the name `y` is registered with the index of the column of `x`, the one-row element
gets two values in that column, and the lookups of `y` as a float value property succeed and
give the column of `x`.  With `property foo x` as the first property the name is registered
with the index `2 ^ 64 - 1` and the body loop indexes the empty vector with it. -/
theorem C7_unknown_type_is_not_rejected (native : Endian) :
    load native unknownTypeFile =
      .ok (some { mElements := [(str "vertex", unknownTypeElement)] }) ∧
    load native unknownListTypeFile =
      .ok (some { mElements := [(str "vertex", unknownTypeElement)] }) ∧
    unknownTypeElement.size = 1 ∧
    unknownTypeElement.containsValueProperty .float32 (str "y") = .ok true ∧
    unknownTypeElement.getValueProperty .float32 (str "y") =
      unknownTypeElement.getValueProperty .float32 (str "x") ∧
    unknownTypeElement.getValueProperty .float32 (str "y") =
      .ok { mValues := [some floatOne, some floatTwo] } ∧
    load native unknownFirstTypeFile = .error .outOfBounds ∧
    (PLYElement.addValueProperty { mSize := 1 } (str "x") (str "foo")).map
        (fun e => e.mPropertyIndices) =
      .ok [(str "x", 2 ^ 64 - 1)] := by
  cases native <;> decide!

/-- C10 (evaluation at the failing input): after decoding rows of lengths 0 and then 3,
`minSize()` is 3, not 0, both through `load` and through `PLYListProperty::load` applied
twice. -/
theorem C10_minSize_after_empty_first_row (native : Endian) :
    load native emptyFirstRowFile =
      .ok (some { mElements :=
        [(str "face",
          { mSize := 2
            mProperties := [.list .int32 emptyFirstRowColumn]
            mPropertyIndices := [(str "vertex_indices", 0)] })] }) ∧
    (PLYListProperty.new .int32 2 1 >>= fun p =>
      p.load .int32 native { buf := str "0", failed := false } .ASCII >>=
      fun r => r.1.load .int32 native { buf := str "3 0 1 2", failed := false } .ASCII) =
      .ok (emptyFirstRowColumn, { buf := [], failed := false }) ∧
    emptyFirstRowColumn.mValues.map List.length = [0, 3] ∧
    emptyFirstRowColumn.minSize = 3 := by
  cases native <;> decide!

/-! ## Maps -/

theorem Map.lookup_assign_self {V : Type} (m : Map V) (n : Name) (v : V) :
    Map.lookup (Map.assign m n v) n = some v := by
  induction m with
  | nil => simp [Map.assign, Map.lookup]
  | cons kv m ih =>
    obtain ⟨k, w⟩ := kv
    by_cases h : n = k
    · simp [Map.assign, Map.lookup, h]
    · simp [Map.assign, Map.lookup, h, ih]

theorem Map.lookup_assign_of_ne {V : Type} (m : Map V) (n k : Name) (v : V) (h : k ≠ n) :
    Map.lookup (Map.assign m n v) k = Map.lookup m k := by
  induction m with
  | nil => simp [Map.assign, Map.lookup, h]
  | cons kv m ih =>
    obtain ⟨k1, w⟩ := kv
    by_cases h1 : n = k1
    · subst h1
      simp [Map.assign, Map.lookup, h]
    · by_cases h2 : k = k1
      · simp [Map.assign, Map.lookup, h1, h2]
      · simp [Map.assign, Map.lookup, h1, h2, ih]

/-! ## The type chains of `addValueProperty` and `addListProperty` -/

theorem scalarKindOf_eq_none (ty : Name)
    (h1 : ¬(ty = str "int8" ∨ ty = str "char")) (h2 : ¬(ty = str "uint8" ∨ ty = str "uchar"))
    (h3 : ¬(ty = str "int16" ∨ ty = str "short"))
    (h4 : ¬(ty = str "uint16" ∨ ty = str "ushort"))
    (h5 : ¬(ty = str "int32" ∨ ty = str "int")) (h6 : ¬(ty = str "uint32" ∨ ty = str "uint"))
    (h7 : ¬(ty = str "float32" ∨ ty = str "float"))
    (h8 : ¬(ty = str "float64" ∨ ty = str "double")) : scalarKindOf ty = none := by
  simp only [not_or] at h1 h2 h3 h4 h5 h6 h7 h8
  simp [scalarKindOf, aliasTable, Map.lookup, h1, h2, h3, h4, h5, h6, h7, h8]

/-- The type chain of `addValueProperty` in terms of the resolver of the specification: the
constructor of the column is called for a token that resolves, and for no other token. -/
theorem addValueProperty_chain (e : PLYElement) (name ty : Name) :
    e.addValueProperty name ty =
      (match scalarKindOf ty with
        | some K =>
          (PLYValueProperty.new K e.mSize).map (fun c => e.mProperties ++ [PLYProperty.value K c])
        | none => (.ok e.mProperties : Except Fault (List PLYProperty))).map (fun props =>
          { mSize := e.mSize
            mProperties := props
            mPropertyIndices :=
              Map.assign e.mPropertyIndices name
                (if props.length = 0 then sizeMod - 1 else props.length - 1) }) := by
  unfold PLYElement.addValueProperty
  by_cases h1 : ty = str "int8" ∨ ty = str "char"
  · rcases h1 with rfl | rfl <;> rfl
  by_cases h2 : ty = str "uint8" ∨ ty = str "uchar"
  · rcases h2 with rfl | rfl <;> rfl
  by_cases h3 : ty = str "int16" ∨ ty = str "short"
  · rcases h3 with rfl | rfl <;> rfl
  by_cases h4 : ty = str "uint16" ∨ ty = str "ushort"
  · rcases h4 with rfl | rfl <;> rfl
  by_cases h5 : ty = str "int32" ∨ ty = str "int"
  · rcases h5 with rfl | rfl <;> rfl
  by_cases h6 : ty = str "uint32" ∨ ty = str "uint"
  · rcases h6 with rfl | rfl <;> rfl
  by_cases h7 : ty = str "float32" ∨ ty = str "float"
  · rcases h7 with rfl | rfl <;> rfl
  by_cases h8 : ty = str "float64" ∨ ty = str "double"
  · rcases h8 with rfl | rfl <;> rfl
  rw [scalarKindOf_eq_none ty h1 h2 h3 h4 h5 h6 h7 h8]
  simp only [if_neg h1, if_neg h2, if_neg h3, if_neg h4, if_neg h5, if_neg h6, if_neg h7,
    if_neg h8]

/-- The type chain of `addListProperty` in terms of the resolver of the specification. -/
theorem addListProperty_chain (e : PLYElement) (name ty : Name) (w : Nat) :
    e.addListProperty name ty w =
      (match scalarKindOf ty with
        | some K =>
          (PLYListProperty.new K e.mSize w).map
            (fun c => e.mProperties ++ [PLYProperty.list K c])
        | none => (.ok e.mProperties : Except Fault (List PLYProperty))).map (fun props =>
          { mSize := e.mSize
            mProperties := props
            mPropertyIndices :=
              Map.assign e.mPropertyIndices name
                (if props.length = 0 then sizeMod - 1 else props.length - 1) }) := by
  unfold PLYElement.addListProperty
  by_cases h1 : ty = str "int8" ∨ ty = str "char"
  · rcases h1 with rfl | rfl <;> rfl
  by_cases h2 : ty = str "uint8" ∨ ty = str "uchar"
  · rcases h2 with rfl | rfl <;> rfl
  by_cases h3 : ty = str "int16" ∨ ty = str "short"
  · rcases h3 with rfl | rfl <;> rfl
  by_cases h4 : ty = str "uint16" ∨ ty = str "ushort"
  · rcases h4 with rfl | rfl <;> rfl
  by_cases h5 : ty = str "int32" ∨ ty = str "int"
  · rcases h5 with rfl | rfl <;> rfl
  by_cases h6 : ty = str "uint32" ∨ ty = str "uint"
  · rcases h6 with rfl | rfl <;> rfl
  by_cases h7 : ty = str "float32" ∨ ty = str "float"
  · rcases h7 with rfl | rfl <;> rfl
  by_cases h8 : ty = str "float64" ∨ ty = str "double"
  · rcases h8 with rfl | rfl <;> rfl
  rw [scalarKindOf_eq_none ty h1 h2 h3 h4 h5 h6 h7 h8]
  simp only [if_neg h1, if_neg h2, if_neg h3, if_neg h4, if_neg h5, if_neg h6, if_neg h7,
    if_neg h8]

/-- The constructor of a value column throws exactly for a size above `max_size()`. -/
theorem PLYValueProperty.new_value_eq (T : ScalarKind) (size : Nat) :
    PLYValueProperty.new T size =
      if size > vectorMaxSize T.sizeof then .error .lengthError else .ok { mValues := [] } := by
  unfold PLYValueProperty.new reserve
  by_cases h : size > vectorMaxSize T.sizeof <;> simp [h]

/-- The constructor of a list column throws exactly for a size above `max_size()`. -/
theorem PLYListProperty.new_list_eq (T : ScalarKind) (size w : Nat) :
    PLYListProperty.new T size w =
      if size > vectorMaxSize vectorSizeof then .error .lengthError
      else .ok { mValues := [], mListSizeByteSize := w } := by
  unfold PLYListProperty.new reserve
  by_cases h : size > vectorMaxSize vectorSizeof <;> simp [h]

/-- The function `addValueProperty` throws when the constructor of the column does, and else
returns the element with the column of the resolved kind, if any, and the name mapped. -/
theorem addValueProperty_eq (e : PLYElement) (name ty : Name) :
    e.addValueProperty name ty =
      if valueReserveThrows e ty then .error .lengthError
      else .ok (withValueProperty e name ty) := by
  rw [addValueProperty_chain]
  unfold valueReserveThrows withValueProperty valueColumns
  cases scalarKindOf ty with
  | none => rfl
  | some K =>
    simp only [PLYValueProperty.new_value_eq]
    by_cases h : e.mSize > vectorMaxSize K.sizeof
    · simp [h, Except.map]
    · simp [h, Except.map]

/-- The function `addListProperty` throws when the constructor of the column does, and else
returns the element with the column of the resolved kind, if any, and the name mapped. -/
theorem addListProperty_eq (e : PLYElement) (name ty : Name) (w : Nat) :
    e.addListProperty name ty w =
      if listReserveThrows e ty then .error .lengthError
      else .ok (withListProperty e name ty w) := by
  rw [addListProperty_chain]
  unfold listReserveThrows withListProperty listColumns
  cases scalarKindOf ty with
  | none => rfl
  | some K =>
    simp only [PLYListProperty.new_list_eq]
    by_cases h : e.mSize > vectorMaxSize vectorSizeof
    · simp [h, Except.map]
    · simp [h, Except.map]

/-- A returning `addValueProperty` returns the element described by `withValueProperty`. -/
theorem addValueProperty_ok (e e1 : PLYElement) (name ty : Name)
    (h : e.addValueProperty name ty = .ok e1) : e1 = withValueProperty e name ty := by
  rw [addValueProperty_eq] at h
  split at h
  · cases h
  · cases h; rfl

/-- A returning `addListProperty` returns the element described by `withListProperty`. -/
theorem addListProperty_ok (e e1 : PLYElement) (name ty : Name) (w : Nat)
    (h : e.addListProperty name ty w = .ok e1) : e1 = withListProperty e name ty w := by
  rw [addListProperty_eq] at h
  split at h
  · cases h
  · cases h; rfl

/-! ## Typed lookup -/

theorem getProperty_addValueProperty (e : PLYElement) (name ty : Name) (T : ScalarKind)
    (h : scalarKindOf ty = some T) :
    (withValueProperty e name ty).getProperty name = .ok (.value T { mValues := [] }) := by
  simp [withValueProperty, PLYElement.getProperty, Map.lookup_assign_self, valueColumns, h]

theorem getProperty_addListProperty (e : PLYElement) (name ty : Name) (w : Nat)
    (T : ScalarKind) (h : scalarKindOf ty = some T) :
    (withListProperty e name ty w).getProperty name =
      .ok (.list T { mValues := [], mListSizeByteSize := w }) := by
  simp [withListProperty, PLYElement.getProperty, Map.lookup_assign_self, listColumns, h]

theorem valueColumns_getElem? (e : PLYElement) (ty : Name) (i : Nat) (p : PLYProperty)
    (h : e.mProperties[i]? = some p) : (valueColumns e ty)[i]? = some p := by
  have hi : i < e.mProperties.length := by
    by_contra hc
    rw [List.getElem?_eq_none (by omega)] at h
    cases h
  unfold valueColumns
  cases scalarKindOf ty with
  | none => exact h
  | some K => simp only []; rw [List.getElem?_append_left hi]; exact h

theorem listColumns_getElem? (e : PLYElement) (ty : Name) (w i : Nat) (p : PLYProperty)
    (h : e.mProperties[i]? = some p) : (listColumns e ty w)[i]? = some p := by
  have hi : i < e.mProperties.length := by
    by_contra hc
    rw [List.getElem?_eq_none (by omega)] at h
    cases h
  unfold listColumns
  cases scalarKindOf ty with
  | none => exact h
  | some K => simp only []; rw [List.getElem?_append_left hi]; exact h

theorem getProperty_addValueProperty_of_ne (e : PLYElement) (name other ty : Name)
    (p : PLYProperty) (hne : name ≠ other) (h : e.getProperty name = .ok p) :
    (withValueProperty e other ty).getProperty name = .ok p := by
  unfold withValueProperty
  unfold PLYElement.getProperty at h ⊢
  simp only [Map.lookup_assign_of_ne _ _ _ _ hne]
  cases hl : Map.lookup e.mPropertyIndices name with
  | none => simp [hl] at h
  | some i =>
    simp only [hl] at h ⊢
    cases hp : e.mProperties[i]? with
    | none => simp [hp] at h
    | some q =>
      simp only [hp] at h
      rw [valueColumns_getElem? e ty i q hp]
      exact h

theorem getProperty_addListProperty_of_ne (e : PLYElement) (name other ty : Name) (w : Nat)
    (p : PLYProperty) (hne : name ≠ other) (h : e.getProperty name = .ok p) :
    (withListProperty e other ty w).getProperty name = .ok p := by
  unfold withListProperty
  unfold PLYElement.getProperty at h ⊢
  simp only [Map.lookup_assign_of_ne _ _ _ _ hne]
  cases hl : Map.lookup e.mPropertyIndices name with
  | none => simp [hl] at h
  | some i =>
    simp only [hl] at h ⊢
    cases hp : e.mProperties[i]? with
    | none => simp [hp] at h
    | some q =>
      simp only [hp] at h
      rw [listColumns_getElem? e ty w i q hp]
      exact h

theorem getProperty_ok_contains (e : PLYElement) (name : Name) (p : PLYProperty)
    (h : e.getProperty name = .ok p) : Map.contains e.mPropertyIndices name = true := by
  unfold PLYElement.getProperty at h
  unfold Map.contains
  cases hl : Map.lookup e.mPropertyIndices name with
  | none => simp [hl] at h
  | some i => rfl

theorem containsValueProperty_iff (e : PLYElement) (T : ScalarKind) (name : Name) :
    e.containsValueProperty T name = .ok true ↔
      ∃ q, e.getProperty name = .ok (.value T q) := by
  unfold PLYElement.containsValueProperty
  constructor
  · intro h
    split at h
    · split at h
      · cases h
      · next K q hq =>
        simp only [Except.ok.injEq, decide_eq_true_eq] at h
        exact ⟨q, by rw [hq, h]⟩
      · cases h
    · cases h
  · rintro ⟨q, hq⟩
    simp [getProperty_ok_contains e name _ hq, hq]

theorem containsListProperty_iff (e : PLYElement) (T : ScalarKind) (name : Name) :
    e.containsListProperty T name = .ok true ↔
      ∃ q, e.getProperty name = .ok (.list T q) := by
  unfold PLYElement.containsListProperty
  constructor
  · intro h
    split at h
    · split at h
      · cases h
      · next K q hq =>
        simp only [Except.ok.injEq, decide_eq_true_eq] at h
        exact ⟨q, by rw [hq, h]⟩
      · cases h
    · cases h
  · rintro ⟨q, hq⟩
    simp [getProperty_ok_contains e name _ hq, hq]

theorem getValueProperty_ok_iff (e : PLYElement) (T : ScalarKind) (name : Name)
    (c : PLYValueProperty) :
    e.getValueProperty T name = .ok c ↔ e.getProperty name = .ok (.value T c) := by
  unfold PLYElement.getValueProperty
  constructor
  · intro h
    split at h
    · cases h
    · next K q hq =>
      split at h
      · next hK => cases h; rw [hq, hK]
      · cases h
    · cases h
  · intro h
    simp [h]

theorem getListProperty_ok_iff (e : PLYElement) (T : ScalarKind) (name : Name)
    (c : PLYListProperty) :
    e.getListProperty T name = .ok c ↔ e.getProperty name = .ok (.list T c) := by
  unfold PLYElement.getListProperty
  constructor
  · intro h
    split at h
    · cases h
    · next K q hq =>
      split at h
      · next hK => cases h; rw [hq, hK]
      · cases h
    · cases h
  · intro h
    simp [h]

/-- The typed queries of an element: for every element, name and scalar kind,
`containsValueProperty<T>` is true exactly when `getValueProperty<T>` succeeds and
`containsListProperty<T>` exactly when `getListProperty<T>` succeeds; a getter called with an
absent name fails with the exception of `at`, called with a name stored under the other
shape or another kind it fails with the exception of `std::get`, and in neither case returns
a column; a name is contained for at most one (shape, kind) pair, and a name added with a
token of the alias table is contained for the pair of the token, also after other names are
added. -/
theorem typed_lookup (e : PLYElement) (name : Name) (T : ScalarKind) :
    (e.containsValueProperty T name = .ok true ↔ ∃ c, e.getValueProperty T name = .ok c) ∧
    (e.containsListProperty T name = .ok true ↔ ∃ c, e.getListProperty T name = .ok c) ∧
    (Map.contains e.mPropertyIndices name = false →
      e.getValueProperty T name = .error .outOfRange ∧
      e.getListProperty T name = .error .outOfRange ∧
      e.containsValueProperty T name = .ok false ∧
      e.containsListProperty T name = .ok false) ∧
    (∀ K q, e.getProperty name = .ok (.list K q) →
      e.getValueProperty T name = .error .badVariantAccess ∧
      e.containsValueProperty T name = .ok false) ∧
    (∀ K q, e.getProperty name = .ok (.value K q) →
      e.getListProperty T name = .error .badVariantAccess ∧
      e.containsListProperty T name = .ok false) ∧
    (∀ K q, K ≠ T → e.getProperty name = .ok (.value K q) →
      e.getValueProperty T name = .error .badVariantAccess ∧
      e.containsValueProperty T name = .ok false) ∧
    (∀ K q, K ≠ T → e.getProperty name = .ok (.list K q) →
      e.getListProperty T name = .error .badVariantAccess ∧
      e.containsListProperty T name = .ok false) ∧
    (∀ K, e.containsValueProperty T name = .ok true →
      (e.containsValueProperty K name = .ok true → K = T) ∧
      e.containsListProperty K name = .ok false) ∧
    (∀ K, e.containsListProperty T name = .ok true →
      (e.containsListProperty K name = .ok true → K = T) ∧
      e.containsValueProperty K name = .ok false) ∧
    (∀ ty w, scalarKindOf ty = some T →
      (withValueProperty e name ty).containsValueProperty T name = .ok true ∧
      (withListProperty e name ty w).containsListProperty T name = .ok true) ∧
    (∀ other ty w, name ≠ other →
      (e.containsValueProperty T name = .ok true →
        (withValueProperty e other ty).containsValueProperty T name = .ok true ∧
        (withListProperty e other ty w).containsValueProperty T name = .ok true) ∧
      (e.containsListProperty T name = .ok true →
        (withValueProperty e other ty).containsListProperty T name = .ok true ∧
        (withListProperty e other ty w).containsListProperty T name = .ok true)) := by
  refine ⟨?_, ?_, ?_, ?_, ?_, ?_, ?_, ?_, ?_, ?_, ?_⟩
  · rw [containsValueProperty_iff]
    exact ⟨fun ⟨q, hq⟩ => ⟨q, (getValueProperty_ok_iff e T name q).2 hq⟩,
      fun ⟨c, hc⟩ => ⟨c, (getValueProperty_ok_iff e T name c).1 hc⟩⟩
  · rw [containsListProperty_iff]
    exact ⟨fun ⟨q, hq⟩ => ⟨q, (getListProperty_ok_iff e T name q).2 hq⟩,
      fun ⟨c, hc⟩ => ⟨c, (getListProperty_ok_iff e T name c).1 hc⟩⟩
  · intro h
    have hl : Map.lookup e.mPropertyIndices name = none := by
      unfold Map.contains at h
      cases hl : Map.lookup e.mPropertyIndices name with
      | none => rfl
      | some i => simp [hl] at h
    simp [PLYElement.getValueProperty, PLYElement.getListProperty, PLYElement.getProperty,
      PLYElement.containsValueProperty, PLYElement.containsListProperty, h, hl]
  · intro K q h
    simp [PLYElement.getValueProperty, PLYElement.containsValueProperty, h,
      getProperty_ok_contains e name _ h]
  · intro K q h
    simp [PLYElement.getListProperty, PLYElement.containsListProperty, h,
      getProperty_ok_contains e name _ h]
  · intro K q hK h
    simp [PLYElement.getValueProperty, PLYElement.containsValueProperty, h, hK,
      getProperty_ok_contains e name _ h]
  · intro K q hK h
    simp [PLYElement.getListProperty, PLYElement.containsListProperty, h, hK,
      getProperty_ok_contains e name _ h]
  · intro K h
    obtain ⟨q, hq⟩ := (containsValueProperty_iff e T name).1 h
    constructor
    · intro hK
      obtain ⟨q2, hq2⟩ := (containsValueProperty_iff e K name).1 hK
      rw [hq] at hq2
      cases hq2
      rfl
    · simp [PLYElement.containsListProperty, hq, getProperty_ok_contains e name _ hq]
  · intro K h
    obtain ⟨q, hq⟩ := (containsListProperty_iff e T name).1 h
    constructor
    · intro hK
      obtain ⟨q2, hq2⟩ := (containsListProperty_iff e K name).1 hK
      rw [hq] at hq2
      cases hq2
      rfl
    · simp [PLYElement.containsValueProperty, hq, getProperty_ok_contains e name _ hq]
  · intro ty w h
    exact ⟨(containsValueProperty_iff _ T name).2 ⟨_, getProperty_addValueProperty e name ty T h⟩,
      (containsListProperty_iff _ T name).2 ⟨_, getProperty_addListProperty e name ty w T h⟩⟩
  · intro other ty w hne
    constructor
    · intro h
      obtain ⟨q, hq⟩ := (containsValueProperty_iff e T name).1 h
      exact ⟨(containsValueProperty_iff _ T name).2
          ⟨q, getProperty_addValueProperty_of_ne e name other ty _ hne hq⟩,
        (containsValueProperty_iff _ T name).2
          ⟨q, getProperty_addListProperty_of_ne e name other ty w _ hne hq⟩⟩
    · intro h
      obtain ⟨q, hq⟩ := (containsListProperty_iff e T name).1 h
      exact ⟨(containsListProperty_iff _ T name).2
          ⟨q, getProperty_addValueProperty_of_ne e name other ty _ hne hq⟩,
        (containsListProperty_iff _ T name).2
          ⟨q, getProperty_addListProperty_of_ne e name other ty w _ hne hq⟩⟩

/-- C9 (evaluation at the failing inputs): the name `y`, declared with `property foo y`
after `property float x`, is reported as contained for the pair (value, float), a pair it was
not declared with, and its typed getter returns the column of `x`; the same holds when `y`
is declared as a list, with `property list uchar foo y`: it is contained as a value property
of float and as a list property of no kind.  The other parts of the property hold of every
element: a typed `contains` is true exactly when the typed getter succeeds. -/
theorem C9_unknown_type_is_contained_as_float (native : Endian) :
    load native unknownTypeFile =
      .ok (some { mElements := [(str "vertex", unknownTypeElement)] }) ∧
    load native unknownListTypeFile =
      .ok (some { mElements := [(str "vertex", unknownTypeElement)] }) ∧
    unknownTypeElement.containsValueProperty .float32 (str "y") = .ok true ∧
    unknownTypeElement.getValueProperty .float32 (str "y") =
      unknownTypeElement.getValueProperty .float32 (str "x") ∧
    (∀ K, unknownTypeElement.containsListProperty K (str "y") = .ok false) ∧
    (∀ K, K ≠ .float32 → unknownTypeElement.containsValueProperty K (str "y") = .ok false) ∧
    (∀ (e : PLYElement) (name : Name) (T : ScalarKind),
      (e.containsValueProperty T name = .ok true ↔ ∃ c, e.getValueProperty T name = .ok c) ∧
      (e.containsListProperty T name = .ok true ↔ ∃ c, e.getListProperty T name = .ok c)) := by
  refine ⟨by cases native <;> decide!, by cases native <;> decide!, by decide, by decide,
    fun K => by cases K <;> decide, fun K hK => ?_,
    fun e name T => ⟨(typed_lookup e name T).1, (typed_lookup e name T).2.1⟩⟩
  cases K <;> first | exact absurd rfl hK | decide

/-! ## Header lines -/

theorem splitGo_append_nonspace (p : List Nat) (h : ∀ c ∈ p, isspace c = false)
    (cur rest : List Nat) : splitGo cur (p ++ rest) = splitGo (cur ++ p) rest := by
  induction p generalizing cur with
  | nil => simp
  | cons c p ih =>
    have hc : isspace c = false := h c (List.mem_cons_self _ _)
    have hp : ∀ d ∈ p, isspace d = false := fun d hd => h d (List.mem_cons_of_mem _ hd)
    have e1 : splitGo cur (c :: (p ++ rest)) = splitGo (cur ++ [c]) (p ++ rest) := by
      simp [splitGo, hc]
    rw [List.cons_append, e1, ih hp]
    simp

theorem splitGo_head (rest cur : List Nat) (h : cur ≠ []) :
    ∃ more ts, splitGo cur rest = (cur ++ more) :: ts := by
  induction rest generalizing cur with
  | nil => exact ⟨[], [], by simp [splitGo, h]⟩
  | cons c cs ih =>
    by_cases hc : isspace c = true
    · exact ⟨[], splitGo [] cs, by simp [splitGo, hc, h]⟩
    · obtain ⟨more, ts, hm⟩ := ih (cur ++ [c]) (by simp)
      exact ⟨c :: more, ts, by simp [splitGo, hc, hm]⟩

theorem starts_with_eq_append (l p : List Nat) (h : starts_with l p = true) :
    ∃ tail, l = p ++ tail := by
  induction p generalizing l with
  | nil => exact ⟨l, rfl⟩
  | cons c p ih =>
    cases l with
    | nil => simp [starts_with] at h
    | cons d l =>
      simp only [starts_with, Bool.and_eq_true, beq_iff_eq] at h
      obtain ⟨tail, ht⟩ := ih l h.2
      exact ⟨tail, by rw [h.1, ht]; rfl⟩

theorem str_comment : str "comment" = [99, 111, 109, 109, 101, 110, 116] := by decide

theorem str_property : str "property" = [112, 114, 111, 112, 101, 114, 116, 121] := by decide

theorem str_element : str "element" = [101, 108, 101, 109, 101, 110, 116] := by decide

theorem str_format : str "format" = [102, 111, 114, 109, 97, 116] := by decide

theorem str_list : str "list" = [108, 105, 115, 116] := by decide

/-- The first token of a line that starts with `comment` starts with `comment`. -/
theorem split_of_starts_with_comment (line : List Nat)
    (h : starts_with line (str "comment") = true) :
    ∃ more ts, split line = (str "comment" ++ more) :: ts := by
  obtain ⟨tail, rfl⟩ := starts_with_eq_append _ _ h
  unfold split
  rw [splitGo_append_nonspace (str "comment") (by decide) [] tail]
  exact splitGo_head tail _ (by decide)

/-- A line whose first token is `property`, `element` or `format` is not a comment line and
is not the line `end_header`. -/
theorem not_comment_of_split (line t0 : List Nat) (ts : List (List Nat))
    (h : split line = t0 :: ts)
    (h0 : t0 = str "property" ∨ t0 = str "element" ∨ t0 = str "format") :
    starts_with line (str "comment") = false ∧ line ≠ str "end_header" := by
  constructor
  · cases hs : starts_with line (str "comment") with
    | false => rfl
    | true =>
      obtain ⟨more, ts2, h2⟩ := split_of_starts_with_comment line hs
      rw [h2] at h
      simp only [List.cons.injEq] at h
      rcases h0 with h0 | h0 | h0 <;>
        · rw [h0] at h
          simp [str_comment, str_property, str_element, str_format] at h
  · rintro rfl
    have h1 : split (str "end_header") = [str "end_header"] := by decide
    rw [h1] at h
    simp only [List.cons.injEq] at h
    rcases h0 with h0 | h0 | h0 <;>
      · rw [h0] at h
        exact absurd h.1 (by decide)

theorem listSizeByteSize_eq_none_iff (ct : Name) :
    listSizeByteSize ct = none ↔
      ct ∉ [str "uint8", str "uchar", str "uint16", str "ushort", str "uint32", str "uint"] := by
  unfold listSizeByteSize
  simp only [List.mem_cons, List.mem_singleton, not_or, List.not_mem_nil, or_false]
  constructor
  · intro h
    split at h
    · cases h
    · next h1 =>
      split at h
      · cases h
      · next h2 =>
        split at h
        · cases h
        · next h3 => simp only [not_or] at h1 h2 h3; tauto
  · intro h
    simp [h]

theorem listSizeByteSize_of_mem (ct : Name) (w : Nat) (h : (ct, w) ∈ countTypeTable) :
    listSizeByteSize ct = some w := by
  simp only [countTypeTable, List.mem_cons, Prod.mk.injEq, List.mem_singleton,
    List.not_mem_nil, or_false] at h
  rcases h with ⟨rfl, rfl⟩ | ⟨rfl, rfl⟩ | ⟨rfl, rfl⟩ | ⟨rfl, rfl⟩ | ⟨rfl, rfl⟩ | ⟨rfl, rfl⟩ <;>
    decide

theorem back_eq_ok {α : Type} (v : List α) (x : α) (h : v.getLast? = some x) :
    back v = .ok x := by
  simp [back, h]

/-- The pass of the header loop over the tokens `property list <countType> <type> <name>`. -/
theorem headerLine_property_list (st : HeaderState) (ct ty name elementName : Name)
    (hcur : st.elementNames.getLast? = some elementName) :
    headerLine st [str "property", str "list", ct, ty, name] =
      match listSizeByteSize ct with
      | none => .ok none
      | some w =>
        match (st.polygon.getElement elementName).1.addListProperty name ty w with
        | .error f => .error f
        | .ok element =>
          .ok (some
            { elementNames := st.elementNames
              propertyNamesPerElement :=
                Map.assign st.propertyNamesPerElement elementName
                  ((Map.lookup st.propertyNamesPerElement elementName).getD [] ++ [name])
              polygon := (st.polygon.getElement elementName).2.putElement elementName element
              valueFormat := st.valueFormat }) := by
  simp only [headerLine, index, back_eq_ok _ _ hcur, bind, Except.bind, pure, Except.pure,
    List.getElem?_cons_zero, List.getElem?_cons_succ, if_true]
  cases listSizeByteSize ct with
  | none => rfl
  | some w =>
    simp only []
    cases (st.polygon.getElement elementName).1.addListProperty name ty w <;> rfl

theorem load_eq_none_of_headerLoop (native : Endian) (file rest0 : List Nat)
    (hply : getline file = some (str "ply", rest0))
    (h : headerLoop rest0.length {} rest0 = .ok none) : load native file = .ok none := by
  simp [load, hply, h]

/-- Counterexample to C8 as stated: after `element face 1` the line
`property list uchar foo y` has an accepted count type and the pass goes on, but no list
column is created: the element has no column and `y` is a list property of no kind.  After
`element a -1`, whose size is read as `2 ^ 64 - 1`, the line `property list uchar int x` has
an accepted count type and an accepted type, and the constructor of the column throws. -/
theorem C8_counterexample :
    split (str "property list uchar foo y") =
      [str "property", str "list", str "uchar", str "foo", str "y"] ∧
    headerLine afterElementFace (split (str "property list uchar foo y")) =
      .ok (some
        { elementNames := [str "face"]
          propertyNamesPerElement := [(str "face", [str "y"])]
          polygon :=
            { mElements :=
                [(str "face",
                  { mSize := 1, mProperties := [],
                    mPropertyIndices := [(str "y", 2 ^ 64 - 1)] })] }
          valueFormat := .ASCII }) ∧
    ¬ (∀ st1, headerLine afterElementFace (split (str "property list uchar foo y")) =
          .ok (some st1) →
        ∃ e K c, st1.polygon.getElement_const (str "face") = .ok e ∧
          e.getListProperty K (str "y") = .ok c) ∧
    load .little hugeCountListFile = .error .lengthError := by
  have h1 : headerLine afterElementFace (split (str "property list uchar foo y")) =
      .ok (some
        { elementNames := [str "face"]
          propertyNamesPerElement := [(str "face", [str "y"])]
          polygon :=
            { mElements :=
                [(str "face",
                  { mSize := 1, mProperties := [],
                    mPropertyIndices := [(str "y", 2 ^ 64 - 1)] })] }
          valueFormat := .ASCII }) := by decide!
  refine ⟨by decide, h1, fun h => ?_, by decide!⟩
  obtain ⟨e, K, c, he, hc⟩ := h _ h1
  simp only [PLYPolygon.getElement_const, Map.lookup, if_true, Except.ok.injEq] at he
  subst he
  have hg : PLYElement.getProperty
      { mSize := 1, mProperties := [], mPropertyIndices := [(str "y", 2 ^ 64 - 1)] }
      (str "y") = .error .outOfBounds := by decide
  rw [getListProperty_ok_iff, hg] at hc
  cases hc

/-- C8 (amended): for a header line `property list <countType> <type> <name>` that follows
an element line, the pass of the header loop returns no document exactly when `<countType>`
is not one of uint8, uchar, uint16, ushort, uint32, uint, and `load` then returns no
document; otherwise, for a `<type>` of the alias table, when the size of the current element
is within `max_size()` the pass goes on with an empty list column of that kind added to the
element, with width 1 for uint8/uchar, 2 for uint16/ushort, 4 for uint32/uint, found under
`<name>`, and when the size is above `max_size()` the constructor of the column throws.  The
signed and floating type tokens are all rejected as count types. -/
theorem C8_list_count_type (st : HeaderState) (line ct ty name elementName : List Nat)
    (hcur : st.elementNames.getLast? = some elementName)
    (hline : split line = [str "property", str "list", ct, ty, name]) :
    (headerLine st (split line) = .ok none ↔
      ct ∉ [str "uint8", str "uchar", str "uint16", str "ushort", str "uint32", str "uint"]) ∧
    (ct ∉ [str "uint8", str "uchar", str "uint16", str "ushort", str "uint32", str "uint"] →
      ∀ native file rest0 fuel fin rest,
        getline file = some (str "ply", rest0) →
        headerLoop rest0.length {} rest0 = headerLoop (fuel + 1) st fin →
        getline fin = some (line, rest) →
        load native file = .ok none) ∧
    (∀ w K, (ct, w) ∈ [(str "uint8", 1), (str "uchar", 1), (str "uint16", 2),
        (str "ushort", 2), (str "uint32", 4), (str "uint", 4)] →
      scalarKindOf ty = some K →
      ((st.polygon.getElement elementName).1.size ≤ vectorMaxSize vectorSizeof →
        ∃ st1 e1,
          headerLine st (split line) = .ok (some st1) ∧
          st1.polygon.getElement_const elementName = .ok e1 ∧
          e1.size = (st.polygon.getElement elementName).1.size ∧
          e1.mProperties =
            (st.polygon.getElement elementName).1.mProperties ++
              [.list K { mValues := [], mListSizeByteSize := w, mTotalSize := 0,
                         mMinSize := 0, mMaxSize := 0 }] ∧
          e1.getListProperty K name =
            .ok { mValues := [], mListSizeByteSize := w, mTotalSize := 0, mMinSize := 0,
                  mMaxSize := 0 }) ∧
      (vectorMaxSize vectorSizeof < (st.polygon.getElement elementName).1.size →
        headerLine st (split line) = .error .lengthError)) ∧
    (∀ t ∈ [str "int8", str "char", str "int16", str "short", str "int32", str "int",
        str "float32", str "float", str "float64", str "double"], listSizeByteSize t = none) := by
  rw [hline, headerLine_property_list st ct ty name elementName hcur]
  refine ⟨?_, ?_, ?_, by decide⟩
  · rw [← listSizeByteSize_eq_none_iff]
    cases listSizeByteSize ct with
    | none => simp
    | some w =>
      simp only []
      cases (st.polygon.getElement elementName).1.addListProperty name ty w <;> simp
  · intro hct native file rest0 fuel fin rest hply hreach hget
    apply load_eq_none_of_headerLoop native file rest0 hply
    rw [hreach]
    have hnc := not_comment_of_split line _ _ hline (Or.inl rfl)
    have hn : listSizeByteSize ct = none := (listSizeByteSize_eq_none_iff ct).2 hct
    simp [headerLoop, hget, hnc.1, hnc.2, hline,
      headerLine_property_list st ct ty name elementName hcur, hn]
  · intro w K hw hK
    have hs : listSizeByteSize ct = some w := listSizeByteSize_of_mem ct w hw
    rw [hs]
    simp only [addListProperty_eq, listReserveThrows, hK, PLYElement.size]
    constructor
    · intro hle
      have hnot : ¬ (st.polygon.getElement elementName).1.mSize > vectorMaxSize vectorSizeof :=
        Nat.not_lt.mpr hle
      simp only [hnot, decide_False, Bool.false_eq_true, if_false]
      refine ⟨_, withListProperty (st.polygon.getElement elementName).1 name ty w, rfl, ?_,
        rfl, ?_, ?_⟩
      · simp [PLYPolygon.getElement_const, PLYPolygon.putElement, Map.lookup_assign_self]
      · simp [withListProperty, listColumns, hK]
      · exact (getListProperty_ok_iff _ K name _).2
          (getProperty_addListProperty _ name ty w K hK)
    · intro hgt
      simp [hgt]

/-- Witness of C8: the line `property list uchar int vertex_indices` after `element face 1`:
the count type is accepted and an empty list column of `int32` with width 1 is created. -/
theorem C8_list_count_type_witness :
    afterElementFace.elementNames.getLast? = some (str "face") ∧
    split (str "property list uchar int vertex_indices") =
      [str "property", str "list", str "uchar", str "int", str "vertex_indices"] ∧
    (headerLine afterElementFace (split (str "property list uchar int vertex_indices")) =
        .ok none ↔
      str "uchar" ∉
        [str "uint8", str "uchar", str "uint16", str "ushort", str "uint32", str "uint"]) ∧
    ∃ st1 e1,
      headerLine afterElementFace (split (str "property list uchar int vertex_indices")) =
        .ok (some st1) ∧
      st1.polygon.getElement_const (str "face") = .ok e1 ∧
      e1.getListProperty .int32 (str "vertex_indices") =
        .ok { mValues := [], mListSizeByteSize := 1, mTotalSize := 0, mMinSize := 0,
              mMaxSize := 0 } :=
  have h := C8_list_count_type afterElementFace (str "property list uchar int vertex_indices")
    (str "uchar") (str "int") (str "vertex_indices") (str "face") (by decide) (by decide)
  ⟨by decide, by decide, h.1,
    match (h.2.2.1 1 .int32 (by decide) (by decide)).1 (by decide) with
    | ⟨st1, e1, h1, h2, _, _, h5⟩ => ⟨st1, e1, h1, h2, h5⟩⟩

/-! ## Binary value rows -/

theorem unformatted_little (T : ScalarKind) (native : Endian) (buf : List Nat)
    (h : T.sizeof ≤ buf.length) :
    unformatted T native .little { buf := buf, failed := false } =
      (some (leDecode (buf.take T.sizeof)), { buf := buf.drop T.sizeof, failed := false }) := by
  cases native <;> simp [unformatted, IStream.read, h, objectValue]

theorem load_value_little (T : ScalarKind) (native : Endian) (vs : List (Option Nat))
    (buf : List Nat) (h : T.sizeof ≤ buf.length) :
    PLYProperty.load native (.value T { mValues := vs }) { buf := buf, failed := false }
        .BinaryLittleEndian =
      .ok (.value T { mValues := vs ++ [some (leDecode (buf.take T.sizeof))] },
        { buf := buf.drop T.sizeof, failed := false }) := by
  simp [PLYProperty.load, PLYValueProperty.load, unformatted_little T native buf h]

theorem lookup_indexMap (pre : List Name) (n : Name) (post : List Name) (i : Nat)
    (h : n ∉ pre) : Map.lookup (indexMap (pre ++ n :: post) i) n = some (i + pre.length) := by
  induction pre generalizing i with
  | nil => simp [indexMap, Map.lookup]
  | cons p pre ih =>
    have hp : n ≠ p := fun e => h (by simp [e])
    have hpre : n ∉ pre := fun e => h (List.mem_cons_of_mem _ e)
    rw [List.cons_append]
    simp only [indexMap, Map.lookup]
    rw [if_neg hp, ih (i + 1) hpre, List.length_cons]
    congr 1
    omega

theorem assign_indexMap (ns : List Name) (n : Name) (i v : Nat) (h : n ∉ ns) :
    Map.assign (indexMap ns i) n v = indexMap ns i ++ [(n, v)] := by
  induction ns generalizing i with
  | nil => simp [indexMap, Map.assign]
  | cons p ns ih =>
    have hp : n ≠ p := fun e => h (by simp [e])
    have hns : n ∉ ns := fun e => h (List.mem_cons_of_mem _ e)
    simp [indexMap, Map.assign, hp, ih (i + 1) hns]

theorem indexMap_append (ns : List Name) (n : Name) (i : Nat) :
    indexMap (ns ++ [n]) i = indexMap ns i ++ [(n, i + ns.length)] := by
  induction ns generalizing i with
  | nil => simp [indexMap]
  | cons p ns ih =>
    have e : i + 1 + ns.length = i + (ns.length + 1) := by omega
    rw [List.cons_append]
    simp only [indexMap]
    rw [ih (i + 1), List.length_cons, e]
    rfl

theorem columnsOf_append (pre post : List (ScalarKind × Name))
    (vpre vpost : List (List (Option Nat))) (h : vpre.length = pre.length) :
    columnsOf (pre ++ post) (vpre ++ vpost) = columnsOf pre vpre ++ columnsOf post vpost := by
  unfold columnsOf
  exact List.zipWith_append _ _ _ _ _ h.symm

theorem length_columnsOf (props : List (ScalarKind × Name)) (valss : List (List (Option Nat)))
    (h : valss.length = props.length) : (columnsOf props valss).length = props.length := by
  simp [columnsOf, h]

theorem getProperty_elementOf (d : ElementDecl) (pre post : List (ScalarKind × Name))
    (T : ScalarKind) (n : Name) (vpre vpost : List (List (Option Nat))) (vs : List (Option Nat))
    (hd : d.properties = pre ++ (T, n) :: post) (hn : n ∉ pre.map Prod.snd)
    (hl : vpre.length = pre.length) :
    (elementOf d (vpre ++ vs :: vpost)).getProperty n = .ok (.value T { mValues := vs }) := by
  have hi : Map.lookup (indexMap d.propertyNames 0) n = some pre.length := by
    have := lookup_indexMap (pre.map Prod.snd) n (post.map Prod.snd) 0 hn
    simpa [ElementDecl.propertyNames, hd] using this
  have hc : (columnsOf d.properties (vpre ++ vs :: vpost))[pre.length]? =
      some (.value T { mValues := vs }) := by
    have hlen := length_columnsOf pre vpre hl
    rw [hd, columnsOf_append pre _ vpre _ hl, List.getElem?_append_right (by omega), hlen,
      Nat.sub_self]
    simp [columnsOf]
  simp [PLYElement.getProperty, elementOf, hi, hc]

theorem putProperty_elementOf (d : ElementDecl) (pre post : List (ScalarKind × Name))
    (T : ScalarKind) (n : Name) (vpre vpost : List (List (Option Nat)))
    (vs ws : List (Option Nat))
    (hd : d.properties = pre ++ (T, n) :: post) (hn : n ∉ pre.map Prod.snd)
    (hl : vpre.length = pre.length) :
    (elementOf d (vpre ++ vs :: vpost)).putProperty n (.value T { mValues := ws }) =
      elementOf d (vpre ++ ws :: vpost) := by
  have hi : Map.lookup (indexMap d.propertyNames 0) n = some pre.length := by
    have := lookup_indexMap (pre.map Prod.snd) n (post.map Prod.snd) 0 hn
    simpa [ElementDecl.propertyNames, hd] using this
  have hc : (columnsOf d.properties (vpre ++ vs :: vpost)).set pre.length
      (.value T { mValues := ws }) = columnsOf d.properties (vpre ++ ws :: vpost) := by
    have hlen := length_columnsOf pre vpre hl
    rw [hd, columnsOf_append pre _ vpre _ hl, columnsOf_append pre _ vpre _ hl,
      List.set_append_right _ _ (by omega), hlen, Nat.sub_self]
    simp [columnsOf]
  simp [PLYElement.putProperty, elementOf, hi, hc]

theorem length_rowValues (props : List (ScalarKind × Name)) (buf : List Nat) :
    (rowValues props buf).length = props.length := by
  induction props generalizing buf with
  | nil => rfl
  | cons p ps ih => simp [rowValues, ih]

theorem length_appendRow (valss : List (List (Option Nat))) (row : List (Option Nat))
    (h : row.length = valss.length) : (appendRow valss row).length = valss.length := by
  simp [appendRow, h]

theorem rowBytes_cons (p : ScalarKind × Name) (ps : List (ScalarKind × Name)) :
    rowBytes (p :: ps) = p.1.sizeof + rowBytes ps := by
  simp [rowBytes]

/-- The property loop over the properties `post` of an element, after those of `pre`. -/
theorem loadRow_little (native : Endian) (d : ElementDecl)
    (hnd : d.propertyNames.Nodup) (post : List (ScalarKind × Name)) :
    ∀ (pre : List (ScalarKind × Name)) (vpre vpost : List (List (Option Nat)))
      (buf : List Nat),
      d.properties = pre ++ post → vpre.length = pre.length → vpost.length = post.length →
      rowBytes post ≤ buf.length →
      loadRow native .BinaryLittleEndian (post.map Prod.snd) (elementOf d (vpre ++ vpost))
          { buf := buf, failed := false } =
        .ok (elementOf d (vpre ++ appendRow vpost (rowValues post buf)),
          { buf := buf.drop (rowBytes post), failed := false }) := by
  induction post with
  | nil =>
    intro pre vpre vpost buf _ _ hvpost _
    have : vpost = [] := List.length_eq_zero.mp hvpost
    subst this
    simp [loadRow, appendRow, rowValues, rowBytes]
  | cons p post ih =>
    intro pre vpre vpost buf hd hvpre hvpost hbuf
    obtain ⟨T, n⟩ := p
    cases vpost with
    | nil => simp at hvpost
    | cons vs vpost =>
      have hvpost2 : vpost.length = post.length := by simpa using hvpost
      rw [rowBytes_cons] at hbuf
      have hw : T.sizeof ≤ buf.length := by
        have : (T, n).1.sizeof = T.sizeof := rfl
        omega
      have hn : n ∉ pre.map Prod.snd := by
        have h1 := hnd
        rw [ElementDecl.propertyNames, hd, List.map_append, List.map_cons] at h1
        have h2 := (List.nodup_append.mp h1).2.2
        intro hmem
        exact List.disjoint_left.mp h2 hmem (List.mem_cons_self _ _)
      have hd2 : d.properties = (pre ++ [(T, n)]) ++ post := by simp [hd]
      have hget := getProperty_elementOf d pre post T n vpre vpost vs hd hn hvpre
      have hput := putProperty_elementOf d pre post T n vpre vpost vs
        (vs ++ [some (leDecode (buf.take T.sizeof))]) hd hn hvpre
      have hrec := ih (pre ++ [(T, n)]) (vpre ++ [vs ++ [some (leDecode (buf.take T.sizeof))]])
        vpost (buf.drop T.sizeof) hd2 (by simp [hvpre]) hvpost2
        (by
          have : (T, n).1.sizeof = T.sizeof := rfl
          simp only [List.length_drop]
          omega)
      simp only [List.map_cons, loadRow, hget, load_value_little T native vs buf hw, hput]
      have e1 : vpre ++ (vs ++ [some (leDecode (List.take T.sizeof buf))]) :: vpost =
          (vpre ++ [vs ++ [some (leDecode (List.take T.sizeof buf))]]) ++ vpost := by simp
      rw [e1, hrec]
      simp [appendRow, rowValues, rowBytes_cons, List.drop_drop, Nat.add_comm]

/-- One whole row of an element of value properties, little-endian. -/
theorem loadRow_little_row (native : Endian) (d : ElementDecl) (hnd : d.propertyNames.Nodup)
    (valss : List (List (Option Nat))) (buf : List Nat)
    (hv : valss.length = d.properties.length) (hbuf : rowBytes d.properties ≤ buf.length) :
    loadRow native .BinaryLittleEndian d.propertyNames (elementOf d valss)
        { buf := buf, failed := false } =
      .ok (elementOf d (appendRow valss (rowValues d.properties buf)),
        { buf := buf.drop (rowBytes d.properties), failed := false }) := by
  have := loadRow_little native d hnd d.properties [] [] valss buf rfl rfl hv hbuf
  simpa [ElementDecl.propertyNames] using this

/-- The row loop of an element of value properties, little-endian. -/
theorem binaryRows_little (native : Endian) (d : ElementDecl) (hnd : d.propertyNames.Nodup)
    (n : Nat) :
    ∀ (valss : List (List (Option Nat))) (buf : List Nat),
      valss.length = d.properties.length → n * rowBytes d.properties ≤ buf.length →
      binaryRows native .BinaryLittleEndian d.propertyNames n (elementOf d valss)
          { buf := buf, failed := false } =
        .ok (elementOf d (fillRows d.properties n buf valss),
          { buf := buf.drop (n * rowBytes d.properties), failed := false }) := by
  induction n with
  | zero =>
    intro valss buf _ _
    simp [binaryRows, fillRows]
  | succ n ih =>
    intro valss buf hv hbuf
    have hb1 : rowBytes d.properties ≤ buf.length := by
      have : (n + 1) * rowBytes d.properties = n * rowBytes d.properties + rowBytes d.properties :=
        Nat.succ_mul _ _
      omega
    have hb2 : n * rowBytes d.properties ≤ (buf.drop (rowBytes d.properties)).length := by
      have : (n + 1) * rowBytes d.properties = n * rowBytes d.properties + rowBytes d.properties :=
        Nat.succ_mul _ _
      simp only [List.length_drop]
      omega
    have hv2 : (appendRow valss (rowValues d.properties buf)).length = d.properties.length := by
      rw [length_appendRow _ _ (by rw [length_rowValues, hv]), hv]
    simp only [binaryRows, loadRow_little_row native d hnd valss buf hv hb1, fillRows]
    rw [ih _ _ hv2 hb2, List.drop_drop]
    have e1 : n * rowBytes d.properties + rowBytes d.properties =
        (n + 1) * rowBytes d.properties := (Nat.succ_mul _ _).symm
    have e2 : rowBytes d.properties + n * rowBytes d.properties =
        (n + 1) * rowBytes d.properties := by rw [Nat.add_comm]; exact e1
    rw [e2]

theorem getElement_of_lookup (p : PLYPolygon) (n : Name) (e : PLYElement)
    (h : Map.lookup p.mElements n = some e) : p.getElement n = (e, p) := by
  simp [PLYPolygon.getElement, h]

theorem length_emptyValss (d : ElementDecl) : (emptyValss d).length = d.properties.length := by
  simp [emptyValss]

/-- The element loop over elements of value properties, little-endian: every element is
filled from the bytes that follow those of the elements before it. -/
theorem bodyLoop_little (native : Endian) (pn : Map (List Name)) (els : List ElementDecl) :
    ∀ (polygon : PLYPolygon) (buf : List Nat),
      (els.map (fun d => d.name)).Nodup →
      (∀ d ∈ els, d.propertyNames.Nodup) →
      (∀ d ∈ els, Map.lookup polygon.mElements d.name = some (elementOf d (emptyValss d))) →
      (∀ d ∈ els, (Map.lookup pn d.name).getD [] = d.propertyNames) →
      (els.map ElementDecl.bytes).sum ≤ buf.length →
      ∃ polygon1,
        bodyLoop native .BinaryLittleEndian pn (els.map (fun d => d.name)) polygon
            { buf := buf, failed := false } =
          .ok (some (polygon1,
            { buf := buf.drop (els.map ElementDecl.bytes).sum, failed := false })) ∧
        (∀ n, n ∉ els.map (fun d => d.name) →
          Map.lookup polygon1.mElements n = Map.lookup polygon.mElements n) ∧
        (∀ k d, els[k]? = some d →
          Map.lookup polygon1.mElements d.name =
            some (elementOf d
              (fillRows d.properties d.count (buf.drop (elemOffset els k)) (emptyValss d)))) := by
  induction els with
  | nil =>
    intro polygon buf _ _ _ _ _
    exact ⟨polygon, by simp [bodyLoop], fun _ _ => rfl, fun k d h => by simp at h⟩
  | cons d els ih =>
    intro polygon buf hnames hprops hlook hpn hbuf
    have hnames2 : (els.map (fun d => d.name)).Nodup := (List.nodup_cons.mp hnames).2
    have hdn : d.name ∉ els.map (fun d => d.name) := (List.nodup_cons.mp hnames).1
    have hsum : ((d :: els).map ElementDecl.bytes).sum =
        d.bytes + (els.map ElementDecl.bytes).sum := by simp
    rw [hsum] at hbuf
    have hd1 : d.count * rowBytes d.properties ≤ buf.length := by
      have : d.bytes = d.count * rowBytes d.properties := rfl
      omega
    have hrows := binaryRows_little native d (hprops d (List.mem_cons_self _ _)) d.count
      (emptyValss d) buf (length_emptyValss d) hd1
    have hget := getElement_of_lookup polygon d.name _ (hlook d (List.mem_cons_self _ _))
    have hpnd := hpn d (List.mem_cons_self _ _)
    obtain ⟨polygon1, hloop, hframe, hfill⟩ := ih
      (polygon.putElement d.name (elementOf d (fillRows d.properties d.count buf (emptyValss d))))
      (buf.drop d.bytes) hnames2
      (fun x hx => hprops x (List.mem_cons_of_mem _ hx))
      (fun x hx => by
        have hne : x.name ≠ d.name := fun e => hdn (e ▸ List.mem_map_of_mem _ hx)
        rw [PLYPolygon.putElement, Map.lookup_assign_of_ne _ _ _ _ hne]
        exact hlook x (List.mem_cons_of_mem _ hx))
      (fun x hx => hpn x (List.mem_cons_of_mem _ hx))
      (by simp only [List.length_drop]; omega)
    refine ⟨polygon1, ?_, ?_, ?_⟩
    · simp only [List.map_cons, bodyLoop, hget, hpnd, PLYElement.size]
      have hsz : (elementOf d (emptyValss d)).mSize = d.count := rfl
      rw [hsz, hrows]
      simp only []
      have hb : d.count * rowBytes d.properties = d.bytes := rfl
      rw [hb, hloop, List.drop_drop]
      simp [Nat.add_comm]
    · intro n hn
      have hn1 : n ≠ d.name := fun e => hn (by simp [e])
      have hn2 : n ∉ els.map (fun d => d.name) := fun e => hn (by
        rw [List.map_cons]; exact List.mem_cons_of_mem _ e)
      rw [hframe n hn2, PLYPolygon.putElement, Map.lookup_assign_of_ne _ _ _ _ hn1]
    · intro k x hk
      cases k with
      | zero =>
        simp only [List.getElem?_cons_zero, Option.some.injEq] at hk
        subst hk
        rw [hframe _ hdn, PLYPolygon.putElement, Map.lookup_assign_self]
        simp [elemOffset]
      | succ k =>
        simp only [List.getElem?_cons_succ] at hk
        rw [hfill k x hk, List.drop_drop]
        have e1 : elemOffset (d :: els) (k + 1) = d.bytes + elemOffset els k := by
          simp [elemOffset]
        rw [e1]

/-! ## The header loop on a header of value properties -/

theorem getline_line (line rest : List Nat) (h : 10 ∉ line) :
    getline (line ++ 10 :: rest) = some (line, rest) := by
  induction line with
  | nil => simp [getline]
  | cons c cs ih =>
    have hc : c ≠ 10 := fun e => h (by simp [e])
    have hcs : 10 ∉ cs := fun e => h (List.mem_cons_of_mem _ e)
    simp [getline, hc, ih hcs]

theorem Map.lookup_emplace_self {V : Type} (m : Map V) (n : Name) (v : V)
    (h : Map.lookup m n = none) : Map.lookup (Map.emplace m n v) n = some v := by
  simp [Map.emplace, Map.contains, h, Map.lookup_assign_self]

theorem Map.lookup_emplace_of_ne {V : Type} (m : Map V) (n k : Name) (v : V) (h : k ≠ n) :
    Map.lookup (Map.emplace m n v) k = Map.lookup m k := by
  unfold Map.emplace
  split
  · rfl
  · exact Map.lookup_assign_of_ne m n k v h

theorem headerLine_element (st : HeaderState) (name tok : Name) (ts : List Name) (count : Nat)
    (h : elementSize tok = .ok count) :
    headerLine st (str "element" :: name :: tok :: ts) =
      .ok (some
        { elementNames := st.elementNames ++ [name]
          propertyNamesPerElement := st.propertyNamesPerElement
          polygon := st.polygon.addElement name count
          valueFormat := st.valueFormat }) := by
  have h1 : str "element" ≠ str "property" := by decide
  simp [headerLine, index, bind, Except.bind, pure, Except.pure, h1, h]

theorem headerLine_property (st : HeaderState) (ty name elementName : Name) (ts : List Name)
    (hty : ty ≠ str "list") (hcur : st.elementNames.getLast? = some elementName)
    (hres : valueReserveThrows (st.polygon.getElement elementName).1 ty = false) :
    headerLine st (str "property" :: ty :: name :: ts) =
      .ok (some
        { elementNames := st.elementNames
          propertyNamesPerElement :=
            Map.assign st.propertyNamesPerElement elementName
              ((Map.lookup st.propertyNamesPerElement elementName).getD [] ++ [name])
          polygon :=
            (st.polygon.getElement elementName).2.putElement elementName
              (withValueProperty (st.polygon.getElement elementName).1 name ty)
          valueFormat := st.valueFormat }) := by
  simp [headerLine, index, bind, Except.bind, pure, Except.pure, hty, back_eq_ok _ _ hcur,
    addValueProperty_eq, hres]

theorem headerLine_format (st : HeaderState) (ts : List Name) :
    headerLine st (str "format" :: str "binary_little_endian" :: ts) =
      .ok (some { st with valueFormat := .BinaryLittleEndian }) := by
  have h1 : str "format" ≠ str "property" := by decide
  have h2 : str "format" ≠ str "element" := by decide
  have h3 : str "binary_little_endian" ≠ str "ascii" := by decide
  simp [headerLine, index, bind, Except.bind, pure, Except.pure, h1, h2, h3]

theorem declareRev_element (rsch : List ElementDecl) (name : Name) (count : Nat) :
    declareRev rsch (.element name count) =
      { name := name, count := count, properties := [] } :: rsch := by
  cases rsch <;> rfl

theorem declareRev_comment (rsch : List ElementDecl) : declareRev rsch .comment = rsch := by
  cases rsch <;> rfl

theorem declareRev_format (rsch : List ElementDecl) : declareRev rsch .format = rsch := by
  cases rsch <;> rfl

theorem SchemaOK_of_declareRev (rsch : List ElementDecl) (decl : HeaderDecl)
    (h : SchemaOK (declareRev rsch decl)) : SchemaOK rsch := by
  cases decl with
  | comment => cases rsch <;> exact h
  | format => cases rsch <;> exact h
  | element name count =>
    rw [declareRev_element] at h
    exact ⟨(List.nodup_cons.mp h.1).2, fun d hd => h.2.1 d (List.mem_cons_of_mem _ hd),
      fun d hd => h.2.2 d (List.mem_cons_of_mem _ hd)⟩
  | property T name =>
    cases rsch with
    | nil => exact h
    | cons d rs =>
      refine ⟨h.1, fun x hx => ?_, fun x hx p hp => ?_⟩
      · rcases List.mem_cons.mp hx with rfl | hx
        · have := h.2.1 _ (List.mem_cons_self _ _)
          simp only [ElementDecl.propertyNames, List.map_append] at this
          exact (List.nodup_append.mp this).1
        · exact h.2.1 x (List.mem_cons_of_mem _ hx)
      · rcases List.mem_cons.mp hx with rfl | hx
        · exact h.2.2 _ (List.mem_cons_self _ _) p (List.mem_append_left _ hp)
        · exact h.2.2 x (List.mem_cons_of_mem _ hx) p hp

theorem SchemaOK_of_foldl (decls : List HeaderDecl) :
    ∀ rsch, SchemaOK (decls.foldl declareRev rsch) → SchemaOK rsch := by
  induction decls with
  | nil => intro rsch h; exact h
  | cons decl decls ih =>
    intro rsch h
    exact SchemaOK_of_declareRev rsch decl (ih _ h)

theorem addValueProperty_elementOf (d : ElementDecl) (T : ScalarKind) (name ty : Name)
    (hty : scalarKindOf ty = some T) (hn : name ∉ d.propertyNames) :
    withValueProperty (elementOf d (emptyValss d)) name ty =
      elementOf { name := d.name, count := d.count, properties := d.properties ++ [(T, name)] }
        (emptyValss
          { name := d.name, count := d.count, properties := d.properties ++ [(T, name)] }) := by
  unfold withValueProperty
  have hc : valueColumns (elementOf d (emptyValss d)) ty =
      columnsOf (d.properties ++ [(T, name)]) (emptyValss d ++ [[]]) := by
    rw [columnsOf_append _ _ _ _ (length_emptyValss d)]
    simp [valueColumns, hty, elementOf, columnsOf]
  have hlen : (columnsOf (d.properties ++ [(T, name)]) (emptyValss d ++ [[]])).length =
      d.properties.length + 1 := by
    rw [length_columnsOf _ _ (by simp [emptyValss])]
    simp
  have hidx : Map.assign (indexMap d.propertyNames 0) name d.properties.length =
      indexMap (d.propertyNames ++ [name]) 0 := by
    rw [assign_indexMap _ _ _ _ hn, indexMap_append]
    simp [ElementDecl.propertyNames]
  rw [hc, hlen]
  simp only [elementOf, emptyValss, ElementDecl.propertyNames, List.map_append, List.map_cons,
    List.map_nil, Nat.add_sub_cancel, Nat.succ_ne_zero, if_false]
  simp only [ElementDecl.propertyNames] at hidx
  rw [hidx]

/-- One pass of the header loop over a line that declares `decl`. -/
theorem headerLoop_step (fuel : Nat) (st : HeaderState) (rsch : List ElementDecl)
    (line : List Nat) (decl : HeaderDecl) (rest : List Nat)
    (hinv : HeaderInv st rsch) (hden : Denotes line decl)
    (hok : SchemaOK (declareRev rsch decl))
    (hpl : rsch ≠ [] ∨ ∀ T n, decl ≠ .property T n) :
    ∃ st1,
      headerLoop (fuel + 1) st (line ++ 10 :: rest) = headerLoop fuel st1 rest ∧
      HeaderInv st1 (declareRev rsch decl) ∧
      st1.valueFormat = (if decl = .format then .BinaryLittleEndian else st.valueFormat) := by
  obtain ⟨h10, hd⟩ := hden
  obtain ⟨hnames, hlook, hpn, hdom⟩ := hinv
  cases decl with
  | comment =>
    refine ⟨st, ?_, ?_, by simp⟩
    · simp only [] at hd
      simp [headerLoop, getline_line _ _ h10, hd]
    · rw [declareRev_comment]
      exact ⟨hnames, hlook, hpn, hdom⟩
  | format =>
    obtain ⟨ts, hs⟩ := hd
    have hnc := not_comment_of_split line _ _ hs (Or.inr (Or.inr rfl))
    refine ⟨{ st with valueFormat := .BinaryLittleEndian }, ?_, ?_, by simp⟩
    · simp [headerLoop, getline_line _ _ h10, hnc.1, hnc.2, hs, headerLine_format]
    · rw [declareRev_format]
      exact ⟨hnames, hlook, hpn, hdom⟩
  | element name count =>
    obtain ⟨tok, ts, hs, hsz⟩ := hd
    have hnc := not_comment_of_split line _ _ hs (Or.inr (Or.inl rfl))
    rw [declareRev_element] at hok ⊢
    have hnew : name ∉ rsch.map (fun d => d.name) := (List.nodup_cons.mp hok.1).1
    refine ⟨
      { elementNames := st.elementNames ++ [name]
        propertyNamesPerElement := st.propertyNamesPerElement
        polygon := st.polygon.addElement name count
        valueFormat := st.valueFormat }, ?_, ⟨?_, ?_, ?_, ?_⟩, by simp⟩
    · simp only [headerLoop, getline_line _ _ h10, hnc.1, hnc.2, hs,
        headerLine_element st name tok ts count hsz, Bool.false_eq_true, if_false]
    · simp [hnames]
    · intro d hd
      rcases List.mem_cons.mp hd with rfl | hd
      · simp only [PLYPolygon.addElement]
        rw [Map.lookup_emplace_self _ _ _ (hdom _ hnew).1]
        rfl
      · have hne : d.name ≠ name := fun e => hnew (e ▸ List.mem_map_of_mem _ hd)
        simp only [PLYPolygon.addElement]
        rw [Map.lookup_emplace_of_ne _ _ _ _ hne]
        exact hlook d hd
    · intro d hd
      rcases List.mem_cons.mp hd with rfl | hd
      · simp only []
        rw [(hdom _ hnew).2]
        rfl
      · exact hpn d hd
    · intro n hn
      have hn1 : n ≠ name := fun e => hn (by simp [e])
      have hn2 : n ∉ rsch.map (fun d => d.name) := fun e => hn (by
        rw [List.map_cons]; exact List.mem_cons_of_mem _ e)
      simp only [PLYPolygon.addElement]
      rw [Map.lookup_emplace_of_ne _ _ _ _ hn1]
      exact hdom n hn2
  | property T name =>
    obtain ⟨ty, ts, hs, hty⟩ := hd
    have hnc := not_comment_of_split line _ _ hs (Or.inl rfl)
    cases rsch with
    | nil =>
      rcases hpl with h | h
      · exact absurd rfl h
      · exact absurd rfl (h T name)
    | cons d rs =>
      have hdr : declareRev (d :: rs) (.property T name) =
          { name := d.name, count := d.count, properties := d.properties ++ [(T, name)] } ::
            rs := rfl
      rw [hdr] at hok ⊢
      have hcur : st.elementNames.getLast? = some d.name := by simp [hnames]
      have hlist : ty ≠ str "list" := by
        rintro rfl
        have : scalarKindOf (str "list") = none := by decide
        rw [this] at hty
        cases hty
      have hpnames : name ∉ d.propertyNames := by
        have := hok.2.1 _ (List.mem_cons_self _ _)
        simp only [ElementDecl.propertyNames, List.map_append, List.map_cons,
          List.map_nil] at this
        have h2 := (List.nodup_append.mp this).2.2
        intro hmem
        exact List.disjoint_left.mp h2 hmem (List.mem_singleton_self _)
      have hdrs : d.name ∉ rs.map (fun d => d.name) := (List.nodup_cons.mp hok.1).1
      have hget := getElement_of_lookup st.polygon d.name _ (hlook d (List.mem_cons_self _ _))
      have hres : valueReserveThrows (st.polygon.getElement d.name).1 ty = false := by
        have hcount := hok.2.2 _ (List.mem_cons_self _ _) (T, name)
          (List.mem_append_right _ (List.mem_singleton_self _))
        simp only [] at hcount
        simp only [valueReserveThrows, hty, hget, elementOf, decide_eq_false_iff_not,
          Nat.not_lt]
        exact hcount
      refine ⟨
        { elementNames := st.elementNames
          propertyNamesPerElement :=
            Map.assign st.propertyNamesPerElement d.name
              ((Map.lookup st.propertyNamesPerElement d.name).getD [] ++ [name])
          polygon :=
            (st.polygon.getElement d.name).2.putElement d.name
              (withValueProperty (st.polygon.getElement d.name).1 name ty)
          valueFormat := st.valueFormat }, ?_, ⟨?_, ?_, ?_, ?_⟩, by simp⟩
      · simp only [headerLoop, getline_line _ _ h10, hnc.1, hnc.2, hs,
          headerLine_property st ty name d.name ts hlist hcur hres, Bool.false_eq_true,
          if_false]
      · simp [hnames]
      · intro x hx
        rcases List.mem_cons.mp hx with rfl | hx
        · simp only [hget, PLYPolygon.putElement]
          rw [Map.lookup_assign_self, addValueProperty_elementOf d T name ty hty hpnames]
        · have hne : x.name ≠ d.name := fun e => hdrs (e ▸ List.mem_map_of_mem _ hx)
          simp only [hget, PLYPolygon.putElement]
          rw [Map.lookup_assign_of_ne _ _ _ _ hne]
          exact hlook x (List.mem_cons_of_mem _ hx)
      · intro x hx
        rcases List.mem_cons.mp hx with rfl | hx
        · simp only []
          rw [Map.lookup_assign_self, hpn d (List.mem_cons_self _ _)]
          simp [ElementDecl.propertyNames]
        · have hne : x.name ≠ d.name := fun e => hdrs (e ▸ List.mem_map_of_mem _ hx)
          simp only []
          rw [Map.lookup_assign_of_ne _ _ _ _ hne]
          exact hpn x (List.mem_cons_of_mem _ hx)
      · intro n hn
        have hn1 : n ≠ d.name := fun e => hn (by simp [e])
        have hn2 : n ∉ (d :: rs).map (fun d => d.name) := by simpa using hn
        simp only [hget, PLYPolygon.putElement]
        rw [Map.lookup_assign_of_ne _ _ _ _ hn1, Map.lookup_assign_of_ne _ _ _ _ hn1]
        exact hdom n hn2

theorem length_flatten_lines (lines : List (List Nat)) :
    lines.length ≤ ((lines.map (fun l => l ++ [10])).flatten).length := by
  induction lines with
  | nil => simp
  | cons l ls ih => simp only [List.map_cons, List.flatten_cons, List.length_append,
      List.length_cons, List.length_nil]; omega

/-- The header loop over the lines of a header of value properties, `end_header` included:
it ends with the locals that the declared schema describes and with the body unread. -/
theorem headerLoop_header (body : List Nat) (decls : List HeaderDecl) :
    ∀ (lines : List (List Nat)) (st : HeaderState) (rsch : List ElementDecl) (fuel : Nat),
      List.Forall₂ Denotes lines decls → HeaderInv st rsch →
      SchemaOK (decls.foldl declareRev rsch) →
      (rsch ≠ [] ∨ noPropertyBeforeElement decls = true) → lines.length < fuel →
      ∃ st1,
        headerLoop fuel st
            ((lines.map (fun l => l ++ [10])).flatten ++ (str "end_header" ++ [10]) ++ body) =
          .ok (some (st1, body)) ∧
        HeaderInv st1 (decls.foldl declareRev rsch) ∧
        st1.valueFormat =
          (if HeaderDecl.format ∈ decls then .BinaryLittleEndian else st.valueFormat) := by
  induction decls with
  | nil =>
    intro lines st rsch fuel hden hinv _ _ hfuel
    cases hden
    cases fuel with
    | zero => simp at hfuel
    | succ f =>
      refine ⟨st, ?_, hinv, by simp⟩
      have h10 : 10 ∉ str "end_header" := by decide
      have hc : starts_with (str "end_header") (str "comment") = false := by decide
      have e : (List.map (fun l => l ++ [10]) ([] : List (List Nat))).flatten ++
          (str "end_header" ++ [10]) ++ body = str "end_header" ++ 10 :: body := by simp
      rw [e]
      simp [headerLoop, getline_line _ _ h10, hc]
  | cons decl decls ih =>
    intro lines st rsch fuel hden hinv hok hpl hfuel
    cases hden with
    | cons hline hrest =>
      rename_i line lines
      cases fuel with
      | zero => simp at hfuel
      | succ f =>
        have hpl1 : rsch ≠ [] ∨ ∀ T n, decl ≠ .property T n := by
          rcases hpl with h | h
          · exact Or.inl h
          · cases decl with
            | property T n => simp [noPropertyBeforeElement] at h
            | comment => exact Or.inr (fun _ _ e => by cases e)
            | format => exact Or.inr (fun _ _ e => by cases e)
            | element _ _ => exact Or.inr (fun _ _ e => by cases e)
        have hok1 : SchemaOK (declareRev rsch decl) := SchemaOK_of_foldl decls _ hok
        have e : (List.map (fun l => l ++ [10]) (line :: lines)).flatten ++
            (str "end_header" ++ [10]) ++ body =
            line ++ 10 :: ((List.map (fun l => l ++ [10]) lines).flatten ++
              (str "end_header" ++ [10]) ++ body) := by simp
        obtain ⟨st1, hstep, hinv1, hfmt1⟩ :=
          headerLoop_step f st rsch line decl
            ((List.map (fun l => l ++ [10]) lines).flatten ++ (str "end_header" ++ [10]) ++ body)
            hinv hline hok1 hpl1
        have hpl2 : declareRev rsch decl ≠ [] ∨ noPropertyBeforeElement decls = true := by
          cases decl with
          | element name count => rw [declareRev_element]; exact Or.inl (by simp)
          | property T n =>
            cases rsch with
            | nil =>
              rcases hpl with h | h
              · exact absurd rfl h
              · simp [noPropertyBeforeElement] at h
            | cons d rs => exact Or.inl (by simp [declareRev])
          | comment =>
            rw [declareRev_comment]
            rcases hpl with h | h
            · exact Or.inl h
            · exact Or.inr (by simpa [noPropertyBeforeElement] using h)
          | format =>
            rw [declareRev_format]
            rcases hpl with h | h
            · exact Or.inl h
            · exact Or.inr (by simpa [noPropertyBeforeElement] using h)
        obtain ⟨st2, hloop, hinv2, hfmt2⟩ :=
          ih lines st1 (declareRev rsch decl) f hrest hinv1 hok hpl2
            (by simpa using hfuel)
        refine ⟨st2, ?_, hinv2, ?_⟩
        · rw [e, hstep, hloop]
        · rw [hfmt2, hfmt1]
          by_cases hm : HeaderDecl.format ∈ decls
          · simp [hm]
          · by_cases hd : decl = .format
            · simp [hd]
            · have : HeaderDecl.format ∉ decl :: decls := by
                simp only [List.mem_cons, not_or]
                exact ⟨fun e => hd e.symm, hm⟩
              simp [hm, hd, this]

/-! ## The columns after the element is decoded -/

theorem rowValues_getElem (props : List (ScalarKind × Name)) :
    ∀ (buf : List Nat) (j : Nat) (hj : j < props.length),
      (rowValues props buf)[j]? =
        some (some (leDecode ((buf.drop (colOffset props j)).take (props[j].1.sizeof)))) := by
  induction props with
  | nil => intro buf j hj; simp at hj
  | cons p ps ih =>
    intro buf j hj
    cases j with
    | zero => simp [rowValues, colOffset, rowBytes]
    | succ j =>
      have hj2 : j < ps.length := by simpa using hj
      simp only [rowValues, List.getElem?_cons_succ, ih (buf.drop p.1.sizeof) j hj2,
        List.getElem_cons_succ, List.drop_drop]
      have e : colOffset (p :: ps) (j + 1) = p.1.sizeof + colOffset ps j := by
        simp [colOffset, rowBytes]
      rw [e]

theorem appendRow_getElem (valss : List (List (Option Nat))) (row : List (Option Nat))
    (j : Nat) (vs : List (Option Nat)) (v : Option Nat)
    (h1 : valss[j]? = some vs) (h2 : row[j]? = some v) :
    (appendRow valss row)[j]? = some (vs ++ [v]) := by
  simp [appendRow, List.getElem?_zipWith, h1, h2]

theorem fillRows_getElem (props : List (ScalarKind × Name)) (j : Nat) (hj : j < props.length)
    (n : Nat) :
    ∀ (buf : List Nat) (valss : List (List (Option Nat))) (vs : List (Option Nat)),
      valss.length = props.length → valss[j]? = some vs →
      (fillRows props n buf valss)[j]? =
        some (vs ++ (List.range n).map (fun r =>
          some (leDecode
            ((buf.drop (r * rowBytes props + colOffset props j)).take (props[j].1.sizeof))))) := by
  induction n with
  | zero => intro buf valss vs _ h; simp [fillRows, h]
  | succ n ih =>
    intro buf valss vs hlen h
    have hrow := rowValues_getElem props buf j hj
    have happ := appendRow_getElem valss (rowValues props buf) j vs _ h hrow
    have hlen2 : (appendRow valss (rowValues props buf)).length = props.length := by
      rw [length_appendRow _ _ (by rw [length_rowValues, hlen]), hlen]
    rw [fillRows, ih (buf.drop (rowBytes props)) _ _ hlen2 happ, List.range_succ_eq_map]
    simp only [List.map_cons, List.map_map, List.append_assoc, List.singleton_append,
      Nat.zero_mul, Nat.zero_add, List.drop_drop]
    have e : ∀ r, rowBytes props + (r * rowBytes props + colOffset props j) =
        Nat.succ r * rowBytes props + colOffset props j := by
      intro r
      rw [Nat.succ_mul]
      omega
    simp only [Function.comp_def, e]

theorem getValueProperty_elementOf (d : ElementDecl) (hnd : d.propertyNames.Nodup)
    (valss : List (List (Option Nat))) (hlen : valss.length = d.properties.length)
    (j : Nat) (hj : j < d.properties.length) (vs : List (Option Nat))
    (hvs : valss[j]? = some vs) :
    (elementOf d valss).getValueProperty (d.properties[j]).1 (d.properties[j]).2 =
      .ok { mValues := vs } := by
  have hj2 : j < valss.length := by omega
  have hp : d.properties =
      d.properties.take j ++ ((d.properties[j]).1, (d.properties[j]).2) ::
        d.properties.drop (j + 1) := by
    conv_lhs => rw [← List.take_append_drop j d.properties]
    rw [List.drop_eq_getElem_cons hj]
  have hv : valss = valss.take j ++ vs :: valss.drop (j + 1) := by
    conv_lhs => rw [← List.take_append_drop j valss]
    rw [List.drop_eq_getElem_cons hj2]
    have : valss[j] = vs := by
      rw [List.getElem?_eq_getElem hj2] at hvs
      exact Option.some.inj hvs
    rw [this]
  have hn : (d.properties[j]).2 ∉ (d.properties.take j).map Prod.snd := by
    have h1 := hnd
    rw [ElementDecl.propertyNames, hp, List.map_append, List.map_cons] at h1
    have h2 := (List.nodup_append.mp h1).2.2
    intro hmem
    exact List.disjoint_left.mp h2 hmem (List.mem_cons_self _ _)
  have hl : (valss.take j).length = (d.properties.take j).length := by
    simp only [List.length_take]
    omega
  rw [hv, (getValueProperty_ok_iff _ _ _ _).2
    (getProperty_elementOf d _ _ _ _ _ _ vs hp hn hl)]

theorem ScalarKind.sizeof_pos (T : ScalarKind) : 0 < T.sizeof := by
  cases T <;> decide

/-- A size whose bytes fit below `2 ^ 63` is within `max_size()`. -/
theorem le_vectorMaxSize (n s : Nat) (hs : 0 < s) (h : n * s < 2 ^ 63) :
    n ≤ vectorMaxSize s := by
  unfold vectorMaxSize
  rw [Nat.le_div_iff_mul_le hs]
  have e : 2 ^ (sizeBits - 1) = 2 ^ 63 := rfl
  omega

/-- In a schema whose bytes are all held by a body below `2 ^ 63` bytes, every count is
within `max_size()` of the vectors of its columns. -/
theorem counts_le_vectorMaxSize (sch : List ElementDecl) (n : Nat)
    (hbody : (sch.map ElementDecl.bytes).sum ≤ n) (hn : n < 2 ^ 63) :
    ∀ d ∈ sch, ∀ p ∈ d.properties, d.count ≤ vectorMaxSize p.1.sizeof := by
  intro d hd p hp
  apply le_vectorMaxSize _ _ (ScalarKind.sizeof_pos _)
  have h1 : d.bytes ≤ (sch.map ElementDecl.bytes).sum :=
    List.le_sum_of_mem (List.mem_map_of_mem _ hd)
  have h2 : p.1.sizeof ≤ rowBytes d.properties := by
    unfold rowBytes
    exact List.le_sum_of_mem (List.mem_map_of_mem (fun p => p.1.sizeof) hp)
  have h3 : d.count * p.1.sizeof ≤ d.bytes := Nat.mul_le_mul_left _ h2
  omega

/-- C2: for every header with the format `binary_little_endian`, pairwise distinct element
names, pairwise distinct property names within each element, only value properties and only
type tokens of the alias table, and every body with at least the required bytes, `load`
returns a document, on either host, in which row `r` of the `j`-th property of the `k`-th
declared element is the little-endian decoding of the bytes of the property's width found at
the body offset (bytes of the earlier declared elements) + `r` * (row width) + (widths of the
earlier properties of the element): elements are consumed in declaration order.  The file is
one that the platform can hold: its length is below `2 ^ 63`, the range of a file offset. -/
theorem C2_binary_little_endian_value_offsets (native : Endian) (lines : List (List Nat))
    (decls : List HeaderDecl) (body : List Nat)
    (hden : List.Forall₂ Denotes lines decls)
    (hfmt : HeaderDecl.format ∈ decls)
    (hplaced : noPropertyBeforeElement decls = true)
    (hnames : ((schemaOf decls).map (fun d => d.name)).Nodup)
    (hprops : ∀ d ∈ schemaOf decls, d.propertyNames.Nodup)
    (hbody : ((schemaOf decls).map ElementDecl.bytes).sum ≤ body.length)
    (hfile : (headerText lines ++ body).length < 2 ^ 63) :
    ∃ doc,
      load native (headerText lines ++ body) = .ok (some doc) ∧
      ∀ (k : Nat) (hk : k < (schemaOf decls).length)
        (j : Nat) (hj : j < ((schemaOf decls)[k]).properties.length) (r : Nat),
        r < ((schemaOf decls)[k]).count →
        ∃ e col,
          doc.getElement_const ((schemaOf decls)[k]).name = .ok e ∧
          e.size = ((schemaOf decls)[k]).count ∧
          e.getValueProperty (((schemaOf decls)[k]).properties[j]).1
            (((schemaOf decls)[k]).properties[j]).2 = .ok col ∧
          col.mValues.length = ((schemaOf decls)[k]).count ∧
          col.mValues[r]? =
            some (some (leDecode
              ((body.drop
                  (elemOffset (schemaOf decls) k +
                    r * rowBytes ((schemaOf decls)[k]).properties +
                    colOffset ((schemaOf decls)[k]).properties j)).take
                ((((schemaOf decls)[k]).properties[j]).1.sizeof)))) := by
  have hblen : body.length < 2 ^ 63 := by
    rw [List.length_append] at hfile
    omega
  have hok : SchemaOK (decls.foldl declareRev []) := by
    refine ⟨?_, ?_, ?_⟩
    · have := hnames
      rw [schemaOf, List.map_reverse, List.nodup_reverse] at this
      exact this
    · intro d hd
      exact hprops d (by rw [schemaOf]; exact List.mem_reverse.mpr hd)
    · intro d hd
      exact counts_le_vectorMaxSize (schemaOf decls) body.length hbody hblen d
        (by rw [schemaOf]; exact List.mem_reverse.mpr hd)
  have hinv0 : HeaderInv {} [] := by
    refine ⟨rfl, ?_, ?_, ?_⟩
    · intro d hd; cases hd
    · intro d hd; cases hd
    · intro n _; exact ⟨rfl, rfl⟩
  have hfuel : lines.length <
      ((lines.map (fun l => l ++ [10])).flatten ++ (str "end_header" ++ [10]) ++ body).length := by
    have := length_flatten_lines lines
    simp only [List.length_append, List.length_cons, List.length_nil]
    omega
  obtain ⟨st1, hloop, hinv, hfmt1⟩ :=
    headerLoop_header body decls lines {} [] _ hden hinv0 hok (Or.inr hplaced) hfuel
  obtain ⟨hnm, hlook, hpn, _⟩ := hinv
  have hLE : st1.valueFormat = .BinaryLittleEndian := by rw [hfmt1]; simp [hfmt]
  have hnm2 : st1.elementNames = (schemaOf decls).map (fun d => d.name) := by
    rw [hnm, schemaOf, List.map_reverse]
  obtain ⟨polygon1, hbl, _, hfill⟩ :=
    bodyLoop_little native st1.propertyNamesPerElement (schemaOf decls) st1.polygon body
      hnames hprops
      (fun d hd => hlook d (by rw [schemaOf] at hd; exact List.mem_reverse.mp hd))
      (fun d hd => hpn d (by rw [schemaOf] at hd; exact List.mem_reverse.mp hd))
      hbody
  refine ⟨polygon1, ?_, ?_⟩
  · have h10 : 10 ∉ str "ply" := by decide
    have hfile : headerText lines ++ body =
        str "ply" ++ 10 :: ((lines.map (fun l => l ++ [10])).flatten ++
          (str "end_header" ++ [10]) ++ body) := by
      simp [headerText]
    rw [hfile]
    simp only [load, getline_line _ _ h10, ne_eq, not_true_eq_false, if_false, hloop, hLE,
      hnm2, hbl]
  · intro k hk j hj r hr
    have hd : (schemaOf decls)[k]? = some (schemaOf decls)[k] := List.getElem?_eq_getElem hk
    have hl := hfill k _ hd
    have hnd := hprops _ (List.getElem_mem hk)
    have hcol := fillRows_getElem ((schemaOf decls)[k]).properties j hj
      ((schemaOf decls)[k]).count (body.drop (elemOffset (schemaOf decls) k))
      (emptyValss (schemaOf decls)[k]) [] (length_emptyValss _)
      (by simp [emptyValss, hj])
    have hlen : (fillRows ((schemaOf decls)[k]).properties ((schemaOf decls)[k]).count
        (body.drop (elemOffset (schemaOf decls) k)) (emptyValss (schemaOf decls)[k])).length =
        ((schemaOf decls)[k]).properties.length := by
      have : ∀ (n : Nat) (buf : List Nat) (valss : List (List (Option Nat))),
          valss.length = ((schemaOf decls)[k]).properties.length →
          (fillRows ((schemaOf decls)[k]).properties n buf valss).length =
            ((schemaOf decls)[k]).properties.length := by
        intro n
        induction n with
        | zero => intro buf valss h; exact h
        | succ n ih =>
          intro buf valss h
          rw [fillRows]
          apply ih
          rw [length_appendRow _ _ (by rw [length_rowValues, h]), h]
      exact this _ _ _ (length_emptyValss _)
    have h1 : polygon1.getElement_const ((schemaOf decls)[k]).name =
        .ok (elementOf (schemaOf decls)[k]
          (fillRows ((schemaOf decls)[k]).properties ((schemaOf decls)[k]).count
            (body.drop (elemOffset (schemaOf decls) k)) (emptyValss (schemaOf decls)[k]))) := by
      rw [PLYPolygon.getElement_const, hl]
    have h2 := getValueProperty_elementOf _ hnd _ hlen j hj _ hcol
    refine ⟨_, _, h1, rfl, h2, ?_, ?_⟩
    · simp
    · simp only [List.nil_append, List.getElem?_map, List.getElem?_range hr, Option.map_some',
        List.drop_drop]
      congr 5
      omega

theorem smallLines_denote : List.Forall₂ Denotes smallLines smallDecls := by
  unfold smallLines smallDecls
  refine .cons ⟨by decide, [str "1.0"], by decide⟩ (.cons ⟨by decide, by decide⟩
    (.cons ⟨by decide, str "2", [], by decide, by decide⟩
    (.cons ⟨by decide, str "uchar", [], by decide, by decide⟩
    (.cons ⟨by decide, str "short", [], by decide, by decide⟩
    (.cons ⟨by decide, str "1", [], by decide, by decide⟩
    (.cons ⟨by decide, str "int", [], by decide, by decide⟩ .nil))))))

/-- Witness of C2: the small binary file on a big-endian host. -/
theorem C2_binary_little_endian_value_offsets_witness :
    List.Forall₂ Denotes smallLines smallDecls ∧
    HeaderDecl.format ∈ smallDecls ∧
    noPropertyBeforeElement smallDecls = true ∧
    ((schemaOf smallDecls).map (fun d => d.name)).Nodup ∧
    (∀ d ∈ schemaOf smallDecls, d.propertyNames.Nodup) ∧
    ((schemaOf smallDecls).map ElementDecl.bytes).sum ≤ smallBody.length ∧
    (headerText smallLines ++ smallBody).length < 2 ^ 63 ∧
    ∃ doc,
      load .big (headerText smallLines ++ smallBody) = .ok (some doc) ∧
      ∀ (k : Nat) (hk : k < (schemaOf smallDecls).length)
        (j : Nat) (hj : j < ((schemaOf smallDecls)[k]).properties.length) (r : Nat),
        r < ((schemaOf smallDecls)[k]).count →
        ∃ e col,
          doc.getElement_const ((schemaOf smallDecls)[k]).name = .ok e ∧
          e.size = ((schemaOf smallDecls)[k]).count ∧
          e.getValueProperty (((schemaOf smallDecls)[k]).properties[j]).1
            (((schemaOf smallDecls)[k]).properties[j]).2 = .ok col ∧
          col.mValues.length = ((schemaOf smallDecls)[k]).count ∧
          col.mValues[r]? =
            some (some (leDecode
              ((smallBody.drop
                  (elemOffset (schemaOf smallDecls) k +
                    r * rowBytes ((schemaOf smallDecls)[k]).properties +
                    colOffset ((schemaOf smallDecls)[k]).properties j)).take
                ((((schemaOf smallDecls)[k]).properties[j]).1.sizeof)))) :=
  ⟨smallLines_denote, by decide, by decide, by decide, by decide, by decide, by decide!,
    C2_binary_little_endian_value_offsets .big smallLines smallDecls smallBody
      smallLines_denote (by decide) (by decide) (by decide) (by decide) (by decide)
      (by decide!)⟩

/-! ## The fuel of the header loop -/

theorem getline_length (fin line rest : List Nat) (h : getline fin = some (line, rest)) :
    rest.length < fin.length := by
  induction fin generalizing line rest with
  | nil => simp [getline] at h
  | cons c cs ih =>
    simp only [getline] at h
    split at h
    · cases h
      simp
    · split at h
      · cases h
        simp
      · next l r hg =>
        cases h
        have := ih l rest hg
        simp only [List.length_cons]
        omega

/-- The header loop does not depend on its fuel once the fuel covers the unread bytes: the
fuel that `load` gives it never ends the loop early. -/
theorem headerLoop_fuel (fuel1 : Nat) :
    ∀ (fuel2 : Nat) (st : HeaderState) (fin : List Nat),
      fin.length ≤ fuel1 → fin.length ≤ fuel2 →
      headerLoop fuel1 st fin = headerLoop fuel2 st fin := by
  induction fuel1 with
  | zero =>
    intro fuel2 st fin h1 _
    have hfin : fin = [] := List.length_eq_zero.mp (by omega)
    subst hfin
    cases fuel2 <;> simp [headerLoop, getline]
  | succ f ih =>
    intro fuel2 st fin h1 h2
    cases fuel2 with
    | zero =>
      have hfin : fin = [] := List.length_eq_zero.mp (by omega)
      subst hfin
      simp [headerLoop, getline]
    | succ g =>
      simp only [headerLoop]
      cases hg : getline fin with
      | none => rfl
      | some lr =>
        obtain ⟨line, rest⟩ := lr
        have hlen := getline_length fin line rest hg
        have e := fun st1 => ih g st1 rest (by omega) (by omega)
        simp only [e]

/-! ## The sizes kept by a list property -/

theorem asciiItems_length (T : ScalarKind) (n : Nat) :
    ∀ s : IStream, (asciiItems T n s).1.length = n := by
  induction n with
  | zero => intro s; rfl
  | succ n ih => intro s; simp [asciiItems, ih]

theorem binaryItems_length (T : ScalarKind) (native : Endian) (n : Nat) :
    ∀ s : IStream, (binaryItems T native n s).1.length = n := by
  induction n with
  | zero => intro s; rfl
  | succ n ih => intro s; simp [binaryItems, ih]

/-- What a returning call of `PLYListProperty::load` does to the members: one row of the
announced length is appended and the three sizes are updated with that length. -/
theorem PLYListProperty.load_ok (T : ScalarKind) (native : Endian) (p p1 : PLYListProperty)
    (s s1 : IStream) (valueFormat : PLYValueFormat)
    (h : p.load T native s valueFormat = .ok (p1, s1)) :
    ∃ (size : Nat) (row : List (Option Nat)),
      row.length = size ∧
      p1.mValues = p.mValues ++ [row] ∧
      p1.mListSizeByteSize = p.mListSizeByteSize ∧
      p1.mTotalSize = (p.mTotalSize + size) % sizeMod ∧
      p1.mMinSize = (if p.mMinSize = 0 ∨ size < p.mMinSize then size else p.mMinSize) ∧
      p1.mMaxSize = (if size > p.mMaxSize then size else p.mMaxSize) := by
  unfold PLYListProperty.load at h
  cases valueFormat with
  | ASCII =>
    simp only [] at h
    cases hs : (extractUnsigned sizeBits s).1 with
    | none => simp [hs] at h
    | some size =>
      cases hr : reserve T.sizeof size with
      | error f => simp [hs, hr] at h
      | ok u =>
        simp only [hs, hr, Except.ok.injEq, Prod.mk.injEq] at h
        obtain ⟨h1, _⟩ := h
        subst h1
        exact ⟨size, _, asciiItems_length T size _, rfl, rfl, rfl, rfl, rfl⟩
  | BinaryLittleEndian =>
    simp only [] at h
    cases hs : (binaryListSize native (needSwap native .BinaryLittleEndian)
        p.mListSizeByteSize s).1 with
    | none => simp [hs] at h
    | some size =>
      cases hr : reserve T.sizeof size with
      | error f => simp [hs, hr] at h
      | ok u =>
        simp only [hs, hr, Except.ok.injEq, Prod.mk.injEq] at h
        obtain ⟨h1, _⟩ := h
        subst h1
        exact ⟨size, _, binaryItems_length T native size _, rfl, rfl, rfl, rfl, rfl⟩
  | BinaryBigEndian =>
    simp only [] at h
    cases hs : (binaryListSize native (needSwap native .BinaryBigEndian)
        p.mListSizeByteSize s).1 with
    | none => simp [hs] at h
    | some size =>
      cases hr : reserve T.sizeof size with
      | error f => simp [hs, hr] at h
      | ok u =>
        simp only [hs, hr, Except.ok.injEq, Prod.mk.injEq] at h
        obtain ⟨h1, _⟩ := h
        subst h1
        exact ⟨size, _, binaryItems_length T native size _, rfl, rfl, rfl, rfl, rfl⟩

/-- C12 (evaluation at the failing inputs): for `uchar` the source extracts one character,
not one token.  From the stream `255 0 128` a `uchar` value property stores 50, the code of
the character `2`, and leaves `55 0 128` unread; the row `255 0 128` of three `uchar`
properties loads as 50, 53, 53, and the list row `2 10 20` of `uchar` loads as the two
characters `1` and `0`.  The same row with three `short` properties loads as 255, 0, 128. -/
theorem C12_ascii_uchar_reads_one_character (native : Endian) :
    (PLYValueProperty.new .uint8 1).map (fun p =>
        p.load .uint8 native { buf := str "255 0 128", failed := false } .ASCII) =
      .ok ({ mValues := [some 50] }, { buf := str "55 0 128", failed := false }) ∧
    (PLYValueProperty.new .int8 1).map (fun p =>
        p.load .int8 native { buf := str "255 0 128", failed := false } .ASCII) =
      .ok ({ mValues := [some 50] }, { buf := str "55 0 128", failed := false }) ∧
    (PLYValueProperty.new .int16 1).map (fun p =>
        p.load .int16 native { buf := str "255 0 128", failed := false } .ASCII) =
      .ok ({ mValues := [some 255] }, { buf := str " 0 128", failed := false }) ∧
    load native ucharRowFile = .ok (some (colourDocument .uint8 (some 50) (some 53) (some 53))) ∧
    load native shortRowFile = .ok (some (colourDocument .int16 (some 255) (some 0) (some 128))) ∧
    load native ucharListFile = .ok (some (oneListDocument .uint8 [some 49, some 48])) := by
  cases native <;> decide!

/-- C13 (evaluation at the failing inputs): `load` returns a document for a row with a value
token missing (the column of `y` gets a row that was never stored), for a row whose first
token is `abc` (0 is stored for `x`, nothing for `y`), and for a list row that announces
three elements and holds two (the third was never stored).  For a list row with no length
token the loop bound is a variable that was never stored.  Only a missing row line makes
`load` return `std::nullopt`. -/
theorem C13_short_ascii_row_returns_document (native : Endian) :
    load native missingTokenFile = .ok (some (xyDocument (some 1) none)) ∧
    load native unparsableTokenFile = .ok (some (xyDocument (some 0) none)) ∧
    load native shortListFile = .ok (some (oneListDocument .int32 [some 1, some 2, none])) ∧
    load native missingLengthFile = .error .indeterminate ∧
    load native missingRowFile = .ok none := by
  cases native <;> decide!


/-! ## Header lines with too few tokens -/

/-- The header pass on a `property` line with no element declared calls `back()` on the
empty vector. -/
theorem headerLine_property_no_element (st : HeaderState) (rest : List Name)
    (h : st.elementNames = []) :
    headerLine st (str "property" :: rest) = .error .outOfBounds := by
  simp [headerLine, index, back, h, bind, Except.bind]

/-- The header pass on an `element` line of one or two tokens indexes past the tokens. -/
theorem headerLine_element_short (st : HeaderState) (name : Name) :
    headerLine st [str "element"] = .error .outOfBounds ∧
    headerLine st [str "element", name] = .error .outOfBounds := by
  have h1 : str "element" ≠ str "property" := by decide
  constructor <;> simp [headerLine, index, bind, Except.bind, pure, Except.pure, h1]

/-- The header pass on a `property` line of one or two tokens indexes past the tokens (or
calls `back()` on the empty vector). -/
theorem headerLine_property_short (st : HeaderState) (ty : Name) :
    headerLine st [str "property"] = .error .outOfBounds ∧
    headerLine st [str "property", ty] = .error .outOfBounds := by
  constructor
  · simp only [headerLine, index, back, bind, Except.bind, pure, Except.pure]
    cases st.elementNames.getLast? <;> simp
  · simp only [headerLine, index, back, bind, Except.bind, pure, Except.pure]
    cases st.elementNames.getLast? <;> simp

/-- The header pass on a `property list` line of three or four tokens: `std::nullopt` for
a count type outside the chain, else the tokens are indexed past their end. -/
theorem headerLine_property_list_short (st : HeaderState) (elementName ct ty : Name)
    (hcur : st.elementNames.getLast? = some elementName) :
    headerLine st [str "property", str "list"] = .error .outOfBounds ∧
    headerLine st [str "property", str "list", ct] =
      (if (listSizeByteSize ct).isSome then .error .outOfBounds else .ok none) ∧
    headerLine st [str "property", str "list", ct, ty] =
      (if (listSizeByteSize ct).isSome then .error .outOfBounds else .ok none) := by
  refine ⟨?_, ?_, ?_⟩
  · simp [headerLine, index, bind, Except.bind, pure, Except.pure, back_eq_ok _ _ hcur]
  · simp only [headerLine, index, bind, Except.bind, pure, Except.pure, back_eq_ok _ _ hcur]
    cases h : listSizeByteSize ct <;> simp [h]
  · simp only [headerLine, index, bind, Except.bind, pure, Except.pure, back_eq_ok _ _ hcur]
    cases h : listSizeByteSize ct <;> simp [h]

/-- The header pass on the line `format` indexes past the tokens. -/
theorem headerLine_format_short (st : HeaderState) :
    headerLine st [str "format"] = .error .outOfBounds := by
  have h1 : str "format" ≠ str "property" := by decide
  have h2 : str "format" ≠ str "element" := by decide
  simp [headerLine, index, bind, Except.bind, pure, Except.pure, h1, h2]

/-- C14 (evaluation at the failing inputs): the header pass reads `tokens[i]` and
`elementNames.back()` unchecked.  Whatever the locals, a line with no token, an `element`
line of one or two tokens, a `property` line of one or two tokens and the line `format` are
indexed past their end; so is a `property` line met before any `element` line.  `load` on a
file with such a line, or with a `property list` line of four tokens, does not return
`std::nullopt`: it reads a token or an element that does not exist.  Only a `property list`
line whose count type is outside the chain returns `std::nullopt`. -/
theorem C14_malformed_header_line_is_indexed (native : Endian) :
    (∀ st, headerLine st [] = .error .outOfBounds) ∧
    (∀ rest, headerLine {} (str "property" :: rest) = .error .outOfBounds) ∧
    (∀ st name, headerLine st [str "element"] = .error .outOfBounds ∧
      headerLine st [str "element", name] = .error .outOfBounds) ∧
    (∀ st ty, headerLine st [str "property"] = .error .outOfBounds ∧
      headerLine st [str "property", ty] = .error .outOfBounds) ∧
    (∀ st, headerLine st [str "format"] = .error .outOfBounds) ∧
    load native blankLineFile = .error .outOfBounds ∧
    load native propertyBeforeElementFile = .error .outOfBounds ∧
    load native shortElementFile = .error .outOfBounds ∧
    load native shortPropertyFile = .error .outOfBounds ∧
    load native shortListPropertyFile = .error .outOfBounds ∧
    load native shortFormatFile = .error .outOfBounds ∧
    load native shortListPropertyBadCountFile = .ok none := by
  refine ⟨fun _ => rfl, fun rest => headerLine_property_no_element _ rest rfl,
    fun st name => headerLine_element_short st name,
    fun st ty => headerLine_property_short st ty,
    fun st => headerLine_format_short st, ?_⟩
  cases native <;> decide!


/-! ## The two overloads of `getElement` -/

/-- After `m[n] = v` the key `n` is present. -/
theorem Map.contains_assign_self {V : Type} (m : Map V) (n : Name) (v : V) :
    Map.contains (Map.assign m n v) n = true := by
  simp [Map.contains, Map.lookup_assign_self]

/-- The non-const `getElement` on an absent name returns a default element and enters it in
the document; the const overload throws. -/
theorem getElement_absent (p : PLYPolygon) (name : Name) (h : p.containsElement name = false) :
    p.getElement_const name = .error .outOfRange ∧
    (p.getElement name).1 = {} ∧
    (p.getElement name).2 = { mElements := Map.assign p.mElements name {} } ∧
    (p.getElement name).2.containsElement name = true := by
  have h0 : Map.lookup p.mElements name = none := by
    simpa [PLYPolygon.containsElement, Map.contains] using h
  simp [PLYPolygon.getElement_const, PLYPolygon.getElement, h0, PLYPolygon.containsElement,
    Map.contains_assign_self]

/-- Both overloads of `getElement` on a present name return the stored element, and the
non-const one leaves the document as it is. -/
theorem getElement_present (p : PLYPolygon) (name : Name) (e : PLYElement)
    (h : Map.lookup p.mElements name = some e) :
    p.containsElement name = true ∧ p.getElement_const name = .ok e ∧
    p.getElement name = (e, p) := by
  simp [PLYPolygon.getElement_const, PLYPolygon.getElement, h, PLYPolygon.containsElement,
    Map.contains]

/-- C15 (evaluation at the failing input): the document of the ASCII example has no element
`edge`; the const `getElement` throws for it, and the non-const overload, the one the
example consumer calls, returns a default element of size 0 and leaves a document in which
`containsElement("edge")` is true.  This is so for every document and every absent name.
For the declared names `vertex` and `face` both overloads return the element with the
declared row count and the document is unchanged. -/
theorem C15_getElement_enters_absent_name (native : Endian) :
    load native asciiExample = .ok (some exampleDocument) ∧
    exampleDocument.containsElement (str "edge") = false ∧
    exampleDocument.getElement_const (str "edge") = .error .outOfRange ∧
    (exampleDocument.getElement (str "edge")).1 = {} ∧
    (exampleDocument.getElement (str "edge")).2 ≠ exampleDocument ∧
    (exampleDocument.getElement (str "edge")).2.containsElement (str "edge") = true ∧
    (∀ (p : PLYPolygon) (name : Name), p.containsElement name = false →
      p.getElement_const name = .error .outOfRange ∧
      (p.getElement name).2 = { mElements := Map.assign p.mElements name {} } ∧
      (p.getElement name).2.containsElement name = true) ∧
    exampleDocument.containsElement (str "vertex") = true ∧
    exampleDocument.containsElement (str "face") = true ∧
    (exampleDocument.getElement (str "vertex")).1.size = 3 ∧
    (exampleDocument.getElement (str "face")).1.size = 1 ∧
    (exampleDocument.getElement (str "vertex")).2 = exampleDocument ∧
    (exampleDocument.getElement (str "face")).2 = exampleDocument ∧
    (exampleDocument.getElement_const (str "vertex")).map PLYElement.size = .ok 3 ∧
    (exampleDocument.getElement_const (str "face")).map PLYElement.size = .ok 1 := by
  refine ⟨load_asciiExample native, by decide!, by decide!, by decide!, by decide!, by decide!,
    fun p name h => ⟨(getElement_absent p name h).1, (getElement_absent p name h).2.2⟩,
    by decide!, by decide!, by decide!, by decide!, by decide!, by decide!, by decide!,
    by decide!⟩

/-! ## The magic line -/

/-- The line that `getline` returns is the first line of the input. -/
theorem getline_eq_firstLine (file : List Nat) :
    (getline file).map Prod.fst = firstLine file := by
  induction file with
  | nil => rfl
  | cons c cs ih =>
    by_cases hc : c = 10
    · simp [getline, firstLine, hc]
    · cases hg : getline cs with
      | none =>
        have hcs : cs = [] := by
          cases cs with
          | nil => rfl
          | cons d ds =>
            simp only [getline] at hg
            split at hg
            · simp at hg
            · split at hg <;> simp at hg
        simp [getline, firstLine, hc, hg, hcs]
      | some r =>
        rw [hg] at ih
        have hcs : cs ≠ [] := by
          rintro rfl
          simp [getline] at hg
        simp only [firstLine, hcs, if_false, Option.map_some', Option.some.injEq] at ih
        simp [getline, firstLine, hc, hg, ih]

/-- The function `load` is the magic check followed by the rest of its statements. -/
theorem load_eq_loadAfterMagic (native : Endian) (file : List Nat) :
    load native file =
      match getline file with
      | none => .ok none
      | some (line, rest) => if line ≠ str "ply" then .ok none else loadAfterMagic native rest :=
  rfl

/-- A file whose first line is not `ply` is rejected whatever follows the line. -/
theorem load_first_line_ne (native : Endian) (line rest : List Nat) (h10 : 10 ∉ line)
    (h : line ≠ str "ply") : load native (line ++ 10 :: rest) = .ok none := by
  rw [load_eq_loadAfterMagic, getline_line line rest h10]
  simp [h]

/-- C16: the condition under which `load` reports that the file is not a PLY file holds if
and only if the input has no first line or its first line is not `ply`.  When it holds `load`
returns `std::nullopt`; when it does not, the first line is `ply` and `load` is the header
and body decoding of the bytes after it.  A first line `PLY`, ` ply`, `ply ` or `ply`
followed by a carriage return is rejected whatever bytes follow, so no header or body line
is interpreted. -/
theorem C16_not_a_ply_file (native : Endian) (file : List Nat) :
    (notAPlyFile file = true ↔ (firstLine file = none ∨ firstLine file ≠ some (str "ply"))) ∧
    (notAPlyFile file = true → load native file = .ok none) ∧
    (notAPlyFile file = false →
      ∃ rest, getline file = some (str "ply", rest) ∧
        load native file = loadAfterMagic native rest) ∧
    (∀ rest, load native (str "PLY" ++ 10 :: rest) = .ok none ∧
      load native (str " ply" ++ 10 :: rest) = .ok none ∧
      load native (str "ply " ++ 10 :: rest) = .ok none ∧
      load native (str "ply\r" ++ 10 :: rest) = .ok none) := by
  have hf := getline_eq_firstLine file
  refine ⟨?_, ?_, ?_, fun rest => ⟨?_, ?_, ?_, ?_⟩⟩
  · rw [← hf]
    unfold notAPlyFile
    cases getline file with
    | none => simp
    | some r => obtain ⟨line, rest⟩ := r; simp
  · intro h
    rw [load_eq_loadAfterMagic]
    unfold notAPlyFile at h
    cases hg : getline file with
    | none => rfl
    | some r =>
      obtain ⟨line, rest⟩ := r
      rw [hg] at h
      simp only [decide_eq_true_eq] at h
      simp [h]
  · intro h
    rw [load_eq_loadAfterMagic]
    unfold notAPlyFile at h
    cases hg : getline file with
    | none => rw [hg] at h; simp at h
    | some r =>
      obtain ⟨line, rest⟩ := r
      rw [hg] at h
      simp only [decide_eq_false_iff_not, not_not] at h
      exact ⟨rest, by rw [h], by simp [h]⟩
  · exact load_first_line_ne native _ rest (by decide) (by decide)
  · exact load_first_line_ne native _ rest (by decide) (by decide)
  · exact load_first_line_ne native _ rest (by decide) (by decide)
  · exact load_first_line_ne native _ rest (by decide) (by decide)

/-! ## The alias pairs -/

/-- Both tokens of an alias pair resolve to the kind of the pair. -/
theorem scalarKindOf_aliasPairs (a b : Name) (K : ScalarKind) (h : (a, b, K) ∈ aliasPairs) :
    scalarKindOf a = some K ∧ scalarKindOf b = some K := by
  simp only [aliasPairs, List.mem_cons, Prod.mk.injEq, List.mem_singleton, List.not_mem_nil,
    or_false] at h
  rcases h with h | h | h | h | h | h | h | h <;>
    · obtain ⟨rfl, rfl, rfl⟩ := h
      exact ⟨by decide, by decide⟩

/-- After a returning `addValueProperty` with a token of kind `K`: one empty value column of
kind `K` is appended and the name is mapped to its index. -/
theorem addValueProperty_of_kind (e : PLYElement) (name ty : Name) (K : ScalarKind)
    (h : scalarKindOf ty = some K) :
    (withValueProperty e name ty).mProperties =
      e.mProperties ++ [.value K { mValues := [] }] ∧
    (withValueProperty e name ty).mSize = e.mSize ∧
    Map.lookup (withValueProperty e name ty).mPropertyIndices name =
      some e.mProperties.length ∧
    (withValueProperty e name ty).containsValueProperty K name = .ok true := by
  refine ⟨?_, rfl, ?_, ?_⟩
  · simp [withValueProperty, valueColumns, h]
  · simp [withValueProperty, valueColumns, h, Map.lookup_assign_self]
  · exact (containsValueProperty_iff _ _ _).2 ⟨_, getProperty_addValueProperty e name ty K h⟩

/-- After a returning `addListProperty` with a token of kind `K`: one empty list column of
kind `K` is appended and the name is mapped to its index. -/
theorem addListProperty_of_kind (e : PLYElement) (name ty : Name) (w : Nat) (K : ScalarKind)
    (h : scalarKindOf ty = some K) :
    (withListProperty e name ty w).mProperties =
      e.mProperties ++ [.list K { mValues := [], mListSizeByteSize := w }] ∧
    (withListProperty e name ty w).mSize = e.mSize ∧
    Map.lookup (withListProperty e name ty w).mPropertyIndices name =
      some e.mProperties.length ∧
    (withListProperty e name ty w).containsListProperty K name = .ok true := by
  refine ⟨?_, rfl, ?_, ?_⟩
  · simp [withListProperty, listColumns, h]
  · simp [withListProperty, listColumns, h, Map.lookup_assign_self]
  · exact (containsListProperty_iff _ _ _).2 ⟨_, getProperty_addListProperty e name ty w K h⟩

/-- For a token of kind `K`, `addValueProperty` returns exactly when the size of the element
is within `max_size()` of a vector of `K`, and throws otherwise. -/
theorem addValueProperty_kind_eq (e : PLYElement) (name ty : Name) (K : ScalarKind)
    (h : scalarKindOf ty = some K) :
    e.addValueProperty name ty =
      if e.mSize > vectorMaxSize K.sizeof then .error .lengthError
      else .ok (withValueProperty e name ty) := by
  rw [addValueProperty_eq]
  simp only [valueReserveThrows, h, decide_eq_true_eq]

/-- For a token of the alias table, `addListProperty` returns exactly when the size of the
element is within `max_size()` of a vector of vectors, and throws otherwise. -/
theorem addListProperty_kind_eq (e : PLYElement) (name ty : Name) (w : Nat) (K : ScalarKind)
    (h : scalarKindOf ty = some K) :
    e.addListProperty name ty w =
      if e.mSize > vectorMaxSize vectorSizeof then .error .lengthError
      else .ok (withListProperty e name ty w) := by
  rw [addListProperty_eq]
  simp only [listReserveThrows, h, decide_eq_true_eq]

/-- Counterexample to C17 as stated: on an element of size `2 ^ 64 - 1`, the size that the
count token `-1` gives, `addValueProperty` and `addListProperty` called with `int` throw
`std::length_error` from the constructor of the column: nothing is appended and the name is
not mapped.  `load` on a header with `element a -1` and `property int x` ends so. -/
theorem C17_counterexample :
    (str "int32", str "int", ScalarKind.int32) ∈ aliasPairs ∧
    elementSize (str "-1") = .ok (2 ^ 64 - 1) ∧
    PLYElement.addValueProperty { mSize := 2 ^ 64 - 1 } (str "x") (str "int") =
      .error .lengthError ∧
    PLYElement.addListProperty { mSize := 2 ^ 64 - 1 } (str "x") (str "int") 1 =
      .error .lengthError ∧
    ¬ (∀ e : PLYElement, ∃ e1, e.addValueProperty (str "x") (str "int") = .ok e1 ∧
        e1.mProperties = e.mProperties ++ [.value .int32 { mValues := [] }]) ∧
    ¬ (∀ e : PLYElement, ∃ e1, e.addListProperty (str "x") (str "int") 1 = .ok e1 ∧
        e1.mProperties = e.mProperties ++ [.list .int32 { mValues := [], mListSizeByteSize := 1 }]) ∧
    load .little hugeCountValueFile = .error .lengthError := by
  have h1 : PLYElement.addValueProperty { mSize := 2 ^ 64 - 1 } (str "x") (str "int") =
      .error .lengthError := by decide!
  have h2 : PLYElement.addListProperty { mSize := 2 ^ 64 - 1 } (str "x") (str "int") 1 =
      .error .lengthError := by decide!
  refine ⟨by decide, by decide!, h1, h2, fun h => ?_, fun h => ?_, by decide!⟩
  · obtain ⟨e1, he, _⟩ := h { mSize := 2 ^ 64 - 1 }
    rw [h1] at he
    cases he
  · obtain ⟨e1, he, _⟩ := h { mSize := 2 ^ 64 - 1 }
    rw [h2] at he
    cases he

/-- C17 (amended): for each of the eight alias pairs and either token of the pair, on an
element whose size is within `max_size()` of the vector of the column, `addValueProperty`
appends one empty value column of the kind of the pair, maps the name to the index of that
column and makes `containsValueProperty<kind>(name)` true, and `addListProperty` does the
same with a list column; on an element of a larger size the constructor of the column throws
and nothing is returned.  For every token whatever the two type chains agree: either both
construct a column of one and the same kind, or neither appends a column. -/
theorem C17_alias_pairs (e : PLYElement) (name : Name) (w : Nat) :
    (∀ a b K, (a, b, K) ∈ aliasPairs → ∀ ty, ty = a ∨ ty = b →
      (e.size ≤ vectorMaxSize K.sizeof →
        ∃ e1, e.addValueProperty name ty = .ok e1 ∧
          e1.mProperties = e.mProperties ++ [.value K { mValues := [] }] ∧
          e1.mSize = e.mSize ∧
          Map.lookup e1.mPropertyIndices name = some e.mProperties.length ∧
          e1.containsValueProperty K name = .ok true) ∧
      (vectorMaxSize K.sizeof < e.size →
        e.addValueProperty name ty = .error .lengthError) ∧
      (e.size ≤ vectorMaxSize vectorSizeof →
        ∃ e1, e.addListProperty name ty w = .ok e1 ∧
          e1.mProperties =
            e.mProperties ++ [.list K { mValues := [], mListSizeByteSize := w }] ∧
          e1.mSize = e.mSize ∧
          Map.lookup e1.mPropertyIndices name = some e.mProperties.length ∧
          e1.containsListProperty K name = .ok true) ∧
      (vectorMaxSize vectorSizeof < e.size →
        e.addListProperty name ty w = .error .lengthError)) ∧
    aliasPairs.length = 8 ∧
    (∀ ty,
      (∃ K,
        e.addValueProperty name ty =
          (if e.mSize > vectorMaxSize K.sizeof then .error .lengthError
            else .ok (withValueProperty e name ty)) ∧
        (withValueProperty e name ty).mProperties =
          e.mProperties ++ [.value K { mValues := [] }] ∧
        e.addListProperty name ty w =
          (if e.mSize > vectorMaxSize vectorSizeof then .error .lengthError
            else .ok (withListProperty e name ty w)) ∧
        (withListProperty e name ty w).mProperties =
          e.mProperties ++ [.list K { mValues := [], mListSizeByteSize := w }]) ∨
      (∃ e1 e2, e.addValueProperty name ty = .ok e1 ∧ e1.mProperties = e.mProperties ∧
        e.addListProperty name ty w = .ok e2 ∧ e2.mProperties = e.mProperties)) := by
  refine ⟨?_, rfl, ?_⟩
  · intro a b K hmem ty hty
    have hk : scalarKindOf ty = some K := by
      rcases hty with rfl | rfl
      · exact (scalarKindOf_aliasPairs _ _ K hmem).1
      · exact (scalarKindOf_aliasPairs _ _ K hmem).2
    rw [addValueProperty_kind_eq e name ty K hk, addListProperty_kind_eq e name ty w K hk]
    simp only [PLYElement.size]
    refine ⟨fun hle => ?_, fun hgt => if_pos hgt, fun hle => ?_, fun hgt => if_pos hgt⟩
    · rw [if_neg (Nat.not_lt.mpr hle)]
      exact ⟨_, rfl, addValueProperty_of_kind e name ty K hk⟩
    · rw [if_neg (Nat.not_lt.mpr hle)]
      exact ⟨_, rfl, addListProperty_of_kind e name ty w K hk⟩
  · intro ty
    cases hk : scalarKindOf ty with
    | some K =>
      exact Or.inl ⟨K, addValueProperty_kind_eq e name ty K hk,
        (addValueProperty_of_kind e name ty K hk).1,
        addListProperty_kind_eq e name ty w K hk,
        (addListProperty_of_kind e name ty w K hk).1⟩
    | none =>
      refine Or.inr ⟨withValueProperty e name ty, withListProperty e name ty w, ?_, ?_, ?_, ?_⟩
      · rw [addValueProperty_eq]; simp [valueReserveThrows, hk]
      · simp [withValueProperty, valueColumns, hk]
      · rw [addListProperty_eq]; simp [listReserveThrows, hk]
      · simp [withListProperty, listColumns, hk]

/-! ## Comment lines -/

theorem linesText_cons (l : List Nat) (ls : List (List Nat)) (rest : List Nat) :
    linesText (l :: ls) ++ rest = l ++ 10 :: (linesText ls ++ rest) := by
  simp [linesText]

theorem linesText_append (ls ms : List (List Nat)) :
    linesText (ls ++ ms) = linesText ls ++ linesText ms := by
  simp [linesText]

/-- The header loop skips a comment line that is inserted after lines none of which is
`end_header`: the locals and the unread bytes at the end of the loop are the same. -/
theorem headerLoop_comment (c rest : List Nat) (hc10 : 10 ∉ c)
    (hc : starts_with c (str "comment") = true) (pre : List (List Nat)) :
    ∀ (st : HeaderState) (fuel1 fuel2 : Nat),
      (∀ l ∈ pre, 10 ∉ l ∧ l ≠ str "end_header") →
      (linesText (pre ++ [c]) ++ rest).length ≤ fuel1 →
      (linesText pre ++ rest).length ≤ fuel2 →
      headerLoop fuel1 st (linesText (pre ++ [c]) ++ rest) =
        headerLoop fuel2 st (linesText pre ++ rest) := by
  induction pre with
  | nil =>
    intro st fuel1 fuel2 _ h1 h2
    rw [List.nil_append, linesText_cons] at h1 ⊢
    have e0 : linesText [] ++ rest = rest := rfl
    rw [e0] at h1 h2 ⊢
    cases fuel1 with
    | zero => simp at h1
    | succ f =>
      simp only [headerLoop, getline_line c rest hc10, hc, if_true]
      simp only [List.length_append, List.length_cons] at h1
      exact headerLoop_fuel f fuel2 st rest (by omega) h2
  | cons l ls ih =>
    intro st fuel1 fuel2 hpre h1 h2
    obtain ⟨hl10, hlend⟩ := hpre l (List.mem_cons_self _ _)
    have hls : ∀ m ∈ ls, 10 ∉ m ∧ m ≠ str "end_header" :=
      fun m hm => hpre m (List.mem_cons_of_mem _ hm)
    rw [List.cons_append, linesText_cons] at h1 ⊢
    rw [linesText_cons] at h2 ⊢
    simp only [List.length_append, List.length_cons] at h1 h2
    cases fuel1 with
    | zero => omega
    | succ f =>
      cases fuel2 with
      | zero => omega
      | succ g =>
        simp only [headerLoop, getline_line l _ hl10, hlend, if_false]
        have e := fun st1 => ih st1 f g hls (by simp only [List.length_append]; omega)
          (by simp only [List.length_append]; omega)
        simp only [e]

/-- C19: for every file that starts with the line `ply` and every line that starts with
`comment`, the file with that line inserted after the `ply` line and any number of further
lines, none of them `end_header`, loads exactly as the file without it: the same failure or
the same document.  The header loop ends with the same locals and the same unread bytes,
so the body is decoded from the same position. -/
theorem C19_comment_line_is_skipped (native : Endian) (pre : List (List Nat))
    (c rest : List Nat) (hpre : ∀ l ∈ pre, 10 ∉ l ∧ l ≠ str "end_header")
    (hc10 : 10 ∉ c) (hc : starts_with c (str "comment") = true) :
    load native (plyFile (pre ++ [c]) rest) = load native (plyFile pre rest) ∧
    headerLoop (linesText (pre ++ [c]) ++ rest).length {} (linesText (pre ++ [c]) ++ rest) =
      headerLoop (linesText pre ++ rest).length {} (linesText pre ++ rest) := by
  have h := headerLoop_comment c rest hc10 hc pre {} _ _ hpre (Nat.le_refl _) (Nat.le_refl _)
  refine ⟨?_, h⟩
  unfold plyFile
  rw [load_eq_loadAfterMagic, load_eq_loadAfterMagic, getline_line _ _ (by decide),
    getline_line _ _ (by decide)]
  simp only [loadAfterMagic, h]

/-- Witness of C19: the comment line `comment made by hand` inserted before the property
line of a one-vertex ASCII file. -/
theorem C19_comment_line_is_skipped_witness :
    load .little (plyFile (commentPre ++ [str "comment made by hand"]) commentRest) =
      load .little (plyFile commentPre commentRest) ∧
    load .little (plyFile commentPre commentRest) =
      .ok (some { mElements :=
        [(str "vertex",
          { mSize := 1
            mProperties := [.value .float32 { mValues := [some floatOne] }]
            mPropertyIndices := [(str "x", 0)] })] }) :=
  ⟨(C19_comment_line_is_skipped .little commentPre (str "comment made by hand") commentRest
    (by decide) (by decide) (by decide)).1, by decide!⟩

/-! ## Rows added by the body loop -/

/-- A returning `load` of a column appends exactly one row. -/
theorem PLYProperty.load_rows (native : Endian) (p p1 : PLYProperty) (s s1 : IStream)
    (valueFormat : PLYValueFormat) (h : p.load native s valueFormat = .ok (p1, s1)) :
    p1.rows = p.rows + 1 := by
  cases p with
  | value T q =>
    simp only [PLYProperty.load, Except.ok.injEq, Prod.mk.injEq] at h
    obtain ⟨h1, _⟩ := h
    subst h1
    cases valueFormat <;> simp [PLYProperty.rows, PLYValueProperty.load]
  | list T q =>
    simp only [PLYProperty.load] at h
    cases hq : q.load T native s valueFormat with
    | error f => simp [hq] at h
    | ok r =>
      obtain ⟨q1, s2⟩ := r
      simp only [hq, Except.ok.injEq, Prod.mk.injEq] at h
      obtain ⟨h1, _⟩ := h
      subst h1
      obtain ⟨size, row, _, hv, _⟩ := PLYListProperty.load_ok T native q q1 s s2 valueFormat hq
      simp [PLYProperty.rows, hv]

/-- The columns after the pass of the property loop over one name. -/
theorem getElem?_putProperty (e : PLYElement) (name : Name) (p q : PLYProperty) (j : Nat)
    (hj : Map.lookup e.mPropertyIndices name = some j) (hq : e.mProperties[j]? = some q)
    (i : Nat) :
    (e.putProperty name p).mProperties[i]? = if i = j then some p else e.mProperties[i]? := by
  have hlt : j < e.mProperties.length := by
    by_contra hc
    rw [List.getElem?_eq_none (by omega)] at hq
    cases hq
  simp only [PLYElement.putProperty, hj, List.getElem?_set]
  by_cases hij : i = j
  · subst hij; simp [hlt]
  · have hji : ¬ j = i := fun e => hij e.symm
    simp [hij, hji]

theorem putProperty_mSize (e : PLYElement) (name : Name) (p : PLYProperty) :
    (e.putProperty name p).mSize = e.mSize := by
  unfold PLYElement.putProperty
  cases Map.lookup e.mPropertyIndices name <;> rfl

theorem putProperty_mPropertyIndices (e : PLYElement) (name : Name) (p : PLYProperty) :
    (e.putProperty name p).mPropertyIndices = e.mPropertyIndices := by
  unfold PLYElement.putProperty
  cases Map.lookup e.mPropertyIndices name <;> rfl

theorem putProperty_length (e : PLYElement) (name : Name) (p : PLYProperty) :
    (e.putProperty name p).mProperties.length = e.mProperties.length := by
  unfold PLYElement.putProperty
  cases Map.lookup e.mPropertyIndices name <;> simp

/-- The property loop leaves the size, the index map and the number of columns of the
element as they are. -/
theorem loadRow_frame (native : Endian) (valueFormat : PLYValueFormat) (names : List Name) :
    ∀ (e e1 : PLYElement) (s s1 : IStream),
      loadRow native valueFormat names e s = .ok (e1, s1) →
      e1.mSize = e.mSize ∧ e1.mPropertyIndices = e.mPropertyIndices ∧
      e1.mProperties.length = e.mProperties.length := by
  induction names with
  | nil =>
    intro e e1 s s1 h
    simp only [loadRow, Except.ok.injEq, Prod.mk.injEq] at h
    obtain ⟨h1, _⟩ := h
    subst h1
    exact ⟨rfl, rfl, rfl⟩
  | cons n names ih =>
    intro e e1 s s1 h
    simp only [loadRow] at h
    cases hp : e.getProperty n with
    | error f => simp [hp] at h
    | ok p =>
      simp only [hp] at h
      cases hl : p.load native s valueFormat with
      | error f => simp [hl] at h
      | ok r =>
        simp only [hl] at h
        obtain ⟨h1, h2, h3⟩ := ih _ _ _ _ h
        exact ⟨h1.trans (putProperty_mSize _ _ _),
          h2.trans (putProperty_mPropertyIndices _ _ _),
          h3.trans (putProperty_length _ _ _)⟩

/-- What `getProperty` returns is the column at the index stored under the name. -/
theorem getProperty_ok (e : PLYElement) (name : Name) (p : PLYProperty)
    (h : e.getProperty name = .ok p) :
    ∃ j, Map.lookup e.mPropertyIndices name = some j ∧ e.mProperties[j]? = some p := by
  unfold PLYElement.getProperty at h
  cases hl : Map.lookup e.mPropertyIndices name with
  | none => simp [hl] at h
  | some j =>
    simp only [hl] at h
    cases hp : e.mProperties[j]? with
    | none => simp [hp] at h
    | some q =>
      simp only [hp, Except.ok.injEq] at h
      exact ⟨j, rfl, by rw [hp, h]⟩

/-- The property loop over names that are mapped to the consecutive indices `j`, `j + 1`,
... adds one row to the columns at these indices and leaves the other columns as they
are. -/
theorem loadRow_rows (native : Endian) (valueFormat : PLYValueFormat) (names : List Name) :
    ∀ (j : Nat) (e e1 : PLYElement) (s s1 : IStream),
      (∀ i n, names[i]? = some n → Map.lookup e.mPropertyIndices n = some (j + i)) →
      loadRow native valueFormat names e s = .ok (e1, s1) →
      ∀ i, (e1.mProperties[i]?).map PLYProperty.rows =
        (e.mProperties[i]?).map
          (fun c => c.rows + if j ≤ i ∧ i < j + names.length then 1 else 0) := by
  induction names with
  | nil =>
    intro j e e1 s s1 _ h i
    simp only [loadRow, Except.ok.injEq, Prod.mk.injEq] at h
    obtain ⟨h1, _⟩ := h
    subst h1
    have e0 : ¬ (j ≤ i ∧ i < j + ([] : List Name).length) := by
      simp only [List.length_nil]; omega
    simp only [e0, if_false, Nat.add_zero]
  | cons n names ih =>
    intro j e e1 s s1 hidx h i
    simp only [loadRow] at h
    cases hp : e.getProperty n with
    | error f => simp [hp] at h
    | ok p =>
      simp only [hp] at h
      cases hl : p.load native s valueFormat with
      | error f => simp [hl] at h
      | ok r =>
        obtain ⟨p1, s2⟩ := r
        simp only [hl] at h
        obtain ⟨j0, hj0, hpj⟩ := getProperty_ok e n p hp
        have hj : Map.lookup e.mPropertyIndices n = some j := by
          simpa using hidx 0 n (by simp)
        rw [hj] at hj0
        cases hj0
        have hrows := PLYProperty.load_rows native p p1 s s2 valueFormat hl
        have hidx1 : ∀ i m, names[i]? = some m →
            Map.lookup (e.putProperty n p1).mPropertyIndices m = some (j + 1 + i) := by
          intro i m hm
          rw [putProperty_mPropertyIndices]
          have := hidx (i + 1) m (by simpa using hm)
          rw [this]; congr 1; omega
        have hih := ih (j + 1) _ _ _ _ hidx1 h i
        rw [hih, getElem?_putProperty e n p1 p j hj hpj i]
        by_cases hij : i = j
        · subst hij
          have c1 : ¬ (i + 1 ≤ i ∧ i < i + 1 + names.length) := by omega
          have c2 : i ≤ i ∧ i < i + (n :: names).length := by
            simp only [List.length_cons]; omega
          simp [c1, c2, hpj, hrows]
        · simp only [hij, if_false]
          have c : (j + 1 ≤ i ∧ i < j + 1 + names.length) ↔
              (j ≤ i ∧ i < j + (n :: names).length) := by
            simp only [List.length_cons]; omega
          simp only [c]
/-- One pass of the property loop over all the names of a filled element adds one row to
every column. -/
theorem loadRow_filled (native : Endian) (valueFormat : PLYValueFormat) (ps : List Name)
    (r : Nat) (e e1 : PLYElement) (s s1 : IStream) (hf : ColumnsFilled e ps r)
    (h : loadRow native valueFormat ps e s = .ok (e1, s1)) :
    ColumnsFilled e1 ps (r + 1) ∧ e1.mSize = e.mSize := by
  obtain ⟨hlen, hidx, hrows⟩ := hf
  obtain ⟨f1, f2, f3⟩ := loadRow_frame native valueFormat ps e e1 s s1 h
  have hr := loadRow_rows native valueFormat ps 0 e e1 s s1
    (fun i n hn => by rw [hidx i n hn, Nat.zero_add]) h
  refine ⟨⟨f3.trans hlen, fun i n hn => by rw [f2]; exact hidx i n hn, ?_⟩, f1⟩
  intro c hc
  obtain ⟨i, hi, hci⟩ := List.getElem_of_mem hc
  have hi0 : i < e.mProperties.length := by omega
  have h1 := hr i
  rw [List.getElem?_eq_getElem hi, List.getElem?_eq_getElem hi0] at h1
  have c1 : 0 ≤ i ∧ i < 0 + ps.length := by omega
  simp only [Option.map_some', c1, and_self, if_true, Option.some.injEq] at h1
  rw [← hci, h1, hrows _ (List.getElem_mem hi0)]

/-- The ASCII row loop keeps the size of the element. -/
theorem asciiRows_mSize (native : Endian) (ps : List Name) (n : Nat) :
    ∀ (e e1 : PLYElement) (fin rest : List Nat),
      asciiRows native ps n e fin = .ok (some (e1, rest)) → e1.mSize = e.mSize := by
  induction n with
  | zero =>
    intro e e1 fin rest h
    simp only [asciiRows, Except.ok.injEq, Option.some.injEq, Prod.mk.injEq] at h
    rw [← h.1]
  | succ n ih =>
    intro e e1 fin rest h
    simp only [asciiRows] at h
    cases hg : getline fin with
    | none => simp [hg] at h
    | some lr =>
      obtain ⟨line, rest0⟩ := lr
      simp only [hg] at h
      cases hl : loadRow native .ASCII ps e { buf := line, failed := false } with
      | error f => simp [hl] at h
      | ok r =>
        obtain ⟨e2, s2⟩ := r
        simp only [hl] at h
        exact (ih _ _ _ _ h).trans (loadRow_frame native .ASCII ps e e2 _ s2 hl).1

/-- The binary row loop keeps the size of the element. -/
theorem binaryRows_mSize (native : Endian) (valueFormat : PLYValueFormat) (ps : List Name)
    (n : Nat) :
    ∀ (e e1 : PLYElement) (fin fin1 : IStream),
      binaryRows native valueFormat ps n e fin = .ok (e1, fin1) → e1.mSize = e.mSize := by
  induction n with
  | zero =>
    intro e e1 fin fin1 h
    simp only [binaryRows, Except.ok.injEq, Prod.mk.injEq] at h
    rw [← h.1]
  | succ n ih =>
    intro e e1 fin fin1 h
    simp only [binaryRows] at h
    cases hl : loadRow native valueFormat ps e fin with
    | error f => simp [hl] at h
    | ok r =>
      obtain ⟨e2, s2⟩ := r
      simp only [hl] at h
      exact (ih _ _ _ _ h).trans (loadRow_frame native valueFormat ps e e2 _ s2 hl).1

/-- The ASCII row loop of `n` rows over a filled element adds `n` rows to every column. -/
theorem asciiRows_filled (native : Endian) (ps : List Name) (n : Nat) :
    ∀ (r : Nat) (e e1 : PLYElement) (fin rest : List Nat),
      ColumnsFilled e ps r → asciiRows native ps n e fin = .ok (some (e1, rest)) →
      ColumnsFilled e1 ps (r + n) := by
  induction n with
  | zero =>
    intro r e e1 fin rest hf h
    simp only [asciiRows, Except.ok.injEq, Option.some.injEq, Prod.mk.injEq] at h
    rw [← h.1]
    exact hf
  | succ n ih =>
    intro r e e1 fin rest hf h
    simp only [asciiRows] at h
    cases hg : getline fin with
    | none => simp [hg] at h
    | some lr =>
      obtain ⟨line, rest0⟩ := lr
      simp only [hg] at h
      cases hl : loadRow native .ASCII ps e { buf := line, failed := false } with
      | error f => simp [hl] at h
      | ok q =>
        obtain ⟨e2, s2⟩ := q
        simp only [hl] at h
        have h2 := ih (r + 1) _ _ _ _ (loadRow_filled native .ASCII ps r e e2 _ s2 hf hl).1 h
        have e0 : r + (n + 1) = r + 1 + n := by omega
        rw [e0]
        exact h2

/-- The binary row loop of `n` rows over a filled element adds `n` rows to every column. -/
theorem binaryRows_filled (native : Endian) (valueFormat : PLYValueFormat) (ps : List Name)
    (n : Nat) :
    ∀ (r : Nat) (e e1 : PLYElement) (fin fin1 : IStream),
      ColumnsFilled e ps r → binaryRows native valueFormat ps n e fin = .ok (e1, fin1) →
      ColumnsFilled e1 ps (r + n) := by
  induction n with
  | zero =>
    intro r e e1 fin fin1 hf h
    simp only [binaryRows, Except.ok.injEq, Prod.mk.injEq] at h
    rw [← h.1]
    exact hf
  | succ n ih =>
    intro r e e1 fin fin1 hf h
    simp only [binaryRows] at h
    cases hl : loadRow native valueFormat ps e fin with
    | error f => simp [hl] at h
    | ok q =>
      obtain ⟨e2, s2⟩ := q
      simp only [hl] at h
      have h2 := ih (r + 1) _ _ _ _ (loadRow_filled native valueFormat ps r e e2 _ s2 hf hl).1 h
      have e0 : r + (n + 1) = r + 1 + n := by omega
      rw [e0]
      exact h2
/-! ## The body loop -/

theorem getElement_fst (p : PLYPolygon) (n : Name) :
    (p.getElement n).1 = (Map.lookup p.mElements n).getD {} := by
  unfold PLYPolygon.getElement
  cases Map.lookup p.mElements n <;> rfl

/-- The elements after the assignment through the reference that `getElement(n)` returned. -/
theorem lookup_putElement_getElement (p : PLYPolygon) (n k : Name) (e : PLYElement) :
    Map.lookup ((p.getElement n).2.putElement n e).mElements k =
      if k = n then some e else Map.lookup p.mElements k := by
  unfold PLYPolygon.getElement PLYPolygon.putElement
  by_cases hk : k = n
  · subst hk
    cases Map.lookup p.mElements k <;> simp [Map.lookup_assign_self]
  · cases Map.lookup p.mElements n <;> simp [hk, Map.lookup_assign_of_ne _ _ _ _ hk]

/-- One pass of the body loop that does not stop `load`: the element named is decoded by
its row loop, which keeps its size and adds `size()` rows to every column of a filled
element, and the loop goes on with the decoded element stored under the name. -/
theorem bodyLoop_pass (native : Endian) (valueFormat : PLYValueFormat)
    (pn : Map (List Name)) (n : Name) (names : List Name) (polygon doc : PLYPolygon)
    (fin s : IStream)
    (h : bodyLoop native valueFormat pn (n :: names) polygon fin = .ok (some (doc, s))) :
    ∃ (e1 : PLYElement) (fin1 : IStream),
      bodyLoop native valueFormat pn names ((polygon.getElement n).2.putElement n e1) fin1 =
        .ok (some (doc, s)) ∧
      e1.mSize = (polygon.getElement n).1.mSize ∧
      ∀ r, ColumnsFilled (polygon.getElement n).1 ((Map.lookup pn n).getD []) r →
        ColumnsFilled e1 ((Map.lookup pn n).getD []) (r + (polygon.getElement n).1.size) := by
  cases valueFormat with
  | ASCII =>
    simp only [bodyLoop] at h
    cases ha : asciiRows native ((Map.lookup pn n).getD []) (polygon.getElement n).1.size
        (polygon.getElement n).1 fin.buf with
    | error f => simp [ha] at h
    | ok o =>
      cases o with
      | none => simp [ha] at h
      | some q =>
        obtain ⟨e1, rest⟩ := q
        simp only [ha] at h
        exact ⟨e1, _, h, asciiRows_mSize native _ _ _ _ _ _ ha,
          fun r hf => asciiRows_filled native _ _ r _ _ _ _ hf ha⟩
  | BinaryLittleEndian =>
    simp only [bodyLoop] at h
    cases hb : binaryRows native .BinaryLittleEndian ((Map.lookup pn n).getD [])
        (polygon.getElement n).1.size (polygon.getElement n).1 fin with
    | error f => simp [hb] at h
    | ok q =>
      obtain ⟨e1, fin1⟩ := q
      simp only [hb] at h
      exact ⟨e1, _, h, binaryRows_mSize native _ _ _ _ _ _ _ hb,
        fun r hf => binaryRows_filled native _ _ _ r _ _ _ _ hf hb⟩
  | BinaryBigEndian =>
    simp only [bodyLoop] at h
    cases hb : binaryRows native .BinaryBigEndian ((Map.lookup pn n).getD [])
        (polygon.getElement n).1.size (polygon.getElement n).1 fin with
    | error f => simp [hb] at h
    | ok q =>
      obtain ⟨e1, fin1⟩ := q
      simp only [hb] at h
      exact ⟨e1, _, h, binaryRows_mSize native _ _ _ _ _ _ _ hb,
        fun r hf => binaryRows_filled native _ _ _ r _ _ _ _ hf hb⟩

/-- The body loop over pairwise distinct names, started with every named element filled to
no row and every other element filled to its size, ends with every element filled to its
size. -/
theorem bodyLoop_rows (native : Endian) (valueFormat : PLYValueFormat)
    (pn : Map (List Name)) (names : List Name) :
    ∀ (polygon doc : PLYPolygon) (fin s : IStream),
      names.Nodup →
      (∀ n ∈ names,
        ColumnsFilled ((Map.lookup polygon.mElements n).getD {}) ((Map.lookup pn n).getD []) 0) →
      (∀ n e, n ∉ names → Map.lookup polygon.mElements n = some e →
        ∀ c ∈ e.mProperties, c.rows = e.size) →
      bodyLoop native valueFormat pn names polygon fin = .ok (some (doc, s)) →
      ∀ n e, Map.lookup doc.mElements n = some e → ∀ c ∈ e.mProperties, c.rows = e.size := by
  induction names with
  | nil =>
    intro polygon doc fin s _ _ hdone h n e hn
    simp only [bodyLoop, Except.ok.injEq, Option.some.injEq, Prod.mk.injEq] at h
    rw [← h.1] at hn
    exact hdone n e (List.not_mem_nil n) hn
  | cons m names ih =>
    intro polygon doc fin s hnd htodo hdone h
    obtain ⟨e1, fin1, hrest, hsize, hfill⟩ :=
      bodyLoop_pass native valueFormat pn m names polygon doc fin s h
    have hm : m ∉ names := (List.nodup_cons.mp hnd).1
    have hf1 := hfill 0 (by rw [getElement_fst]; exact htodo m (List.mem_cons_self _ _))
    refine ih _ doc fin1 s (List.nodup_cons.mp hnd).2 ?_ ?_ hrest
    · intro k hk
      have hkm : k ≠ m := fun e => hm (e ▸ hk)
      rw [lookup_putElement_getElement, if_neg hkm]
      exact htodo k (List.mem_cons_of_mem _ hk)
    · intro k e hk hl
      rw [lookup_putElement_getElement] at hl
      by_cases hkm : k = m
      · rw [if_pos hkm] at hl
        cases hl
        intro c hc
        rw [hf1.2.2 c hc, Nat.zero_add, PLYElement.size, PLYElement.size, hsize]
      · rw [if_neg hkm] at hl
        exact hdone k e (by simp [hkm, hk]) hl
/-! ## The header loop, whatever the lines -/

/-- The shapes of the locals after a pass of the header loop that does not stop `load`: a
property of the type token of the line was added to the element named last, or an element
was added, or the names, the property names and the document are as before. -/
theorem headerLine_cases (st st1 : HeaderState) (tokens : List Name)
    (h : headerLine st tokens = .ok (some st1)) :
    (∃ en name ty, propertyType tokens = some ty ∧
      st.elementNames.getLast? = some en ∧
      st1.elementNames = st.elementNames ∧
      st1.propertyNamesPerElement = Map.assign st.propertyNamesPerElement en
        ((Map.lookup st.propertyNamesPerElement en).getD [] ++ [name]) ∧
      ((∃ w, st1.polygon = (st.polygon.getElement en).2.putElement en
          (withListProperty (st.polygon.getElement en).1 name ty w)) ∨
        st1.polygon = (st.polygon.getElement en).2.putElement en
          (withValueProperty (st.polygon.getElement en).1 name ty))) ∨
    (∃ name size, st1.elementNames = st.elementNames ++ [name] ∧
      st1.propertyNamesPerElement = st.propertyNamesPerElement ∧
      st1.polygon = st.polygon.addElement name size) ∨
    (st1.elementNames = st.elementNames ∧
      st1.propertyNamesPerElement = st.propertyNamesPerElement ∧
      st1.polygon = st.polygon) := by
  cases tokens with
  | nil => cases h
  | cons t0 ts =>
    by_cases hp : t0 = str "property"
    · subst hp
      cases hb : st.elementNames.getLast? with
      | none => simp [headerLine, index, back, hb, bind, Except.bind] at h
      | some en =>
        left
        cases ts with
        | nil =>
          simp [headerLine, index, back_eq_ok _ _ hb, bind, Except.bind] at h
        | cons t1 ts1 =>
          by_cases hl : t1 = str "list"
          · subst hl
            cases ts1 with
            | nil => simp [headerLine, index, back_eq_ok _ _ hb, bind, Except.bind] at h
            | cons t2 ts2 =>
              cases hw : listSizeByteSize t2 with
              | none =>
                simp [headerLine, index, back_eq_ok _ _ hb, bind, Except.bind, hw, pure,
                  Except.pure] at h
              | some w =>
                cases ts2 with
                | nil =>
                  simp [headerLine, index, back_eq_ok _ _ hb, bind, Except.bind, hw] at h
                | cons t3 ts3 =>
                  cases ts3 with
                  | nil =>
                    simp [headerLine, index, back_eq_ok _ _ hb, bind, Except.bind, hw] at h
                  | cons t4 ts4 =>
                    simp only [headerLine, index, back_eq_ok _ _ hb, bind, Except.bind, hw,
                      pure, Except.pure, List.getElem?_cons_zero, List.getElem?_cons_succ,
                      if_true] at h
                    cases ha : (st.polygon.getElement en).1.addListProperty t4 t3 w with
                    | error f => simp [ha] at h
                    | ok e1 =>
                      simp only [ha, Except.ok.injEq, Option.some.injEq] at h
                      subst h
                      have he := addListProperty_ok _ _ _ _ _ ha
                      subst he
                      exact ⟨en, t4, t3, by simp [propertyType], rfl, rfl, rfl,
                        Or.inl ⟨w, rfl⟩⟩
          · cases ts1 with
            | nil => simp [headerLine, index, back_eq_ok _ _ hb, bind, Except.bind, hl] at h
            | cons t2 ts2 =>
              simp only [headerLine, index, back_eq_ok _ _ hb, bind, Except.bind, hl,
                pure, Except.pure, List.getElem?_cons_zero, List.getElem?_cons_succ,
                if_true, if_false] at h
              cases ha : (st.polygon.getElement en).1.addValueProperty t2 t1 with
              | error f => simp [ha] at h
              | ok e1 =>
                simp only [ha, Except.ok.injEq, Option.some.injEq] at h
                subst h
                have he := addValueProperty_ok _ _ _ _ ha
                subst he
                exact ⟨en, t2, t1, by simp [propertyType, hl], rfl, rfl, rfl, Or.inr rfl⟩
    · right
      by_cases he : t0 = str "element"
      · subst he
        left
        cases ts with
        | nil => simp [headerLine, index, bind, Except.bind, hp] at h
        | cons t1 ts1 =>
          cases ts1 with
          | nil => simp [headerLine, index, bind, Except.bind, hp] at h
          | cons t2 ts2 =>
            cases hs : elementSize t2 with
            | error f => simp [headerLine, index, bind, Except.bind, hp, hs] at h
            | ok size =>
              simp only [headerLine, index, bind, Except.bind, hp, hs,
                pure, Except.pure, List.getElem?_cons_zero, List.getElem?_cons_succ,
                if_true, if_false, Except.ok.injEq, Option.some.injEq] at h
              subst h
              exact ⟨t1, size, rfl, rfl, rfl⟩
      · right
        by_cases hf : t0 = str "format"
        · subst hf
          cases ts with
          | nil => simp [headerLine, index, bind, Except.bind, hp, he] at h
          | cons t1 ts1 =>
            have hfp : str "format" ≠ str "property" := by decide
            have hfe : str "format" ≠ str "element" := by decide
            by_cases h1 : t1 = str "ascii"
            · simp only [headerLine, index, bind, Except.bind, hfp, hfe, h1,
                pure, Except.pure, List.getElem?_cons_zero, List.getElem?_cons_succ,
                if_true, if_false, Except.ok.injEq, Option.some.injEq] at h
              subst h
              exact ⟨rfl, rfl, rfl⟩
            · by_cases h2 : t1 = str "binary_little_endian"
              · subst h2
                simp only [headerLine, index, bind, Except.bind, hfp, hfe, h1,
                  pure, Except.pure, List.getElem?_cons_zero, List.getElem?_cons_succ,
                  if_true, if_false, Except.ok.injEq, Option.some.injEq] at h
                subst h
                exact ⟨rfl, rfl, rfl⟩
              · by_cases h3 : t1 = str "binary_big_endian"
                · subst h3
                  simp only [headerLine, index, bind, Except.bind, hfp, hfe, h1, h2,
                    pure, Except.pure, List.getElem?_cons_zero, List.getElem?_cons_succ,
                    if_true, if_false, Except.ok.injEq, Option.some.injEq] at h
                  subst h
                  exact ⟨rfl, rfl, rfl⟩
                · simp only [headerLine, index, bind, Except.bind, hfp, hfe, h1, h2, h3,
                    pure, Except.pure, List.getElem?_cons_zero, List.getElem?_cons_succ,
                    if_true, if_false, Except.ok.injEq, Option.some.injEq] at h
                  subst h
                  exact ⟨rfl, rfl, rfl⟩
        · simp only [headerLine, index, bind, Except.bind, hp, he, hf,
            pure, Except.pure, List.getElem?_cons_zero,
            if_true, if_false, Except.ok.injEq, Option.some.injEq] at h
          subst h
          exact ⟨rfl, rfl, rfl⟩
/-- An element with no column is as declared by any property names. -/
theorem columnsDeclared_nil (size : Nat) (idx : Map Nat) (ps : List Name) :
    ColumnsDeclared { mSize := size, mProperties := [], mPropertyIndices := idx } ps :=
  ⟨Nat.zero_le _, fun _ hc => absurd hc (List.not_mem_nil _),
    fun h _ i n hn => by
      have h0 : ps = [] := List.length_eq_zero.mp h.symm
      subst h0
      simp at hn⟩

/-- The step of a `property` line: the name is appended to the property names, at most one
empty column is appended to the columns, and the name is mapped to the last index. -/
theorem columnsDeclared_append (e : PLYElement) (ps : List Name) (name : Name)
    (cols : List PLYProperty)
    (hcols : cols = e.mProperties ∨ ∃ c, c.rows = 0 ∧ cols = e.mProperties ++ [c])
    (h : ColumnsDeclared e ps) :
    ColumnsDeclared
      { mSize := e.mSize
        mProperties := cols
        mPropertyIndices :=
          Map.assign e.mPropertyIndices name
            (if cols.length = 0 then sizeMod - 1 else cols.length - 1) }
      (ps ++ [name]) := by
  obtain ⟨hle, hrows, hidx⟩ := h
  rcases hcols with rfl | ⟨c, hc, rfl⟩
  · refine ⟨?_, hrows, ?_⟩
    · simp only [List.length_append, List.length_singleton]; omega
    · intro hlen
      simp only [List.length_append, List.length_singleton] at hlen
      omega
  · refine ⟨?_, ?_, ?_⟩
    · simp only [List.length_append, List.length_singleton]; omega
    · intro d hd
      rcases List.mem_append.mp hd with hd | hd
      · exact hrows d hd
      · rw [List.mem_singleton.mp hd]; exact hc
    · intro hlen hnd i n hn
      simp only [List.length_append, List.length_singleton] at hlen
      have hlen0 : e.mProperties.length = ps.length := by omega
      have hnd0 : ps.Nodup := (List.nodup_append.mp hnd).1
      have hname : name ∉ ps := fun hm =>
        (List.nodup_append.mp hnd).2.2 hm (List.mem_singleton_self _)
      have hne : ¬ (e.mProperties ++ [c]).length = 0 := by simp
      simp only [hne, if_false, List.length_append, List.length_singleton,
        Nat.add_sub_cancel]
      by_cases hi : i < ps.length
      · rw [List.getElem?_append_left hi] at hn
        have hmem : n ∈ ps := List.getElem?_mem hn
        have hnn : n ≠ name := fun e0 => hname (e0 ▸ hmem)
        rw [Map.lookup_assign_of_ne _ _ _ _ hnn]
        exact hidx hlen0 hnd0 i n hn
      · rw [List.getElem?_append_right (by omega)] at hn
        have hi0 : i = ps.length := by
          by_contra hc0
          rw [List.getElem?_eq_none (by simp only [List.length_singleton]; omega)] at hn
          cases hn
        subst hi0
        simp only [Nat.sub_self, List.getElem?_cons_zero, Option.some.injEq] at hn
        subst hn
        rw [Map.lookup_assign_self, hlen0]
        simp
theorem columnsDeclared_addValueProperty (e : PLYElement) (ps : List Name) (name ty : Name)
    (h : ColumnsDeclared e ps) :
    ColumnsDeclared (withValueProperty e name ty) (ps ++ [name]) := by
  unfold withValueProperty
  refine columnsDeclared_append e ps name _ ?_ h
  unfold valueColumns
  cases scalarKindOf ty with
  | none => exact Or.inl rfl
  | some K => exact Or.inr ⟨_, by simp [PLYProperty.rows], rfl⟩

theorem columnsDeclared_addListProperty (e : PLYElement) (ps : List Name) (name ty : Name)
    (w : Nat) (h : ColumnsDeclared e ps) :
    ColumnsDeclared (withListProperty e name ty w) (ps ++ [name]) := by
  unfold withListProperty
  refine columnsDeclared_append e ps name _ ?_ h
  unfold listColumns
  cases scalarKindOf ty with
  | none => exact Or.inl rfl
  | some K => exact Or.inr ⟨_, by simp [PLYProperty.rows], rfl⟩

/-- The elements after `addElement`. -/
theorem lookup_addElement (p : PLYPolygon) (name k : Name) (size : Nat) :
    Map.lookup (p.addElement name size).mElements k =
      if k = name ∧ Map.lookup p.mElements name = none then some { mSize := size }
      else Map.lookup p.mElements k := by
  unfold PLYPolygon.addElement Map.emplace Map.contains
  cases hl : Map.lookup p.mElements name with
  | some e => simp
  | none =>
    by_cases hk : k = name
    · subst hk; simp [Map.lookup_assign_self]
    · simp [hk, Map.lookup_assign_of_ne _ _ _ _ hk]

/-- A pass of the header loop keeps the invariant of the declarations. -/
theorem headerLine_declared (st st1 : HeaderState) (tokens : List Name)
    (hinv : DeclaredInv st) (h : headerLine st tokens = .ok (some st1)) : DeclaredInv st1 := by
  obtain ⟨hcols, hkeys, hnames⟩ := hinv
  rcases headerLine_cases st st1 tokens h with
    ⟨en, name, ty, _, hen, h1, h2, h3⟩ | ⟨name, size, h1, h2, h3⟩ | ⟨h1, h2, h3⟩
  · have hmem : en ∈ st.elementNames := List.mem_of_getLast?_eq_some hen
    have hstep : ∃ e1, st1.polygon = (st.polygon.getElement en).2.putElement en e1 ∧
        ColumnsDeclared e1 ((Map.lookup st.propertyNamesPerElement en).getD [] ++ [name]) := by
      rcases h3 with ⟨w, h3⟩ | h3
      · exact ⟨_, h3, columnsDeclared_addListProperty _ _ name ty w
          (by rw [getElement_fst]; exact hcols en)⟩
      · exact ⟨_, h3, columnsDeclared_addValueProperty _ _ name ty
          (by rw [getElement_fst]; exact hcols en)⟩
    obtain ⟨e1, hp, hd⟩ := hstep
    refine ⟨?_, ?_, ?_⟩
    · intro n
      rw [hp, h2, lookup_putElement_getElement]
      by_cases hn : n = en
      · subst hn
        simp only [if_true, Map.lookup_assign_self, Option.getD_some]
        exact hd
      · rw [if_neg hn, Map.lookup_assign_of_ne _ _ _ _ hn]
        exact hcols n
    · intro n e hl
      rw [hp, lookup_putElement_getElement] at hl
      rw [h1]
      by_cases hn : n = en
      · rw [hn]; exact hmem
      · rw [if_neg hn] at hl
        exact hkeys n e hl
    · intro n hn
      rw [h1] at hn
      unfold Map.contains
      rw [hp, lookup_putElement_getElement]
      split
      · rfl
      · exact hnames n hn
  · refine ⟨?_, ?_, ?_⟩
    · intro n
      rw [h3, h2, lookup_addElement]
      split
      · exact columnsDeclared_nil size [] _
      · exact hcols n
    · intro n e hl
      rw [h3, lookup_addElement] at hl
      rw [h1]
      split at hl
      · next hc => rw [hc.1]; simp
      · exact List.mem_append_left _ (hkeys n e hl)
    · intro n hn
      rw [h1] at hn
      unfold Map.contains
      rw [h3, lookup_addElement]
      split
      · rfl
      · next hc =>
        rcases List.mem_append.mp hn with hn | hn
        · exact hnames n hn
        · rw [List.mem_singleton] at hn
          cases hl : Map.lookup st.polygon.mElements name with
          | none => exact absurd ⟨hn, hl⟩ hc
          | some e => rw [hn, hl]; rfl
  · refine ⟨?_, ?_, ?_⟩
    · intro n
      rw [h3, h2]
      exact hcols n
    · intro n e hl
      rw [h3] at hl
      rw [h1]
      exact hkeys n e hl
    · intro n hn
      rw [h1] at hn
      rw [h3]
      exact hnames n hn

/-- The invariant of the declarations holds of the locals when the header loop is left. -/
theorem headerLoop_declared (fuel : Nat) :
    ∀ (st st1 : HeaderState) (fin rest : List Nat),
      DeclaredInv st → headerLoop fuel st fin = .ok (some (st1, rest)) → DeclaredInv st1 := by
  induction fuel with
  | zero =>
    intro st st1 fin rest hinv h
    simp only [headerLoop, Except.ok.injEq, Option.some.injEq, Prod.mk.injEq] at h
    rw [← h.1]
    exact hinv
  | succ f ih =>
    intro st st1 fin rest hinv h
    simp only [headerLoop] at h
    cases hg : getline fin with
    | none =>
      simp only [hg, Except.ok.injEq, Option.some.injEq, Prod.mk.injEq] at h
      rw [← h.1]
      exact hinv
    | some lr =>
      obtain ⟨line, rest0⟩ := lr
      simp only [hg] at h
      split at h
      · exact ih _ _ _ _ hinv h
      · split at h
        · simp only [Except.ok.injEq, Option.some.injEq, Prod.mk.injEq] at h
          rw [← h.1]
          exact hinv
        · cases hl : headerLine st (split line) with
          | error e => simp [hl] at h
          | ok o =>
            cases o with
            | none => simp [hl] at h
            | some st2 =>
              simp only [hl] at h
              exact ih _ _ _ _ (headerLine_declared st st2 _ hinv hl) h

/-- The invariant of the declarations holds of the initial locals. -/
theorem declaredInv_init : DeclaredInv {} :=
  ⟨fun _ => columnsDeclared_nil 0 [] _, fun _ _ h => Option.noConfusion h,
    fun _ h => absurd h (List.not_mem_nil _)⟩

/-! ## Property lines with a type token of the alias table -/

/-- A pass of the header loop over a line whose type token, if it is a property line, is in
the alias table keeps the number of columns equal to the number of property names. -/
theorem headerLine_counted (st st1 : HeaderState) (tokens : List Name)
    (hinv : ColumnsCounted st) (h : headerLine st tokens = .ok (some st1))
    (hty : ∀ ty, propertyType tokens = some ty → (scalarKindOf ty).isSome = true) :
    ColumnsCounted st1 := by
  rcases headerLine_cases st st1 tokens h with
    ⟨en, name, ty, hpt, _, _, h2, h3⟩ | ⟨name, size, _, h2, h3⟩ | ⟨_, h2, h3⟩
  · obtain ⟨K, hK⟩ := Option.isSome_iff_exists.mp (hty ty hpt)
    have hstep : ∃ e1, st1.polygon = (st.polygon.getElement en).2.putElement en e1 ∧
        e1.mProperties.length = (st.polygon.getElement en).1.mProperties.length + 1 := by
      rcases h3 with ⟨w, h3⟩ | h3
      · exact ⟨_, h3, by rw [(addListProperty_of_kind _ name ty w K hK).1]; simp⟩
      · exact ⟨_, h3, by rw [(addValueProperty_of_kind _ name ty K hK).1]; simp⟩
    obtain ⟨e1, hp, hlen⟩ := hstep
    intro n
    rw [hp, h2, lookup_putElement_getElement]
    by_cases hn : n = en
    · subst hn
      simp only [if_true, Map.lookup_assign_self, Option.getD_some, List.length_append,
        List.length_singleton]
      rw [hlen, getElement_fst, hinv n]
    · rw [if_neg hn, Map.lookup_assign_of_ne _ _ _ _ hn]
      exact hinv n
  · intro n
    rw [h3, h2, lookup_addElement]
    split
    · next hc =>
      have := hinv n
      rw [hc.1, hc.2] at this
      rw [hc.1]
      exact this
    · exact hinv n
  · intro n
    rw [h3, h2]
    exact hinv n

/-- The header loop over lines whose property lines have type tokens of the alias table
ends with as many columns as property names for every element. -/
theorem headerLoop_counted (fuel : Nat) :
    ∀ (st st1 : HeaderState) (fin rest : List Nat),
      ColumnsCounted st → propertyTypesKnown fuel fin = true →
      headerLoop fuel st fin = .ok (some (st1, rest)) → ColumnsCounted st1 := by
  induction fuel with
  | zero =>
    intro st st1 fin rest hinv _ h
    simp only [headerLoop, Except.ok.injEq, Option.some.injEq, Prod.mk.injEq] at h
    rw [← h.1]
    exact hinv
  | succ f ih =>
    intro st st1 fin rest hinv hk h
    simp only [headerLoop] at h
    simp only [propertyTypesKnown] at hk
    cases hg : getline fin with
    | none =>
      simp only [hg, Except.ok.injEq, Option.some.injEq, Prod.mk.injEq] at h
      rw [← h.1]
      exact hinv
    | some lr =>
      obtain ⟨line, rest0⟩ := lr
      simp only [hg] at h hk
      cases hc : starts_with line (str "comment") with
      | true =>
        simp only [hc, if_true] at h hk
        exact ih _ _ _ _ hinv hk h
      | false =>
        simp only [hc, Bool.false_eq_true, if_false] at h hk
        by_cases he : line = str "end_header"
        · simp only [he, if_true, Except.ok.injEq, Option.some.injEq, Prod.mk.injEq] at h
          rw [← h.1]
          exact hinv
        · simp only [he, if_false, Bool.and_eq_true] at h hk
          cases hl : headerLine st (split line) with
          | error e => simp [hl] at h
          | ok o =>
            cases o with
            | none => simp [hl] at h
            | some st2 =>
              simp only [hl] at h
              refine ih _ _ _ _ (headerLine_counted st st2 _ hinv hl ?_) hk.2 h
              intro ty hty
              have h1 := hk.1
              rw [hty] at h1
              exact h1

/-- The initial locals have no column and no property name. -/
theorem columnsCounted_init : ColumnsCounted {} := fun _ => rfl

/-! ## Every column holds `size()` rows -/

/-- Counterexample to C18 as stated: `load` succeeds on a file that declares the element
`vertex` twice with one row, on a file that declares the property `x` twice, and on a file
with the property type `foo`; in the first document both columns hold two rows and `size()`
is 1, in the second the first column holds no row and the second two, in the third the one
column holds two rows. -/
theorem C18_counterexample :
    load .little duplicateElementFile = .ok (some duplicateElementDocument) ∧
    load .little duplicatePropertyFile = .ok (some duplicatePropertyDocument) ∧
    load .little unknownTypeFile =
      .ok (some { mElements := [(str "vertex", unknownTypeElement)] }) ∧
    ¬ (∀ doc, load .little duplicateElementFile = .ok (some doc) →
        ∀ n e, Map.lookup doc.mElements n = some e → ∀ c ∈ e.mProperties, c.rows = e.size) ∧
    ¬ (∀ doc, load .little duplicatePropertyFile = .ok (some doc) →
        ∀ n e, Map.lookup doc.mElements n = some e → ∀ c ∈ e.mProperties, c.rows = e.size) ∧
    ¬ (∀ doc, load .little unknownTypeFile = .ok (some doc) →
        ∀ n e, Map.lookup doc.mElements n = some e → ∀ c ∈ e.mProperties, c.rows = e.size) := by
  have h1 : load .little duplicateElementFile = .ok (some duplicateElementDocument) := by
    decide!
  have h2 : load .little duplicatePropertyFile = .ok (some duplicatePropertyDocument) := by
    decide!
  have h3 : load .little unknownTypeFile =
      .ok (some { mElements := [(str "vertex", unknownTypeElement)] }) := by decide!
  refine ⟨h1, h2, h3, fun h => ?_, fun h => ?_, fun h => ?_⟩
  · have := h _ h1 (str "vertex") _ rfl (.value .int32 { mValues := [some 1, some 3] })
      (by decide)
    revert this
    decide
  · have := h _ h2 (str "vertex") _ rfl (.value .int32 { mValues := [] }) (by decide)
    revert this
    decide
  · have := h _ h3 (str "vertex") _ rfl
      (.value .float32 { mValues := [some floatOne, some floatTwo] }) (by decide)
    revert this
    decide

/-- C18 (amended): for every input on which `load` succeeds and whose header declares no
element name twice and no property name twice under one element name, and whose property
lines all have a type token of the alias table, every column of every element of the
returned document holds exactly `size()` rows.  The names declared are the locals
`elementNames` and `propertyNamesPerElement` that the header loop leaves. -/
theorem C18_rows_equal_size (native : Endian) (file rest fin : List Nat) (st : HeaderState)
    (doc : PLYPolygon)
    (hply : getline file = some (str "ply", rest))
    (hhead : headerLoop rest.length {} rest = .ok (some (st, fin)))
    (helems : st.elementNames.Nodup)
    (hprops : ∀ n ps, Map.lookup st.propertyNamesPerElement n = some ps → ps.Nodup)
    (htypes : propertyTypesKnown rest.length rest = true)
    (hload : load native file = .ok (some doc)) :
    ∀ n e, Map.lookup doc.mElements n = some e → ∀ c ∈ e.mProperties, c.rows = e.size := by
  obtain ⟨hcols, hkeys, hnames⟩ := headerLoop_declared _ _ _ _ _ declaredInv_init hhead
  have hcount : ColumnsCounted st :=
    headerLoop_counted _ _ _ _ _ columnsCounted_init htypes hhead
  rw [load_eq_loadAfterMagic, hply] at hload
  simp only [ne_eq, not_true_eq_false, if_false, loadAfterMagic, hhead] at hload
  cases hb : bodyLoop native st.valueFormat st.propertyNamesPerElement st.elementNames
      st.polygon { buf := fin, failed := false } with
  | error f => simp [hb] at hload
  | ok o =>
    cases o with
    | none => simp [hb] at hload
    | some r =>
      obtain ⟨doc1, s⟩ := r
      simp only [hb, Except.ok.injEq, Option.some.injEq] at hload
      subst hload
      refine bodyLoop_rows native st.valueFormat st.propertyNamesPerElement st.elementNames
        st.polygon doc1 _ s helems ?_ ?_ hb
      · intro n hn
        have hc := hnames n hn
        unfold Map.contains at hc
        cases hl : Map.lookup st.polygon.mElements n with
        | none => rw [hl] at hc; cases hc
        | some e =>
          have hd := hcols n
          rw [hl] at hd
          simp only [Option.getD_some] at hd ⊢
          have hnd : ((Map.lookup st.propertyNamesPerElement n).getD []).Nodup := by
            cases hp : Map.lookup st.propertyNamesPerElement n with
            | none => exact List.nodup_nil
            | some ps => exact hprops n ps hp
          have hlen := hcount n
          rw [hl] at hlen
          simp only [Option.getD_some] at hlen
          exact ⟨hlen, hd.2.2 hlen hnd, hd.2.1⟩
      · intro n e hn hl
        exact absurd (hkeys n e hl) hn

/-- Witness of C18: the ASCII example file, whose header declares the elements vertex and
face once each and four properties of distinct names. -/
theorem C18_rows_equal_size_witness :
    getline asciiExample = some (str "ply", asciiExample.drop 4) ∧
    headerLoop (asciiExample.drop 4).length {} (asciiExample.drop 4) =
      .ok (some (exampleHeaderState, str "0 0 0\n1 0 0\n0 1 0\n3 0 1 2\n")) ∧
    exampleHeaderState.elementNames.Nodup ∧
    propertyTypesKnown (asciiExample.drop 4).length (asciiExample.drop 4) = true ∧
    load .little asciiExample = .ok (some exampleDocument) ∧
    ∀ n e, Map.lookup exampleDocument.mElements n = some e →
      ∀ c ∈ e.mProperties, c.rows = e.size := by
  have hply : getline asciiExample = some (str "ply", asciiExample.drop 4) := by decide!
  have hhead : headerLoop (asciiExample.drop 4).length {} (asciiExample.drop 4) =
      .ok (some (exampleHeaderState, str "0 0 0\n1 0 0\n0 1 0\n3 0 1 2\n")) := by decide!
  have htypes : propertyTypesKnown (asciiExample.drop 4).length (asciiExample.drop 4) =
      true := by decide!
  have hload : load .little asciiExample = .ok (some exampleDocument) := by decide!
  refine ⟨hply, hhead, by decide, htypes, hload,
    C18_rows_equal_size .little asciiExample (asciiExample.drop 4)
      (str "0 0 0\n1 0 0\n0 1 0\n3 0 1 2\n") exampleHeaderState exampleDocument
      hply hhead (by decide) ?_ htypes hload⟩
  intro n ps h
  simp only [exampleHeaderState, Map.lookup] at h
  split at h
  · cases h; decide
  · split at h
    · cases h; decide
    · cases h

/-! ## Elements of size zero in the body loop -/

/-- Storing under a key the value that is stored under it changes nothing. -/
theorem Map.assign_of_lookup {V : Type} (m : Map V) (n : Name) (v : V)
    (h : Map.lookup m n = some v) : Map.assign m n v = m := by
  induction m with
  | nil => simp [Map.lookup] at h
  | cons kv m ih =>
    obtain ⟨k, w⟩ := kv
    by_cases hn : n = k
    · simp only [Map.lookup, hn, if_true, Option.some.injEq] at h
      simp [Map.assign, hn, h]
    · simp only [Map.lookup, hn, if_false] at h
      simp [Map.assign, hn, ih h]

/-- The pass of the body loop over an element of size 0: no row is decoded, nothing is
read, and the element is stored back as it was. -/
theorem bodyLoop_zero_pass (native : Endian) (valueFormat : PLYValueFormat)
    (pn : Map (List Name)) (n : Name) (names : List Name) (polygon : PLYPolygon)
    (fin : IStream) (h0 : (polygon.getElement n).1.size = 0) :
    bodyLoop native valueFormat pn (n :: names) polygon fin =
      bodyLoop native valueFormat pn names
        ((polygon.getElement n).2.putElement n (polygon.getElement n).1) fin := by
  cases valueFormat <;> simp [bodyLoop, h0, asciiRows, binaryRows]

/-- The pass of the body loop over a stored element of size 0 changes neither the document
nor the stream. -/
theorem bodyLoop_zero (native : Endian) (valueFormat : PLYValueFormat)
    (pn : Map (List Name)) (n : Name) (names : List Name) (polygon : PLYPolygon)
    (fin : IStream) (e : PLYElement) (hl : Map.lookup polygon.mElements n = some e)
    (h0 : e.size = 0) :
    bodyLoop native valueFormat pn (n :: names) polygon fin =
      bodyLoop native valueFormat pn names polygon fin := by
  have hg : polygon.getElement n = (e, polygon) := by simp [PLYPolygon.getElement, hl]
  rw [bodyLoop_zero_pass native valueFormat pn n names polygon fin (by rw [hg]; exact h0), hg]
  simp only [PLYPolygon.putElement, Map.assign_of_lookup _ _ _ hl]

/-- The body loop leaves a stored element of size 0 as it is, whatever names it runs over. -/
theorem bodyLoop_keeps_zero (native : Endian) (valueFormat : PLYValueFormat)
    (pn : Map (List Name)) (n : Name) (e : PLYElement) (h0 : e.size = 0)
    (names : List Name) :
    ∀ (polygon doc : PLYPolygon) (fin s : IStream),
      Map.lookup polygon.mElements n = some e →
      bodyLoop native valueFormat pn names polygon fin = .ok (some (doc, s)) →
      Map.lookup doc.mElements n = some e := by
  induction names with
  | nil =>
    intro polygon doc fin s hl h
    simp only [bodyLoop, Except.ok.injEq, Option.some.injEq, Prod.mk.injEq] at h
    rw [← h.1]
    exact hl
  | cons m names ih =>
    intro polygon doc fin s hl h
    by_cases hm : m = n
    · subst hm
      rw [bodyLoop_zero native valueFormat pn m names polygon fin e hl h0] at h
      exact ih _ _ _ _ hl h
    · obtain ⟨e1, fin1, hrest, _, _⟩ :=
        bodyLoop_pass native valueFormat pn m names polygon doc fin s h
      refine ih _ _ _ _ ?_ hrest
      rw [lookup_putElement_getElement, if_neg (fun e0 => hm e0.symm)]
      exact hl

/-- A pass of the header loop keeps the size of every element of the document. -/
theorem headerLine_size (st st1 : HeaderState) (tokens : List Name) (n : Name)
    (e : PLYElement) (h : headerLine st tokens = .ok (some st1))
    (hl : Map.lookup st.polygon.mElements n = some e) :
    ∃ e1, Map.lookup st1.polygon.mElements n = some e1 ∧ e1.size = e.size := by
  rcases headerLine_cases st st1 tokens h with
    ⟨en, name, ty, _, _, _, _, h3⟩ | ⟨name, size, _, _, h3⟩ | ⟨_, _, h3⟩
  · by_cases hn : n = en
    · subst hn
      have hg : (st.polygon.getElement n).1 = e := by rw [getElement_fst, hl]; rfl
      rcases h3 with ⟨w, h3⟩ | h3
      · exact ⟨_, by rw [h3, lookup_putElement_getElement, if_pos rfl],
          by rw [hg]; rfl⟩
      · exact ⟨_, by rw [h3, lookup_putElement_getElement, if_pos rfl],
          by rw [hg]; rfl⟩
    · refine ⟨e, ?_, rfl⟩
      rcases h3 with ⟨w, h3⟩ | h3 <;>
        · rw [h3, lookup_putElement_getElement, if_neg hn]
          exact hl
  · refine ⟨e, ?_, rfl⟩
    rw [h3, lookup_addElement]
    split
    · next hc =>
      rw [← hc.1, hl] at hc
      cases hc.2
    · exact hl
  · exact ⟨e, by rw [h3]; exact hl, rfl⟩
/-- The header loop keeps the size of every element of the document. -/
theorem headerLoop_size (fuel : Nat) :
    ∀ (st st1 : HeaderState) (fin rest : List Nat) (n : Name) (e : PLYElement),
      headerLoop fuel st fin = .ok (some (st1, rest)) →
      Map.lookup st.polygon.mElements n = some e →
      ∃ e1, Map.lookup st1.polygon.mElements n = some e1 ∧ e1.size = e.size := by
  induction fuel with
  | zero =>
    intro st st1 fin rest n e h hl
    simp only [headerLoop, Except.ok.injEq, Option.some.injEq, Prod.mk.injEq] at h
    rw [← h.1]
    exact ⟨e, hl, rfl⟩
  | succ f ih =>
    intro st st1 fin rest n e h hl
    simp only [headerLoop] at h
    cases hg : getline fin with
    | none =>
      simp only [hg, Except.ok.injEq, Option.some.injEq, Prod.mk.injEq] at h
      rw [← h.1]
      exact ⟨e, hl, rfl⟩
    | some lr =>
      obtain ⟨line, rest0⟩ := lr
      simp only [hg] at h
      split at h
      · exact ih _ _ _ _ n e h hl
      · split at h
        · simp only [Except.ok.injEq, Option.some.injEq, Prod.mk.injEq] at h
          rw [← h.1]
          exact ⟨e, hl, rfl⟩
        · cases hline : headerLine st (split line) with
          | error f => simp [hline] at h
          | ok o =>
            cases o with
            | none => simp [hline] at h
            | some st2 =>
              simp only [hline] at h
              obtain ⟨e2, hl2, hs2⟩ := headerLine_size st st2 _ n e hline hl
              obtain ⟨e1, hl1, hs1⟩ := ih _ _ _ _ n e2 h hl2
              exact ⟨e1, hl1, hs1.trans hs2⟩

/-- Counterexample to C20 as stated: the second `element` line of `zeroCountAgainFile`
declares `a` with count 0, and the body decode still reads a row for it.  The column of `a`
holds the rows of the lines `1` and `2` and the row of `b` is decoded from the line `3`;
without the line `element a 0` the row of `b` is decoded from the line `2`. -/
theorem C20_counterexample :
    load .little zeroCountAgainFile = .ok (some (abDocument [some 1, some 2] [some 3])) ∧
    load .little withoutZeroCountFile = .ok (some (abDocument [some 1] [some 2])) ∧
    ¬ (∀ doc, load .little zeroCountAgainFile = .ok (some doc) →
        ∀ e, Map.lookup doc.mElements (str "a") = some e →
          ∀ c ∈ e.mProperties, c.rows = 0) ∧
    ¬ (∀ doc1 doc2, load .little zeroCountAgainFile = .ok (some doc1) →
        load .little withoutZeroCountFile = .ok (some doc2) →
        Map.lookup doc1.mElements (str "b") = Map.lookup doc2.mElements (str "b")) := by
  have h1 : load .little zeroCountAgainFile =
      .ok (some (abDocument [some 1, some 2] [some 3])) := by decide!
  have h2 : load .little withoutZeroCountFile =
      .ok (some (abDocument [some 1] [some 2])) := by decide!
  refine ⟨h1, h2, fun h => ?_, fun h => ?_⟩
  · have := h _ h1 _ rfl (.value .int32 { mValues := [some 1, some 2] }) (by decide)
    revert this
    decide
  · have := h _ _ h1 h2
    revert this
    decide

/-- C20 (amended): for every header and every element whose `size()` is 0 when the header
loop is left, every column of the element has zero rows, its row loop reads no line and no
byte, its pass of the body loop changes neither the document nor the stream, so that the
body loop goes on from the same position as if the name were not in the loop, and the
returned document holds the element as the header left it.  An `element` line with count 0
whose name is not yet in the document enters an element of size 0, and the header loop
never changes the size of an element that is in the document. -/
theorem C20_zero_size_element_reads_nothing (native : Endian) (file rest fin : List Nat)
    (st : HeaderState) (name : Name) (e : PLYElement)
    (hply : getline file = some (str "ply", rest))
    (hhead : headerLoop rest.length {} rest = .ok (some (st, fin)))
    (hl : Map.lookup st.polygon.mElements name = some e) (h0 : e.size = 0) :
    (∀ c ∈ e.mProperties, c.rows = 0) ∧
    (∀ ps lines, asciiRows native ps e.size e lines = .ok (some (e, lines))) ∧
    (∀ valueFormat ps s, binaryRows native valueFormat ps e.size e s = .ok (e, s)) ∧
    (∀ names polygon s, Map.lookup polygon.mElements name = some e →
      bodyLoop native st.valueFormat st.propertyNamesPerElement (name :: names) polygon s =
        bodyLoop native st.valueFormat st.propertyNamesPerElement names polygon s) ∧
    (∀ doc, load native file = .ok (some doc) → Map.lookup doc.mElements name = some e) ∧
    (∀ (st0 : HeaderState) (nm tok : Name) (ts : List Name),
      elementSize tok = .ok 0 → st0.polygon.containsElement nm = false →
      ∃ st1, headerLine st0 (str "element" :: nm :: tok :: ts) = .ok (some st1) ∧
        Map.lookup st1.polygon.mElements nm = some {}) ∧
    (∀ (fuel : Nat) (st0 st1 : HeaderState) (fin0 rest0 : List Nat) (nm : Name)
        (e0 : PLYElement),
      headerLoop fuel st0 fin0 = .ok (some (st1, rest0)) →
      Map.lookup st0.polygon.mElements nm = some e0 →
      ∃ e1, Map.lookup st1.polygon.mElements nm = some e1 ∧ e1.size = e0.size) := by
  obtain ⟨hcols, _, _⟩ := headerLoop_declared _ _ _ _ _ declaredInv_init hhead
  refine ⟨?_, ?_, ?_, ?_, ?_, ?_, ?_⟩
  · have hd := hcols name
    rw [hl] at hd
    exact hd.2.1
  · intro ps lines
    rw [h0]
    rfl
  · intro valueFormat ps s
    rw [h0]
    rfl
  · intro names polygon s hp
    exact bodyLoop_zero native _ _ name names polygon s e hp h0
  · intro doc hload
    rw [load_eq_loadAfterMagic, hply] at hload
    simp only [ne_eq, not_true_eq_false, if_false, loadAfterMagic, hhead] at hload
    cases hb : bodyLoop native st.valueFormat st.propertyNamesPerElement st.elementNames
        st.polygon { buf := fin, failed := false } with
    | error f => simp [hb] at hload
    | ok o =>
      cases o with
      | none => simp [hb] at hload
      | some r =>
        obtain ⟨doc1, s⟩ := r
        simp only [hb, Except.ok.injEq, Option.some.injEq] at hload
        subst hload
        exact bodyLoop_keeps_zero native _ _ name e h0 _ _ _ _ _ hl hb
  · intro st0 nm tok ts htok hnm
    refine ⟨_, headerLine_element st0 nm tok ts 0 htok, ?_⟩
    have hnone : Map.lookup st0.polygon.mElements nm = none := by
      simpa [PLYPolygon.containsElement, Map.contains] using hnm
    simp only [lookup_addElement, hnone, and_self, if_true]
  · intro fuel st0 st1 fin0 rest0 nm e0 h hl0
    exact headerLoop_size fuel st0 st1 fin0 rest0 nm e0 h hl0

/-- Witness of C20: the file `zeroCountFile`, whose element `a` is declared with count 0 and
the property `x`, followed by the element `b` of one row: the row `7` goes to `b`. -/
theorem C20_zero_size_element_reads_nothing_witness :
    getline zeroCountFile = some (str "ply", zeroCountFile.drop 4) ∧
    headerLoop (zeroCountFile.drop 4).length {} (zeroCountFile.drop 4) =
      .ok (some (zeroCountHeaderState, str "7\n")) ∧
    load .little zeroCountFile =
      .ok (some { mElements :=
        [(str "a",
          { mSize := 0
            mProperties := [.value .int32 { mValues := [] }]
            mPropertyIndices := [(str "x", 0)] }),
         (str "b",
          { mSize := 1
            mProperties := [.value .int32 { mValues := [some 7] }]
            mPropertyIndices := [(str "y", 0)] })] }) ∧
    bodyLoop .little .ASCII zeroCountHeaderState.propertyNamesPerElement [str "a", str "b"]
        zeroCountHeaderState.polygon { buf := str "7\n", failed := false } =
      bodyLoop .little .ASCII zeroCountHeaderState.propertyNamesPerElement [str "b"]
        zeroCountHeaderState.polygon { buf := str "7\n", failed := false } := by
  have hply : getline zeroCountFile = some (str "ply", zeroCountFile.drop 4) := by decide!
  have hhead : headerLoop (zeroCountFile.drop 4).length {} (zeroCountFile.drop 4) =
      .ok (some (zeroCountHeaderState, str "7\n")) := by decide!
  have h := C20_zero_size_element_reads_nothing .little zeroCountFile (zeroCountFile.drop 4)
    (str "7\n") zeroCountHeaderState (str "a")
    { mSize := 0
      mProperties := [.value .int32 { mValues := [] }]
      mPropertyIndices := [(str "x", 0)] } hply hhead (by decide) (by decide)
  exact ⟨hply, hhead, by decide!, h.2.2.2.1 [str "b"] zeroCountHeaderState.polygon _ (by decide)⟩

end plypp
